import Mathlib

/-!
The `go262` test runner: exclusion registry, tree of suites and tests, states,
jobs and job queue.

A shallow embedding of the parts of `go262` (package `go262`) that decide the
behaviour of the exclusion registry (`suite-exclusions.go`), of the per-test and
per-suite state values and of the run jobs (`case.go`, `suite.go`), of the
construction of the tree of suites and tests by the directory walk (`suite.go`,
`case.go`), of the assembly of the source of a test and the validation of its
metadata (`case.go`, `case_metadata.go`, `harness_include_cache.go`), and of
the worker pool and job queue (`workerpool.go`).

Conventions of the embedding.

* A Go `string` is a Lean `String`; comparisons and prefix tests are made on its
  list of characters.  Go compares bytes; for UTF-8 text the bytewise
  lexicographic order is the order of the code point sequences, and a byte
  prefix of UTF-8 text by UTF-8 text is a prefix of code points.
* A Go `panic` is the result `none`; a call that returns gives `some` new state.
  A loop that need not terminate takes a number of iterations allowed (`fuel`)
  and gives `none` when it is still running after them.
* A pointer to a test is the value it points to.  A suite is a value in the
  finished tree (`TestSuite`); while the tree is built a suite pointer is the key
  of the suite in `suiteMap` (`SuiteNode`, `TreeState`).  The registry a test or
  suite reaches through its `global` pointer is passed as the argument `g`, the
  include cache as the argument `includeCache`.
* Creating the file `TestExpectations` is taken to succeed; the lines written
  are the path names of `excludeList` after sorting, which the model keeps.
* The goroutines of the job queue are a transition system (`QueueRun`).
-/

namespace Go262

/-! ## Strings -/

/-- Go `strings.HasPrefix(s, pre)`:
`len(s) >= len(pre) && s[:len(pre)] == pre`. -/
def HasPrefix (s pre : String) : Bool :=
  decide (pre.data.length ≤ s.data.length) && decide (s.data.take pre.data.length = pre.data)

/-- Go `strings.Contains(s, " ")`: the one-character string `" "` occurs in `s`. -/
def ContainsSpace (s : String) : Bool :=
  s.data.any (fun c => decide (c = ' '))

/-- Go `a < b` on strings, on the character lists: lexicographic, a proper
initial segment is smaller. -/
def lessChars : List Char → List Char → Bool
  | _, [] => false
  | [], _ :: _ => true
  | a :: as, b :: bs =>
    if a.toNat < b.toNat then true
    else if b.toNat < a.toNat then false
    else lessChars as bs

/-! ## The exclusion registry (`suite-exclusions.go`) -/

/-- The `excludedCase` struct: one excluded path. -/
structure excludedCase where
  pathName : String
  deriving DecidableEq, Repr

/-- The part of `GlobalState` the registry uses: the list of excluded paths. -/
structure GlobalState where
  excludeList : List excludedCase := []
  deriving DecidableEq, Repr

/-- The `exclusionSorter.Less` comparison: `a.pathName < b.pathName`. -/
def exclusionLess (a b : excludedCase) : Bool :=
  lessChars a.pathName.data b.pathName.data

/-- The call `sort.Sort(exclusionSorter(l))`: the slice is left in ascending
order for `Less`.  Entries that are not `Less` either way are equal, so the
sorted order is unique; it is computed here by insertion. -/
def sortExclusions (l : List excludedCase) : List excludedCase :=
  l.insertionSort (fun a b => exclusionLess b a = false)

/-- `GlobalState.isExcluded`: the range loop with its early `return true`. -/
def isExcludedIn (pathName : String) : List excludedCase → Bool
  | [] => false
  | exc :: rest =>
    if exc.pathName = pathName ∨ HasPrefix pathName exc.pathName = true then true
    else isExcludedIn pathName rest

/-- `GlobalState.isExcluded(pathName)`. -/
def GlobalState.isExcluded (g : GlobalState) (pathName : String) : Bool :=
  isExcludedIn pathName g.excludeList

/-- One iteration, at index `i`, of the range loop of `removeExclusion`.

The state is the backing array of `global.excludeList` (its first `n` cells,
`n` the length when the loop starts: no other cell is read or written) and the
current length of the local slice `elist`.  The range loop reads `exc` from the
backing array.  On a match, `elist[i+1:]` panics unless `i+1 <= len(elist)`;
`elist[:i]` is within the capacity; `append` then moves the cells
`i+1 .. len-1` one place down in the same array and `elist` is one shorter. -/
def removeStep (pathName : String) (i : Nat) (s : List excludedCase × Nat) :
    Option (List excludedCase × Nat) :=
  match s.1.get? i with
  | none => some s
  | some exc =>
    if exc.pathName = pathName then
      if i + 1 ≤ s.2 then
        some (s.1.take i ++ (s.1.drop (i + 1)).take (s.2 - (i + 1)) ++ s.1.drop (s.2 - 1),
              s.2 - 1)
      else none
    else some s

/-- The range loop of `removeExclusion`: `k` iterations starting at index `i`. -/
def removeLoop (pathName : String) :
    Nat → Nat → List excludedCase × Nat → Option (List excludedCase × Nat)
  | 0, _, s => some s
  | k + 1, i, s => (removeStep pathName i s).bind (removeLoop pathName k (i + 1))

/-- `GlobalState.writeExcludeList`: sorts `excludeList` in place, then writes
the entries in order and panics at an entry whose path contains a space. -/
def GlobalState.writeExcludeList (g : GlobalState) : Option GlobalState :=
  let sorted := sortExclusions g.excludeList
  if sorted.any (fun exc => ContainsSpace exc.pathName) then none
  else some { g with excludeList := sorted }

/-- `GlobalState.removeExclusion(pathName)`. -/
def GlobalState.removeExclusion (g : GlobalState) (pathName : String) : Option GlobalState :=
  (removeLoop pathName g.excludeList.length 0 (g.excludeList, g.excludeList.length)).bind
    fun s => GlobalState.writeExcludeList { g with excludeList := s.1.take s.2 }

/-- `GlobalState.addExclusion(pathName)`. -/
def GlobalState.addExclusion (g : GlobalState) (pathName : String) : Option GlobalState :=
  (g.removeExclusion pathName).bind fun g1 =>
    GlobalState.writeExcludeList { g1 with excludeList := g1.excludeList ++ [⟨pathName⟩] }

/-- `GlobalState.readExpectations` on the content of `TestExpectations`, given
as its list of lines: every non-empty line is appended as an entry. -/
def GlobalState.readExpectations (g : GlobalState) (lines : List String) : GlobalState :=
  let entries : List excludedCase :=
    (lines.filter (fun l => l.data.length ≠ 0)).map (fun l => ⟨l⟩)
  { g with excludeList := g.excludeList ++ entries }

/-! ## Tests and jobs (`case.go`) -/

/-- The `TestMetadata` struct; the nested struct `Negative` is flattened into
`NegativePhase` and `NegativeType`. -/
structure TestMetadata where
  Description : String := ""
  Info : String := ""
  NegativePhase : String := ""
  NegativeType : String := ""
  EsId : String := ""
  Es6Id : String := ""
  Es5Id : String := ""
  Includes : List String := []
  Timeout : Int := 0
  Author : String := ""
  Flags : List String := []
  Features : List String := []
  deriving DecidableEq, Repr

/-- The flag `onlyStrict`. -/
def StrictFlag : String := "onlyStrict"

/-- The flag `noStrict`. -/
def NonStrictFlag : String := "noStrict"

/-- The flag `raw`. -/
def RawFlag : String := "raw"

/-- Modelled from the spec: the declaration of the struct `TestResult` is not
among the sources.  `TestCase.Run` builds it from the job, the success flag
`err == nil`, the two captured streams and the elapsed time; the spec lists the
same five parts.  The embedded job is kept as its run type (its test is the
test that holds the result), the duration as nanoseconds. -/
structure TestResult where
  RunType : String
  success : Bool
  stderr : String := ""
  stdout : String := ""
  duration : Nat := 0
  deriving DecidableEq, Repr

/-- Modelled from the spec: `TestResult.IsSuccessful`, whose body is not among
the sources, reads the success flag of the result. -/
def TestResult.IsSuccessful (r : TestResult) : Bool := r.success

/-- The `TestCase` struct.  `Suites` holds the pointers to the ancestor suites:
a suite pointer is the key of the suite in `suiteMap` (its clean path), `none`
the nil pointer.  `lastResults` is the map from run type to the last result, an
absent key reading as `none` (the nil pointer). -/
structure TestCase where
  PathName : String
  Metadata : TestMetadata := {}
  TestData : String := ""
  Suites : List (Option String) := []
  lastResults : String → Option TestResult := fun _ => none

/-- The `TestJob` struct: a test and the run type requested for it. -/
structure TestJob where
  TestCase : TestCase
  RunType : String

/-- `TestCase.SetExcluded(excluded)`. -/
def TestCase.SetExcluded (g : GlobalState) (testcase : TestCase) (excluded : Bool) :
    Option GlobalState :=
  if !excluded then g.removeExclusion testcase.PathName
  else g.addExclusion testcase.PathName

/-- `TestCase.IsExcluded()`. -/
def TestCase.IsExcluded (g : GlobalState) (testcase : TestCase) : Bool :=
  g.isExcluded testcase.PathName

/-- `TestCase.HasFlag(str)`: some declared flag equals `str`. -/
def TestCase.HasFlag (testcase : TestCase) (str : String) : Bool :=
  testcase.Metadata.Flags.any (fun v => decide (v = str))

/-- `TestCase.DetermineRunJobs()`. -/
def TestCase.DetermineRunJobs (testcase : TestCase) : List TestJob :=
  let onlyStrict := testcase.HasFlag StrictFlag
  let noStrict := testcase.HasFlag NonStrictFlag
  if onlyStrict then [⟨testcase, "strict"⟩]
  else if noStrict then [⟨testcase, "nonstrict"⟩]
  else [⟨testcase, "strict"⟩, ⟨testcase, "nonstrict"⟩]

/-- `TestCase.HasRunType(runType)`. -/
def TestCase.HasRunType (testcase : TestCase) (runType : String) : Bool :=
  let onlyStrict := testcase.HasFlag StrictFlag
  let noStrict := testcase.HasFlag NonStrictFlag
  if noStrict && decide (runType = "strict") then false
  else if onlyStrict && decide (runType ≠ "strict") then false
  else true

/-- The state `wontrun`. -/
def WillNotRunState : String := "wontrun"

/-- The state `hasntrun`. -/
def HasNotRunState : String := "hasntrun"

/-- The state `mostlygood`. -/
def PartialSuccessState : String := "mostlygood"

/-- The state `allgood`. -/
def SuccessState : String := "allgood"

/-- The state `allbad`. -/
def FailureState : String := "allbad"

/-- `TestCase.StateValue(runType)`. -/
def TestCase.StateValue (g : GlobalState) (testcase : TestCase) (runType : String) : String :=
  if !testcase.HasRunType runType || testcase.IsExcluded g then WillNotRunState
  else
    match testcase.lastResults runType with
    | none => HasNotRunState
    | some res => if res.IsSuccessful then SuccessState else FailureState

/-! ## Suites (`suite.go`) -/

/-- The `TestSuite` struct: its path, the tests it owns and its child suites. -/
inductive TestSuite where
  | mk (PathName : String) (Tests : List TestCase) (Suites : List TestSuite)

/-- The field `PathName` of a suite. -/
def TestSuite.PathName : TestSuite → String
  | .mk p _ _ => p

/-- The field `Tests` of a suite. -/
def TestSuite.Tests : TestSuite → List TestCase
  | .mk _ ts _ => ts

/-- The field `Suites` of a suite. -/
def TestSuite.Suites : TestSuite → List TestSuite
  | .mk _ _ cs => cs

/-- `TestSuite.SetExcluded(excluded)`: the entry is the path with a trailing `/`. -/
def TestSuite.SetExcluded (g : GlobalState) (suite : TestSuite) (excluded : Bool) :
    Option GlobalState :=
  if !excluded then g.removeExclusion (suite.PathName ++ "/")
  else g.addExclusion (suite.PathName ++ "/")

/-- `TestSuite.IsExcluded()`. -/
def TestSuite.IsExcluded (g : GlobalState) (suite : TestSuite) : Bool :=
  g.isExcluded (suite.PathName ++ "/")

/-- The `SuiteResults` struct: three maps from run type to a count.  The counts
are `float64` in the source; they start at zero and only grow by `+= 1`, so they
are natural numbers, exact in `float64` (below `2^53`).  An absent key reads as
zero. -/
structure SuiteResults where
  TotalCounts : String → Nat
  SuccessCounts : String → Nat
  ExcludedCounts : String → Nat

/-- The map update `m[key] += 1`. -/
def incrCount (m : String → Nat) (key : String) : String → Nat :=
  fun k => if k = key then m k + 1 else m k

/-- The closure `calcForType` of `CalculateResults`, on the results `r`. -/
def calcForType (r : SuiteResults) (runType : String) (state : String) : SuiteResults :=
  if state = WillNotRunState then
    { r with ExcludedCounts := incrCount r.ExcludedCounts runType }
  else
    let r1 := { r with TotalCounts := incrCount r.TotalCounts runType }
    if state = SuccessState then
      { r1 with SuccessCounts := incrCount r1.SuccessCounts runType }
    else r1

/-- The loop of `CalculateResults` over the tests, from the results `r`. -/
def calculateLoop (g : GlobalState) (r : SuiteResults) : List TestCase → SuiteResults
  | [] => r
  | test :: rest =>
    let r1 := calcForType r "strict" (test.StateValue g "strict")
    let r2 := calcForType r1 "nonstrict" (test.StateValue g "nonstrict")
    calculateLoop g r2 rest

/-- `TestSuite.CalculateResults()`. -/
def TestSuite.CalculateResults (g : GlobalState) (suite : TestSuite) : SuiteResults :=
  calculateLoop g ⟨fun _ => 0, fun _ => 0, fun _ => 0⟩ suite.Tests

/-- `TestSuite.StateValue(runType)`.  The halving `TotalCounts[runType]/2` is a
`float64` division, exact for these counts: it is done in `ℚ`. -/
def TestSuite.StateValue (g : GlobalState) (suite : TestSuite) (runType : String) : String :=
  let r := suite.CalculateResults g
  if r.TotalCounts runType = 0 then
    if r.ExcludedCounts runType > 0 then WillNotRunState else HasNotRunState
  else if r.SuccessCounts runType = r.TotalCounts runType then SuccessState
  else if (r.SuccessCounts runType : ℚ) ≥ (r.TotalCounts runType : ℚ) / 2 then
    PartialSuccessState
  else FailureState

/-! ## Jobs of a suite (`suite.go`) -/

/-- The first loop of `TestSuite.DetermineRunJobs`: the jobs of the tests, in
list order. -/
def testListJobs : List TestCase → List TestJob
  | [] => []
  | test :: rest => test.DetermineRunJobs ++ testListJobs rest

mutual
/-- `TestSuite.DetermineRunJobs()`: the jobs of the own tests, then the jobs of
each child suite, recursively. -/
def TestSuite.DetermineRunJobs : TestSuite → List TestJob
  | .mk _ tests suites => testListJobs tests ++ suiteListJobs suites
/-- The second loop of `TestSuite.DetermineRunJobs`, over the child suites. -/
def suiteListJobs : List TestSuite → List TestJob
  | [] => []
  | child :: rest => child.DetermineRunJobs ++ suiteListJobs rest
end

mutual
/-- The tests transitively under a suite: its own tests, then those under each
child suite. -/
def TestSuite.allTests : TestSuite → List TestCase
  | .mk _ tests suites => tests ++ suiteListTests suites
/-- The tests transitively under the suites of a list. -/
def suiteListTests : List TestSuite → List TestCase
  | [] => []
  | child :: rest => child.allTests ++ suiteListTests rest
end

/-! ## Source assembly and metadata validation (`case.go`, `case_metadata.go`,
`harness_include_cache.go`) -/

/-- The negative phase `early`. -/
def EarlyPhase : String := "early"

/-- The negative phase `runtime`. -/
def RuntimePhase : String := "runtime"

/-- `GlobalState.fetchFromIncludeCache(file)`.  The argument `includeCache` is
the map `includeCache` of `GlobalState`, an absent key reading as the empty
string; the result is the error (its message, `none` for nil) and the
content. -/
def fetchFromIncludeCache (includeCache : String → String) (file : String) :
    Option String × String :=
  if (includeCache file).data.length = 0 then (some ("Can't fetch include " ++ file), "")
  else (none, includeCache file)

/-- The loop of `GetSource` over the declared includes:
`source += incsource + "\n"`. -/
def appendIncludes (includeCache : String → String) (source : String) : List String → String
  | [] => source
  | inc :: rest =>
    appendIncludes includeCache
      (source ++ ((fetchFromIncludeCache includeCache inc).2 ++ "\n")) rest

/-- `TestCase.GetSource(job)`; `none` is the panic on an unknown run type. -/
def TestCase.GetSource (includeCache : String → String) (testcase : TestCase) (job : TestJob) :
    Option String :=
  if testcase.HasFlag RawFlag then some testcase.TestData
  else
    let preamble : Option String :=
      if job.RunType = "strict" then
        some ("\"use strict\";" ++ "\nvar strict_mode = true;\n")
      else if job.RunType = "nonstrict" then
        some ("//\"no strict\";" ++ "\nvar strict_mode = false;\n")
      else none
    preamble.map fun source0 =>
      let source1 :=
        if testcase.Metadata.NegativePhase = EarlyPhase then
          source0 ++ "throw 'Expected an early error, but code was executed.';\n"
        else source0
      let source2 := source1 ++ (fetchFromIncludeCache includeCache "sta.js").2
      let source3 := source2 ++ (fetchFromIncludeCache includeCache "cth.js").2
      let source4 := source3 ++ (fetchFromIncludeCache includeCache "assert.js").2
      let source5 := appendIncludes includeCache source4 testcase.Metadata.Includes
      source5 ++ testcase.TestData

/-- The validation at the end of `TestCase.ParseMetadata` (after the comment
`Validate it`), on a test whose metadata is set; `none` is a panic. -/
def TestCase.validateMetadata (testcase : TestCase) : Option Unit :=
  if testcase.Metadata.NegativePhase.data.length > 0 ∧
      testcase.Metadata.NegativePhase ≠ EarlyPhase ∧
      testcase.Metadata.NegativePhase ≠ RuntimePhase then none
  else if testcase.HasFlag RawFlag then
    if testcase.HasFlag StrictFlag || testcase.HasFlag NonStrictFlag then none
    else if testcase.Metadata.Includes.length > 0 then none
    else some ()
  else some ()

/-! ## Worker pool and job queue (`workerpool.go`)

The goroutines are modelled by a transition system.  A state of a queue holds
the place `SendJobs` has reached, the place a call of `Cancel` has reached, the
number of workers that took the queue, and the jobs received by workers so far.
An action lets `SendJobs` take its next step, or starts `Cancel`; an action that
is blocked (a send or receive with no partner) gives `none`.  The workers are
not modelled further: a bound worker is taken to receive a job that is sent. -/

/-- The `WorkerPool` struct: `workerCount`, and the number of goroutines that
`NewWorkerPool` started on `workerFunc` (they all read the channel
`queueChan`). -/
structure WorkerPool where
  workerCount : Int
  workers : Nat
  deriving DecidableEq, Repr

/-- `NewWorkerPool()`, on the value `numCPU` of `runtime.NumCPU()`.  The loop
`for i := 0; i < p.workerCount; i++` starts one goroutine per iteration. -/
def NewWorkerPool (numCPU : Int) : WorkerPool :=
  { workerCount := numCPU - 1, workers := (numCPU - 1).toNat }

/-- The place `SendJobs` has reached. -/
inductive SenderState where
  /-- In the first loop, after `k` sends of the queue on `queueChan`. -/
  | handoff (k : Nat)
  /-- At the head of the range loop with index `i`: at the `select` if there is
  a job with that index, at the end of the loop if not. -/
  | select (i : Nat)
  /-- In the `default` branch, at the send `queue.jobchan <- job` of job `i`. -/
  | sending (i : Nat)
  /-- Returned: the deferred function has closed `jobchan` and
  `ResultChannel`. -/
  | finished
  deriving DecidableEq, Repr

/-- The place a call of `Cancel` has reached. -/
inductive CancelState where
  /-- `Cancel` has not been called. -/
  | notCalled
  /-- `Cancel` is at its send `queue.cancelchan <- 1`, which has no receiver
  yet. -/
  | blocked
  /-- The send was received; `Cancel` has returned. -/
  | returned
  deriving DecidableEq, Repr

/-- The state of one queue and of the goroutines that use it. -/
structure QueueRun where
  sender : SenderState
  canceller : CancelState
  bound : Nat
  dispatched : List TestJob

/-- The two actions: `SendJobs` takes its next step, `Cancel` is called. -/
inductive Action where
  | sendJobs
  | cancel
  deriving DecidableEq, Repr

/-- The state when `SendJobs(jobs)` is called on a new queue. -/
def QueueRun.init : QueueRun :=
  { sender := .handoff 0, canceller := .notCalled, bound := 0, dispatched := [] }

/-- One action on a queue of the pool `pool`, for the job list `jobs`.

* `Cancel` is called: it blocks at its send on the unbuffered `cancelchan`.
  It returns only through the receive of the `select` in `SendJobs`.
* `SendJobs` in its first loop: while `k < workerCount` it sends the queue on
  `queueChan`, which needs a worker of the pool that has not taken the queue;
  then it enters the range loop.
* `SendJobs` at the head of the range loop: past the last job it returns.  At
  the `select`, the receive from `cancelchan` is taken when `Cancel` is blocked
  there (`Cancel` returns, `SendJobs` returns); otherwise the `default` branch is
  entered.
* `SendJobs` at `queue.jobchan <- job`: the send completes when a worker that
  took the queue receives the job. -/
def QueueRun.step (pool : WorkerPool) (jobs : List TestJob) (a : Action) (s : QueueRun) :
    Option QueueRun :=
  match a with
  | .cancel =>
    match s.canceller with
    | .notCalled => some { s with canceller := .blocked }
    | _ => none
  | .sendJobs =>
    match s.sender with
    | .handoff k =>
      if (k : Int) < pool.workerCount then
        if s.bound < pool.workers then
          some { s with sender := .handoff (k + 1), bound := s.bound + 1 }
        else none
      else some { s with sender := .select 0 }
    | .select i =>
      match jobs.get? i with
      | none => some { s with sender := .finished }
      | some _ =>
        if s.canceller = .blocked then
          some { s with sender := .finished, canceller := .returned }
        else some { s with sender := .sending i }
    | .sending i =>
      match jobs.get? i with
      | none => none
      | some job =>
        if 0 < s.bound then
          some { s with sender := .select (i + 1), dispatched := s.dispatched ++ [job] }
        else none
    | .finished => none

/-- A sequence of actions, from the state `s`; `none` when one of them is
blocked. -/
def QueueRun.run (pool : WorkerPool) (jobs : List TestJob) :
    List Action → QueueRun → Option QueueRun
  | [], s => some s
  | a :: rest, s => (s.step pool jobs a).bind (QueueRun.run pool jobs rest)

/-- The invariant of the runs of a queue, used in the proofs: `Cancel` has
returned only if `SendJobs` has; the jobs received by workers are the first
`i` jobs when `SendJobs` is at index `i`, and once it has returned they are a
prefix of the list, the whole list unless `Cancel` has returned. -/
def QueueRun.Inv (jobs : List TestJob) (s : QueueRun) : Prop :=
  (s.canceller = .returned → s.sender = .finished) ∧
  match s.sender with
  | .handoff _ => s.dispatched = []
  | .select i => s.dispatched = jobs.take i
  | .sending i => s.dispatched = jobs.take i
  | .finished => s.dispatched <+: jobs ∧ (s.canceller ≠ .returned → s.dispatched = jobs)

/-! ## Paths (package `path` of the Go library)

`path.Clean`, `path.Split` and `path.Dir` on slash-separated paths, from the
documentation and source of the library: `Clean` drops empty and `.` elements,
lets a `..` element remove the element before it (at the start of a rooted
path it is dropped, at the start of a relative path it is kept), and returns
`.` for an empty result. -/

/-- The elements of a path: the pieces between the slashes. -/
def splitSlash : List Char → List (List Char)
  | [] => [[]]
  | c :: cs =>
    if c = '/' then [] :: splitSlash cs
    else
      match splitSlash cs with
      | [] => [[c]]
      | x :: xs => (c :: x) :: xs

/-- The elements joined by single slashes. -/
def joinSlash : List (List Char) → List Char
  | [] => []
  | [x] => x
  | x :: y :: rest => x ++ '/' :: joinSlash (y :: rest)

/-- One element in the loop of `path.Clean`, on the elements written so far
(the last one first): an empty or `.` element is skipped; `..` removes the
last element when that is a real one, and is otherwise dropped (rooted path) or
written (relative path); any other element is written. -/
def cleanElem (rooted : Bool) (stack : List (List Char)) (elem : List Char) :
    List (List Char) :=
  if elem = [] ∨ elem = ['.'] then stack
  else if elem = ['.', '.'] then
    match stack with
    | [] => if rooted then stack else elem :: stack
    | top :: rest =>
      if top ≠ ['.', '.'] then rest
      else if rooted then stack else elem :: stack
  else elem :: stack

/-- `path.Clean` on the characters of a path. -/
def cleanChars (p : List Char) : List Char :=
  match p with
  | [] => ['.']
  | c :: _ =>
    let rooted := decide (c = '/')
    let stack := (splitSlash p).foldl (cleanElem rooted) []
    let body := joinSlash stack.reverse
    if rooted then '/' :: body
    else if body = [] then ['.'] else body

/-- The directory part of `path.Split`: the path up to and including its last
slash, empty when it has no slash. -/
def dirChars : List Char → List Char
  | [] => []
  | c :: cs => if c = '/' ∨ dirChars cs ≠ [] then c :: dirChars cs else []

/-- `path.Clean(p)`. -/
def path.Clean (p : String) : String := ⟨cleanChars p.data⟩

/-- `path.Dir(p)`: `Clean` of the directory part of `Split(p)`. -/
def path.Dir (p : String) : String := ⟨cleanChars (dirChars p.data)⟩

/-- The shape of the elements written by `path.Clean`, used in the proofs
(the last element first): real elements (not empty, not `.`, not `..`, without
a slash) on top of `..` elements, which a rooted path does not have. -/
def CleanShape (rooted : Bool) (stack : List (List Char)) : Prop :=
  ∃ g d : List (List Char), stack = g ++ d ∧
    (∀ e ∈ g, e ≠ [] ∧ e ≠ ['.'] ∧ e ≠ ['.', '.'] ∧ '/' ∉ e) ∧
    (∀ e ∈ d, e = ['.', '.']) ∧ (rooted = true → d = [])

/-! ## Building the tree (`suite.go`, `case.go`)

During the walk the suites live in `suiteMap` and are reached through pointers.
A suite pointer is modelled by the key of the suite in `suiteMap`: a suite is
created once per clean path and stored under that path, and entries of the map
are never replaced by another suite.  The tests are kept by value: a test is
not changed after `createTestCase` returns. -/

/-- The `TestSuite` struct during the walk: the tests by value, the child
suites by pointer. -/
structure SuiteNode where
  PathName : String
  Tests : List TestCase := []
  Suites : List String := []

/-- The fields `suiteMap`, `testMap` and `rootSuite` of `GlobalState`; an absent
key and the nil pointer are `none`. -/
structure TreeState where
  suiteMap : String → Option SuiteNode := fun _ => none
  testMap : String → Option TestCase := fun _ => none
  rootSuite : Option String := none

/-- The map assignment `m[key] = value`. -/
def mapSet {α : Type} (m : String → Option α) (key : String) (value : α) :
    String → Option α :=
  fun k => if k = key then some value else m k

/-- `GlobalState.FetchSuite(pathName)`: the pointer stored under the clean
path, nil when there is none. -/
def TreeState.FetchSuite (st : TreeState) (pathName : String) : Option String :=
  match st.suiteMap (path.Clean pathName) with
  | some _ => some (path.Clean pathName)
  | none => none

/-- A write through the suite pointer `ptr`. -/
def TreeState.modifySuite (st : TreeState) (ptr : String) (f : SuiteNode → SuiteNode) :
    TreeState :=
  match st.suiteMap ptr with
  | some node => { st with suiteMap := mapSet st.suiteMap ptr (f node) }
  | none => st

/-- `GlobalState.createSuiteIfNeeded(pathName)`: the new state and the pointer
returned.  `none` is a panic: the explicit one on the path `.`, or the nil
dereference `parent.Suites` when no suite is stored for the parent
directory. -/
def TreeState.createSuiteIfNeeded (st : TreeState) (pathName : String) :
    Option (TreeState × String) :=
  let cleanName := path.Clean pathName
  if cleanName = "." then none
  else
    match st.suiteMap cleanName with
    | some _ => some (st, cleanName)
    | none =>
      let st1 : TreeState :=
        { st with suiteMap := mapSet st.suiteMap cleanName { PathName := cleanName } }
      match st.rootSuite with
      | none => some ({ st1 with rootSuite := some cleanName }, cleanName)
      | some _ =>
        match st1.FetchSuite (path.Dir cleanName) with
        | none => none
        | some parent =>
          some (st1.modifySuite parent
            (fun node => { node with Suites := node.Suites ++ [cleanName] }), cleanName)

/-- The loop `for ok := true; ok; ok = pathName != "."` of `createTestCase`: the
pointers appended to `test.Suites`, starting at `pathName`.  The loop need not
terminate: `none` when it is still running after `fuel` iterations. -/
def ancestorLoop (st : TreeState) : Nat → String → Option (List (Option String))
  | 0, _ => none
  | fuel + 1, pathName =>
    let suite := st.FetchSuite pathName
    let next := path.Dir pathName
    if next ≠ "." then (ancestorLoop st fuel next).map (fun rest => suite :: rest)
    else some [suite]

/-- `TestSuite.createTestCase(pathName)` on the suite behind the pointer
`suite`: the test is stored in `testMap` and appended to the tests of the
suite, with the pointers of the loop in its `Suites`. -/
def TreeState.createTestCase (st : TreeState) (fuel : Nat) (suite : String)
    (pathName : String) : Option TreeState :=
  (ancestorLoop st fuel (path.Dir pathName)).map fun suites =>
    let test : TestCase := { PathName := pathName, Suites := suites }
    let st1 : TreeState := { st with testMap := mapSet st.testMap pathName test }
    st1.modifySuite suite (fun node => { node with Tests := node.Tests ++ [test] })

/-- `walkSuitesAndTests` on one entry of the walk (`err` is nil): a directory
gets its suite, a file becomes a test of the suite of its directory; `none` is
the panic when that suite does not exist. -/
def walkSuitesAndTests (fuel : Nat) (st : TreeState) (pathName : String) (isDir : Bool) :
    Option TreeState :=
  if isDir then (st.createSuiteIfNeeded pathName).map (fun r => r.1)
  else
    match st.FetchSuite (path.Dir pathName) with
    | none => none
    | some suite => st.createTestCase fuel suite pathName

/-- The calls of `walkSuitesAndTests` that `filepath.Walk` makes in
`RecursivelyWalk`, for the entries (path, is a directory) in the order of the
walk. -/
def walkEntries (fuel : Nat) : List (String × Bool) → TreeState → Option TreeState
  | [], st => some st
  | (p, isDir) :: rest, st =>
    (walkSuitesAndTests fuel st p isDir).bind (walkEntries fuel rest)

/-- The order of visit of a walk below the directories `dirs` visited so far
(clean paths): a directory entry is a visited directory or lies directly in
one, a file entry lies directly in one. -/
def visitedInOrder (dirs : List String) : List (String × Bool) → Bool
  | [] => true
  | (p, true) :: rest =>
    (decide (path.Clean p ∈ dirs) || decide (path.Dir (path.Clean p) ∈ dirs)) &&
      visitedInOrder (path.Clean p :: dirs) rest
  | (p, false) :: rest => decide (path.Dir p ∈ dirs) && visitedInOrder dirs rest

/-- The invariant of the suite index, used in the proofs: `.` is not a key;
the keys are clean paths and each suite is stored under its own path; the index
is empty as long as there is no root suite, and the root suite is in it; the
parent directory of every suite but the root has a suite; no child list has a
duplicate, and a suite is in the child list of `k` exactly when it is in the
index, is not the root, and its parent directory is `k`. -/
structure TreeInv (st : TreeState) : Prop where
  noDot : st.suiteMap "." = none
  keyClean : ∀ k, (st.suiteMap k).isSome = true → path.Clean k = k
  keyPath : ∀ k node, st.suiteMap k = some node → node.PathName = k
  noRoot : st.rootSuite = none → ∀ k, st.suiteMap k = none
  rootIn : ∀ r, st.rootSuite = some r → (st.suiteMap r).isSome = true
  parentIn : ∀ c, (st.suiteMap c).isSome = true → st.rootSuite ≠ some c →
    (st.suiteMap (path.Dir c)).isSome = true
  childNodup : ∀ k node, st.suiteMap k = some node → node.Suites.Nodup
  childIff : ∀ k node c, st.suiteMap k = some node →
    (c ∈ node.Suites ↔
      ((st.suiteMap c).isSome = true ∧ st.rootSuite ≠ some c ∧ path.Dir c = k))

/-- The invariant of a walk in the order `visitedInOrder`, used in the proofs,
for the root suite `r`, the directories `dirs` and files `files` visited so
far, and a bound `b` on the depth of the directories: the suite index holds
exactly the visited directories, each under its clean path; the parent
directory of every visited directory but the root is visited and less deep;
every test is owned by the suite of its directory only, and its `Suites` are
the suites of that directory, of the parent of that directory, and so on up to
the root. -/
structure WalkInv (r : String) (dirs files : List String) (b : Nat) (st : TreeState) :
    Prop where
  root : st.rootSuite = some r
  keys : ∀ k, (st.suiteMap k).isSome = true ↔ k ∈ dirs
  keyPath : ∀ k node, st.suiteMap k = some node → node.PathName = k
  rootDir : r ∈ dirs
  noDot : "." ∉ dirs
  clean : ∀ c ∈ dirs, path.Clean c = c
  parent : ∀ c ∈ dirs, c ≠ r → path.Dir c ∈ dirs
  rank : ∃ rank : String → Nat,
    (∀ c ∈ dirs, c ≠ r → rank (path.Dir c) < rank c) ∧ (∀ c ∈ dirs, rank c < b)
  owner : ∀ k node t, st.suiteMap k = some node → t ∈ node.Tests → path.Dir t.PathName = k
  tests : ∀ p t, st.testMap p = some t →
    t.PathName = p ∧ (∃ node, st.suiteMap (path.Dir p) = some node ∧ t ∈ node.Tests) ∧
    ∃ m, t.Suites = (List.iterate path.Dir (path.Dir p) (m + 1)).map some ∧
      path.Dir^[m] (path.Dir p) = r ∧
      (∀ x ∈ List.iterate path.Dir (path.Dir p) (m + 1), x ∈ dirs) ∧
      (path.Dir p = r → m = 0)
  visited : ∀ p ∈ files, (st.testMap p).isSome = true

/-! ## Example inputs -/

/-- A test in directory `d` whose last strict run succeeded and whose last
nonstrict run failed. -/
def exampleTestRun : TestCase :=
  { PathName := "d/a.js",
    lastResults := fun rt =>
      if rt = "strict" then some ⟨"strict", true, "", "", 0⟩
      else if rt = "nonstrict" then some ⟨"nonstrict", false, "", "", 0⟩
      else none }

/-- A test in directory `d` flagged `onlyStrict` that has not been run. -/
def exampleTestStrictOnly : TestCase :=
  { PathName := "d/b.js", Metadata := { Flags := ["onlyStrict"] } }

/-- The suite `d` with two tests and a child suite that owns one test. -/
def exampleSuite : TestSuite :=
  .mk "d" [exampleTestRun, exampleTestStrictOnly]
    [.mk "d/sub" [{ PathName := "d/sub/c.js" }] []]

/-- A suite with four tests that apply to strict, two of them successful. -/
def exampleSuiteFour : TestSuite :=
  .mk "d" [exampleTestRun, { exampleTestRun with PathName := "d/c.js" },
    exampleTestStrictOnly, { PathName := "d/e.js" }] []

/-- A test that declares both `onlyStrict` and `noStrict`. -/
def exampleTestBothFlags : TestCase :=
  { PathName := "d/both.js", Metadata := { Flags := ["onlyStrict", "noStrict"] } }

/-- An include cache with the three baseline files and one helper. -/
def exampleIncludeCache : String → String := fun file =>
  if file = "sta.js" then "S;"
  else if file = "cth.js" then "C;"
  else if file = "assert.js" then "A;"
  else if file = "helper.js" then "H;"
  else ""

/-- A negative (early) test that includes `helper.js`. -/
def exampleTestEarly : TestCase :=
  { PathName := "d/early.js", TestData := "body",
    Metadata := { NegativePhase := "early", Includes := ["helper.js"] } }

/-- A raw test. -/
def exampleTestRaw : TestCase :=
  { PathName := "d/raw.js", TestData := "raw body", Metadata := { Flags := ["raw"] } }

/-- The entries of the walk of `./testdata_new`: the root directory, a test in
it, a directory `sub` and a test in `sub`. -/
def exampleWalk : List (String × Bool) :=
  [("./testdata_new", true), ("testdata_new/a.js", false),
   ("testdata_new/sub", true), ("testdata_new/sub/b.js", false)]

/-- A suite whose only test applies to both run types, is not excluded and has
never been run. -/
def exampleSuiteNeverRun : TestSuite :=
  .mk "d/sub" [{ PathName := "d/sub/c.js" }] []

/-! ## Lemmas on strings -/

theorem hasPrefix_iff (s pre : String) :
    HasPrefix s pre = true ↔ ∃ t : String, s = pre ++ t := by
  unfold HasPrefix
  simp only [Bool.and_eq_true, decide_eq_true_eq]
  constructor
  · rintro ⟨_, h⟩
    refine ⟨⟨s.data.drop pre.data.length⟩, ?_⟩
    apply String.ext
    rw [String.data_append]
    conv_lhs => rw [← List.take_append_drop pre.data.length s.data]
    rw [h]
  · rintro ⟨t, rfl⟩
    rw [String.data_append]
    constructor
    · simp
    · simp

theorem isExcludedIn_iff (p : String) (l : List excludedCase) :
    isExcludedIn p l = true ↔
      ∃ e ∈ l, e.pathName = p ∨ ∃ t : String, p = e.pathName ++ t := by
  induction l with
  | nil => simp [isExcludedIn]
  | cons exc rest ih =>
    unfold isExcludedIn
    by_cases h : exc.pathName = p ∨ HasPrefix p exc.pathName = true
    · rw [if_pos h]
      simp only [List.mem_cons, true_iff]
      refine ⟨exc, Or.inl rfl, ?_⟩
      rcases h with h | h
      · exact Or.inl h
      · exact Or.inr ((hasPrefix_iff _ _).1 h)
    · rw [if_neg h, ih]
      constructor
      · rintro ⟨e, he, hp⟩
        exact ⟨e, List.mem_cons_of_mem _ he, hp⟩
      · rintro ⟨e, he, hp⟩
        rcases List.mem_cons.1 he with rfl | he
        · exfalso
          apply h
          rcases hp with hp | hp
          · exact Or.inl hp
          · exact Or.inr ((hasPrefix_iff _ _).2 hp)
        · exact ⟨e, he, hp⟩

/-- C1: `isExcluded(p)` is true exactly when some entry of the registry is
equal to `p` or is a literal string prefix of `p` (`p` is the entry followed by
some string); on the empty registry it is false. -/
theorem isExcluded_iff_entry_prefix (g : GlobalState) (p : String) :
    (g.isExcluded p = true ↔
      ∃ e ∈ g.excludeList, e.pathName = p ∨ ∃ t : String, p = e.pathName ++ t) ∧
    GlobalState.isExcluded { g with excludeList := [] } p = false :=
  ⟨isExcludedIn_iff p g.excludeList, rfl⟩

/-! ## The order of the sort -/

theorem lessChars_asymm (a b : List Char) (h : lessChars a b = true) : lessChars b a = false := by
  induction a generalizing b with
  | nil => cases b <;> simp [lessChars] at h ⊢
  | cons x xs ih =>
    cases b with
    | nil => simp [lessChars] at h
    | cons y ys =>
      simp only [lessChars] at h ⊢
      by_cases h1 : x.toNat < y.toNat
      · have h2 : ¬ y.toNat < x.toNat := by omega
        simp [h1, h2]
      · by_cases h2 : y.toNat < x.toNat
        · simp [h1, h2] at h
        · simp only [h1, h2, if_false] at h ⊢
          exact ih ys h

theorem lessChars_negTrans (a b c : List Char) (h : lessChars c a = true) :
    lessChars c b = true ∨ lessChars b a = true := by
  induction c generalizing a b with
  | nil =>
    cases a with
    | nil => simp [lessChars] at h
    | cons x xs =>
      cases b with
      | nil => right; simp [lessChars]
      | cons y ys => left; simp [lessChars]
  | cons z zs ih =>
    cases a with
    | nil => simp [lessChars] at h
    | cons x xs =>
      cases b with
      | nil => right; simp [lessChars]
      | cons y ys =>
        simp only [lessChars] at h ⊢
        by_cases h1 : z.toNat < x.toNat
        · by_cases h3 : z.toNat < y.toNat
          · left; simp [h3]
          · have h4 : y.toNat < x.toNat := by omega
            right; simp [h4]
        · by_cases h2 : x.toNat < z.toNat
          · simp [h1, h2] at h
          · simp only [h1, h2, if_false] at h
            have hzx : z.toNat = x.toNat := by omega
            by_cases h3 : z.toNat < y.toNat
            · left; simp [h3]
            · by_cases h4 : y.toNat < z.toNat
              · right
                have : y.toNat < x.toNat := by omega
                simp [this]
              · have h5 : ¬ y.toNat < x.toNat := by omega
                have h6 : ¬ x.toNat < y.toNat := by omega
                simp only [h3, h4, h5, h6, if_false]
                exact ih xs ys h

theorem char_eq_of_toNat_eq (x y : Char) (h : x.toNat = y.toNat) : x = y := by
  apply Char.ext
  apply UInt32.ext
  exact h

theorem lessChars_trichotomy (a b : List Char) (h1 : lessChars a b = false)
    (h2 : lessChars b a = false) : a = b := by
  induction a generalizing b with
  | nil => cases b <;> simp [lessChars] at h1 ⊢
  | cons x xs ih =>
    cases b with
    | nil => simp [lessChars] at h2
    | cons y ys =>
      simp only [lessChars] at h1 h2
      by_cases hxy : x.toNat < y.toNat
      · simp [hxy] at h1
      · by_cases hyx : y.toNat < x.toNat
        · simp [hyx] at h2
        · simp only [hxy, hyx, if_false] at h1 h2
          have : x = y := char_eq_of_toNat_eq x y (by omega)
          rw [this, ih ys h1 h2]

instance sortRel_total : IsTotal excludedCase (fun a b => exclusionLess b a = false) :=
  ⟨fun a b => by
    unfold exclusionLess
    cases h : lessChars b.pathName.data a.pathName.data
    · exact Or.inl rfl
    · exact Or.inr (lessChars_asymm _ _ h)⟩

instance sortRel_trans : IsTrans excludedCase (fun a b => exclusionLess b a = false) :=
  ⟨fun a b c hab hbc => by
    unfold exclusionLess at *
    cases h : lessChars c.pathName.data a.pathName.data
    · rfl
    · rcases lessChars_negTrans _ b.pathName.data _ h with h' | h'
      · rw [h'] at hbc; cases hbc
      · rw [h'] at hab; cases hab⟩

theorem sortExclusions_sorted (l : List excludedCase) :
    (sortExclusions l).Pairwise (fun a b => exclusionLess b a = false) :=
  List.sorted_insertionSort _ l

theorem sortExclusions_perm (l : List excludedCase) : (sortExclusions l).Perm l :=
  List.perm_insertionSort _ l

theorem exclusionLess_of_ne (a b : excludedCase) (h : exclusionLess b a = false) (hne : a ≠ b) :
    exclusionLess a b = true := by
  cases h' : exclusionLess a b
  · exfalso
    apply hne
    unfold exclusionLess at h h'
    have := lessChars_trichotomy _ _ h' h
    cases a; cases b
    simp only [excludedCase.mk.injEq]
    exact String.ext this
  · rfl

theorem sortExclusions_strict (l : List excludedCase) (hnd : l.Nodup) :
    (sortExclusions l).Pairwise (fun a b => exclusionLess a b = true) := by
  have hs := sortExclusions_sorted l
  have hn : (sortExclusions l).Nodup := (sortExclusions_perm l).nodup_iff.2 hnd
  have hboth := hs.and hn
  exact hboth.imp (fun ⟨h1, h2⟩ => exclusionLess_of_ne _ _ h1 h2)

/-! ## The loop of `removeExclusion` -/

theorem removeStep_noMatch (p : String) (i : Nat) (arr : List excludedCase) (len : Nat)
    (h : ∀ e ∈ arr.drop i, e.pathName ≠ p) :
    removeStep p i (arr, len) = some (arr, len) := by
  unfold removeStep
  cases hg : arr.get? i with
  | none => rfl
  | some exc =>
    have hmem : exc ∈ arr.drop i := by
      have : (arr.drop i).get? 0 = some exc := by
        rw [List.get?_eq_getElem?] at hg ⊢
        rw [List.getElem?_drop]; simpa using hg
      exact List.get?_mem this
    simp [h exc hmem]

theorem removeLoop_noMatch (p : String) (k : Nat) :
    ∀ (i : Nat) (arr : List excludedCase) (len : Nat),
      (∀ e ∈ arr.drop i, e.pathName ≠ p) →
      removeLoop p k i (arr, len) = some (arr, len) := by
  induction k with
  | zero => intro i arr len _; rfl
  | succ k ih =>
    intro i arr len h
    unfold removeLoop
    rw [removeStep_noMatch p i arr len h]
    simp only [Option.some_bind]
    apply ih
    intro e he
    apply h
    rw [← List.drop_drop 1 i] at he
    exact List.mem_of_mem_drop he

theorem removeLoop_spec (p : String) (rest : List excludedCase) :
    ∀ pre : List excludedCase,
      rest.countP (fun e => decide (e.pathName = p)) ≤ 1 →
      ∃ s, removeLoop p rest.length pre.length (pre ++ rest, (pre ++ rest).length) = some s ∧
        s.1.take s.2 = pre ++ rest.filter (fun e => decide (e.pathName ≠ p)) := by
  induction rest with
  | nil =>
    intro pre _
    exact ⟨_, rfl, by simp⟩
  | cons x xs ih =>
    intro pre hc
    have hget : (pre ++ x :: xs).get? pre.length = some x := by
      rw [List.get?_eq_getElem?, List.getElem?_append_right (le_refl _)]
      simp
    by_cases hx : x.pathName = p
    · -- the entry is removed in place; no later cell holds the path
      have hxs : ∀ e ∈ xs, e.pathName ≠ p := by
        rw [List.countP_cons_of_pos _ _ (by simpa using hx)] at hc
        have h0 : xs.countP (fun e => decide (e.pathName = p)) = 0 := by omega
        intro e he
        have := (List.countP_eq_zero.1 h0) e he
        simpa using this
      have hstep : removeStep p pre.length (pre ++ x :: xs, (pre ++ x :: xs).length) =
          some (pre ++ xs ++ (x :: xs).drop xs.length, pre.length + xs.length) := by
        unfold removeStep
        simp only [hget, hx, if_true]
        have hle : pre.length + 1 ≤ (pre ++ x :: xs).length := by simp
        rw [if_pos hle]
        congr 2
        · congr 1
          · congr 1
            · simp
            · have : (pre ++ x :: xs).drop (pre.length + 1) = xs := by
                rw [show pre ++ x :: xs = (pre ++ [x]) ++ xs by simp]
                rw [List.drop_left' (by simp)]
              rw [this]
              apply List.take_of_length_le
              simp only [List.length_append, List.length_cons]
              omega
          · have : (pre ++ x :: xs).length - 1 = pre.length + xs.length := by simp
            rw [this, List.drop_append]
        · simp
      refine ⟨(pre ++ xs ++ (x :: xs).drop xs.length, pre.length + xs.length), ?_, ?_⟩
      · simp only [List.length_cons]
        unfold removeLoop
        rw [hstep]
        simp only [Option.some_bind]
        apply removeLoop_noMatch
        intro e he
        cases xs with
        | nil => simp at he
        | cons y ys =>
          apply hxs
          have h1 : (pre ++ (y :: ys) ++ (x :: y :: ys).drop (y :: ys).length).drop (pre.length + 1)
              = (ys ++ (y :: ys).drop ys.length) := by
            rw [List.append_assoc, List.drop_append]
            simp
          rw [h1] at he
          rcases List.mem_append.1 he with he | he
          · exact List.mem_cons_of_mem _ he
          · exact List.mem_of_mem_drop he
      · have hf : (x :: xs).filter (fun e => decide (e.pathName ≠ p)) = xs := by
          rw [List.filter_cons_of_neg (by simpa using hx)]
          apply List.filter_eq_self.2
          intro e he
          simpa using hxs e he
        rw [hf]
        show (pre ++ xs ++ (x :: xs).drop xs.length).take (pre.length + xs.length) = pre ++ xs
        rw [List.take_left' (by simp)]
    · -- no match at this index: the state is unchanged
      have hc' : xs.countP (fun e => decide (e.pathName = p)) ≤ 1 := by
        rw [List.countP_cons_of_neg _ _ (by simpa using hx)] at hc
        exact hc
      obtain ⟨s, hs, htake⟩ := ih (pre ++ [x]) hc'
      refine ⟨s, ?_, ?_⟩
      · simp only [List.length_cons]
        unfold removeLoop
        have hstep : removeStep p pre.length (pre ++ x :: xs, (pre ++ x :: xs).length) =
            some (pre ++ x :: xs, (pre ++ x :: xs).length) := by
          unfold removeStep
          simp only [hget, hx, if_false]
        rw [hstep]
        simp only [Option.some_bind]
        have e1 : pre ++ [x] ++ xs = pre ++ x :: xs := by simp
        have e2 : (pre ++ [x]).length = pre.length + 1 := by simp
        rw [e1, e2] at hs
        exact hs
      · rw [htake, List.filter_cons_of_pos (by simpa using hx)]
        simp

/-! ## The registry operations on a list that holds the path at most once -/

theorem mem_sortExclusions (e : excludedCase) (l : List excludedCase) :
    e ∈ sortExclusions l ↔ e ∈ l :=
  (sortExclusions_perm l).mem_iff

theorem writeExcludeList_some (g g' : GlobalState) (h : g.writeExcludeList = some g') :
    (∀ e ∈ g.excludeList, ContainsSpace e.pathName = false) ∧
      g'.excludeList = sortExclusions g.excludeList := by
  unfold GlobalState.writeExcludeList at h
  by_cases hany : (sortExclusions g.excludeList).any (fun exc => ContainsSpace exc.pathName) = true
  · simp [hany] at h
  · simp only [hany, Bool.false_eq_true, if_false, Option.some.injEq] at h
    refine ⟨?_, by rw [← h]⟩
    intro e he
    cases hsp : ContainsSpace e.pathName
    · rfl
    · exfalso
      apply hany
      rw [List.any_eq_true]
      exact ⟨e, (mem_sortExclusions e _).2 he, hsp⟩

theorem writeExcludeList_returns (g : GlobalState)
    (hs : ∀ e ∈ g.excludeList, ContainsSpace e.pathName = false) :
    ∃ g', g.writeExcludeList = some g' := by
  unfold GlobalState.writeExcludeList
  have hany : ¬ (sortExclusions g.excludeList).any (fun exc => ContainsSpace exc.pathName) = true := by
    intro h
    rw [List.any_eq_true] at h
    obtain ⟨e, he, hsp⟩ := h
    rw [hs e ((mem_sortExclusions e _).1 he)] at hsp
    cases hsp
  simp only [hany, Bool.false_eq_true, if_false]
  exact ⟨_, rfl⟩

theorem count_eq_countP_pathName (p : String) (l : List excludedCase) :
    l.count ⟨p⟩ = l.countP (fun e => decide (e.pathName = p)) := by
  unfold List.count
  apply List.countP_congr
  intro e _
  cases e
  simp

theorem removeExclusion_eq (g : GlobalState) (p : String)
    (hc : g.excludeList.count ⟨p⟩ ≤ 1) :
    g.removeExclusion p = GlobalState.writeExcludeList
      { g with excludeList := g.excludeList.filter (fun e => decide (e.pathName ≠ p)) } := by
  rw [count_eq_countP_pathName] at hc
  obtain ⟨s, hs, htake⟩ := removeLoop_spec p g.excludeList [] hc
  simp only [List.nil_append, List.length_nil] at hs htake
  unfold GlobalState.removeExclusion
  rw [hs]
  simp only [Option.some_bind, htake]

theorem removeExclusion_some (g g' : GlobalState) (p : String)
    (hc : g.excludeList.count ⟨p⟩ ≤ 1) (h : g.removeExclusion p = some g') :
    (∀ e ∈ g.excludeList, e.pathName ≠ p → ContainsSpace e.pathName = false) ∧
      g'.excludeList =
        sortExclusions (g.excludeList.filter (fun e => decide (e.pathName ≠ p))) := by
  rw [removeExclusion_eq g p hc] at h
  have := writeExcludeList_some _ _ h
  simpa only [List.mem_filter, decide_eq_true_eq, and_imp] using this

theorem removeExclusion_returns (g : GlobalState) (p : String)
    (hc : g.excludeList.count ⟨p⟩ ≤ 1)
    (hs : ∀ e ∈ g.excludeList, e.pathName ≠ p → ContainsSpace e.pathName = false) :
    ∃ g', g.removeExclusion p = some g' := by
  rw [removeExclusion_eq g p hc]
  apply writeExcludeList_returns
  intro e he
  have hm := List.mem_filter.1 he
  exact hs e hm.1 (by simpa using hm.2)

theorem count_filter_ne (p : String) (l : List excludedCase) :
    (l.filter (fun e => decide (e.pathName ≠ p))).count ⟨p⟩ = 0 := by
  rw [List.count_eq_zero]
  intro h
  have := (List.mem_filter.1 h).2
  simp at this

theorem addExclusion_some (g g' : GlobalState) (p : String)
    (hc : g.excludeList.count ⟨p⟩ ≤ 1) (h : g.addExclusion p = some g') :
    ((∀ e ∈ g.excludeList, e.pathName ≠ p → ContainsSpace e.pathName = false) ∧
        ContainsSpace p = false) ∧
      g'.excludeList = sortExclusions
        (sortExclusions (g.excludeList.filter (fun e => decide (e.pathName ≠ p))) ++ [⟨p⟩]) := by
  unfold GlobalState.addExclusion at h
  rw [Option.bind_eq_some] at h
  obtain ⟨g1, h1, h2⟩ := h
  obtain ⟨hs1, hl1⟩ := removeExclusion_some g g1 p hc h1
  obtain ⟨hs2, hl2⟩ := writeExcludeList_some _ _ h2
  refine ⟨⟨hs1, ?_⟩, ?_⟩
  · exact hs2 ⟨p⟩ (by simp)
  · rw [hl2]
    show sortExclusions (g1.excludeList ++ [⟨p⟩]) = _
    rw [hl1]

theorem addExclusion_returns (g : GlobalState) (p : String)
    (hc : g.excludeList.count ⟨p⟩ ≤ 1)
    (hs : ∀ e ∈ g.excludeList, e.pathName ≠ p → ContainsSpace e.pathName = false)
    (hp : ContainsSpace p = false) :
    ∃ g', g.addExclusion p = some g' := by
  obtain ⟨g1, h1⟩ := removeExclusion_returns g p hc hs
  obtain ⟨_, hl1⟩ := removeExclusion_some g g1 p hc h1
  unfold GlobalState.addExclusion
  rw [h1]
  simp only [Option.some_bind]
  apply writeExcludeList_returns
  intro e he
  change e ∈ g1.excludeList ++ [⟨p⟩] at he
  rw [hl1] at he
  simp only [List.mem_append, List.mem_singleton] at he
  rcases he with he | rfl
  · rw [mem_sortExclusions] at he
    have hm := List.mem_filter.1 he
    exact hs e hm.1 (by simpa using hm.2)
  · exact hp

instance sortRel_antisymm : IsAntisymm excludedCase (fun a b => exclusionLess b a = false) :=
  ⟨fun a b hab hba => by
    by_contra hne
    have := exclusionLess_of_ne a b hab hne
    rw [this] at hba
    cases hba⟩

theorem sortExclusions_congr (l₁ l₂ : List excludedCase) (h : l₁.Perm l₂) :
    sortExclusions l₁ = sortExclusions l₂ :=
  List.eq_of_perm_of_sorted
    (((sortExclusions_perm l₁).trans h).trans (sortExclusions_perm l₂).symm)
    (List.sorted_insertionSort _ l₁) (List.sorted_insertionSort _ l₂)

theorem count_after_add (p : String) (l : List excludedCase) :
    (sortExclusions (sortExclusions (l.filter (fun e => decide (e.pathName ≠ p))) ++ [⟨p⟩])).count
      ⟨p⟩ = 1 := by
  rw [(sortExclusions_perm _).count_eq, List.count_append, (sortExclusions_perm _).count_eq,
    count_filter_ne]
  simp

theorem filter_after_add (p : String) (l : List excludedCase) :
    ((sortExclusions (sortExclusions (l.filter (fun e => decide (e.pathName ≠ p))) ++ [⟨p⟩])).filter
      (fun e => decide (e.pathName ≠ p))).Perm (l.filter (fun e => decide (e.pathName ≠ p))) := by
  refine ((sortExclusions_perm _).filter _).trans ?_
  rw [List.filter_append]
  have h1 : [(⟨p⟩ : excludedCase)].filter (fun e => decide (e.pathName ≠ p)) = [] := by simp
  rw [h1, List.append_nil]
  refine ((sortExclusions_perm _).filter _).trans ?_
  rw [List.filter_filter]
  simp

/-- The round trip on the registry: on a list that holds `p` at most once, with
no space in `p` or in an entry, `addExclusion(p)` and then `removeExclusion(p)`
both return; the registry is then the sorted list of the original entries other
than `p`, and `isExcluded(p)` is true exactly when an original entry other than
`p` is a literal prefix of `p`. -/
theorem registry_roundTrip (g : GlobalState) (p : String)
    (hc : g.excludeList.count ⟨p⟩ ≤ 1)
    (hs : ∀ e ∈ g.excludeList, ContainsSpace e.pathName = false)
    (hp : ContainsSpace p = false) :
    ∃ g1 g2, g.addExclusion p = some g1 ∧ g1.removeExclusion p = some g2 ∧
      g2.excludeList =
        sortExclusions (g.excludeList.filter (fun e => decide (e.pathName ≠ p))) ∧
      (g2.isExcluded p = true ↔
        ∃ e ∈ g.excludeList, e.pathName ≠ p ∧ ∃ t : String, p = e.pathName ++ t) := by
  obtain ⟨g1, h1⟩ := addExclusion_returns g p hc (fun e he _ => hs e he) hp
  obtain ⟨_, hl1⟩ := addExclusion_some g g1 p hc h1
  have hc1 : g1.excludeList.count ⟨p⟩ ≤ 1 := by
    rw [hl1, count_after_add]
  have hs1 : ∀ e ∈ g1.excludeList, e.pathName ≠ p → ContainsSpace e.pathName = false := by
    intro e he hne
    rw [hl1, mem_sortExclusions] at he
    simp only [List.mem_append, List.mem_singleton] at he
    rcases he with he | rfl
    · rw [mem_sortExclusions] at he
      exact hs e (List.mem_filter.1 he).1
    · exact absurd rfl hne
  obtain ⟨g2, h2⟩ := removeExclusion_returns g1 p hc1 hs1
  obtain ⟨_, hl2⟩ := removeExclusion_some g1 g2 p hc1 h2
  have hlist : g2.excludeList =
      sortExclusions (g.excludeList.filter (fun e => decide (e.pathName ≠ p))) := by
    rw [hl2, hl1]
    exact sortExclusions_congr _ _ (filter_after_add p g.excludeList)
  refine ⟨g1, g2, h1, h2, hlist, ?_⟩
  unfold GlobalState.isExcluded
  rw [isExcludedIn_iff, hlist]
  constructor
  · rintro ⟨e, he, hep⟩
    rw [mem_sortExclusions] at he
    have hm := List.mem_filter.1 he
    have hne : e.pathName ≠ p := by simpa using hm.2
    refine ⟨e, hm.1, hne, ?_⟩
    rcases hep with hep | hep
    · exact absurd hep hne
    · exact hep
  · rintro ⟨e, he, hne, hpre⟩
    refine ⟨e, ?_, Or.inr hpre⟩
    rw [mem_sortExclusions]
    exact List.mem_filter.2 ⟨he, by simpa using hne⟩

/-- C2 (amended): on a registry with no space in an entry, for a test with path
`p`, and for a suite whose path followed by `/` is `p`, when the registry holds
`p` at most once and `p` has no space: `SetExcluded(true)` and then
`SetExcluded(false)` both return, the registry is then the sorted list of the
original entries other than `p`, and `IsExcluded()` is true exactly when an
original entry other than `p` is a literal prefix of `p`. -/
theorem setExcluded_roundTrip (g : GlobalState)
    (hs : ∀ e ∈ g.excludeList, ContainsSpace e.pathName = false) :
    (∀ t : TestCase, g.excludeList.count ⟨t.PathName⟩ ≤ 1 →
      ContainsSpace t.PathName = false →
      ∃ g1 g2, TestCase.SetExcluded g t true = some g1 ∧
        TestCase.SetExcluded g1 t false = some g2 ∧
        g2.excludeList =
          sortExclusions (g.excludeList.filter (fun e => decide (e.pathName ≠ t.PathName))) ∧
        (TestCase.IsExcluded g2 t = true ↔
          ∃ e ∈ g.excludeList, e.pathName ≠ t.PathName ∧
            ∃ r : String, t.PathName = e.pathName ++ r)) ∧
    (∀ suite : TestSuite, g.excludeList.count ⟨suite.PathName ++ "/"⟩ ≤ 1 →
      ContainsSpace (suite.PathName ++ "/") = false →
      ∃ g1 g2, TestSuite.SetExcluded g suite true = some g1 ∧
        TestSuite.SetExcluded g1 suite false = some g2 ∧
        g2.excludeList =
          sortExclusions
            (g.excludeList.filter (fun e => decide (e.pathName ≠ suite.PathName ++ "/"))) ∧
        (TestSuite.IsExcluded g2 suite = true ↔
          ∃ e ∈ g.excludeList, e.pathName ≠ suite.PathName ++ "/" ∧
            ∃ r : String, suite.PathName ++ "/" = e.pathName ++ r)) :=
  ⟨fun t hc hp => registry_roundTrip g t.PathName hc hs hp,
    fun suite hc hp => registry_roundTrip g (suite.PathName ++ "/") hc hs hp⟩

/-- C2, an instance: the registry holds the suite entry `dir/` and the test
`a.js`.  The round trip of `SetExcluded` on the test `d/b.js`, and on the suite
`d`, returns with the registry `a.js, dir/`, and the test, and the suite, is
then not excluded. -/
theorem setExcluded_roundTrip_witness :
    (∀ e ∈ [(⟨"dir/"⟩ : excludedCase), ⟨"a.js"⟩], ContainsSpace e.pathName = false) ∧
    (∃ g1 g2,
      TestCase.SetExcluded { excludeList := [⟨"dir/"⟩, ⟨"a.js"⟩] } exampleTestStrictOnly true
        = some g1 ∧
      TestCase.SetExcluded g1 exampleTestStrictOnly false = some g2 ∧
      g2.excludeList = [⟨"a.js"⟩, ⟨"dir/"⟩] ∧
      TestCase.IsExcluded g2 exampleTestStrictOnly = false) ∧
    (∃ g1 g2,
      TestSuite.SetExcluded { excludeList := [⟨"dir/"⟩, ⟨"a.js"⟩] } exampleSuite true
        = some g1 ∧
      TestSuite.SetExcluded g1 exampleSuite false = some g2 ∧
      g2.excludeList = [⟨"a.js"⟩, ⟨"dir/"⟩] ∧
      TestSuite.IsExcluded g2 exampleSuite = false) :=
  have h := setExcluded_roundTrip { excludeList := [⟨"dir/"⟩, ⟨"a.js"⟩] } (by decide)
  have ht := h.1 exampleTestStrictOnly (by decide) (by decide)
  have hu := h.2 exampleSuite (by decide) (by decide)
  ⟨by decide,
    ht.elim fun g1 h1 => h1.elim fun g2 h2 =>
      have hl : g2.excludeList = [⟨"a.js"⟩, ⟨"dir/"⟩] := h2.2.2.1.trans (by decide)
      ⟨g1, g2, h2.1, h2.2.1, hl, by
        unfold TestCase.IsExcluded GlobalState.isExcluded
        rw [hl]
        decide⟩,
    hu.elim fun g1 h1 => h1.elim fun g2 h2 =>
      have hl : g2.excludeList = [⟨"a.js"⟩, ⟨"dir/"⟩] := h2.2.2.1.trans (by decide)
      ⟨g1, g2, h2.1, h2.2.1, hl, by
        unfold TestSuite.IsExcluded GlobalState.isExcluded
        rw [hl]
        decide⟩⟩

/-- C2 as stated fails: with the suite `a` excluded (entry `a/`), excluding the
test `a/b.js` and including it again returns, and the test is still excluded. -/
theorem setExcluded_roundTrip_still_excluded :
    ((TestSuite.SetExcluded {} (TestSuite.mk "a" [] []) true).bind fun g0 =>
      (TestCase.SetExcluded g0 { PathName := "a/b.js" } true).bind fun g1 =>
        (TestCase.SetExcluded g1 { PathName := "a/b.js" } false).map fun g2 =>
          (g0.excludeList, g2.excludeList, TestCase.IsExcluded g2 { PathName := "a/b.js" }))
      = some ([⟨"a/"⟩], [⟨"a/"⟩], true) := by
  decide

/-- C3, the code at a failing input: `TestExpectations` lists `b` twice, then
`a`.  The first `addExclusion("b")` returns with the registry `a, b, b` (its
`removeExclusion` skipped the second `b`); the second call panics in
`removeExclusion` on the slice expression `elist[i+1:]`. -/
theorem addExclusion_twice_with_duplicate :
    (GlobalState.readExpectations {} ["b", "b", "a"]).addExclusion "b"
        = some { excludeList := [⟨"a"⟩, ⟨"b"⟩, ⟨"b"⟩] } ∧
      GlobalState.addExclusion { excludeList := [⟨"a"⟩, ⟨"b"⟩, ⟨"b"⟩] } "b" = none := by
  decide

/-- C4, the code at a failing input: `TestExpectations` lists `a` twice, then
`b`.  `removeExclusion("a")` returns and the registry still holds `a`: after
the cell at index 0 is removed the second `a` sits at index 0, which the range
loop has passed. -/
theorem removeExclusion_skips_adjacent_duplicate :
    (GlobalState.readExpectations {} ["a", "a", "b"]).removeExclusion "a"
        = some { excludeList := [⟨"a"⟩, ⟨"b"⟩] } ∧
      GlobalState.isExcluded { excludeList := [⟨"a"⟩, ⟨"b"⟩] } "a" = true := by
  decide

/-- The two registry operations on a list without duplicate entries:
`removeExclusion(p)` and `addExclusion(p)` return when no path involved contains
a space, and whenever they return the registry has no duplicate entries and is
in strictly ascending string order; after `addExclusion(p)` the entry `p`
occurs in it exactly once. -/
theorem registry_keeps_sorted_set (g : GlobalState) (p : String)
    (hnd : g.excludeList.Nodup) :
    ((∀ e ∈ g.excludeList, ContainsSpace e.pathName = false) →
        (∃ g', g.removeExclusion p = some g') ∧
        (ContainsSpace p = false → ∃ g', g.addExclusion p = some g')) ∧
    (∀ g', g.removeExclusion p = some g' →
        g'.excludeList.Nodup ∧
        g'.excludeList.Pairwise (fun a b => exclusionLess a b = true)) ∧
    (∀ g', g.addExclusion p = some g' →
        g'.excludeList.Nodup ∧
        g'.excludeList.Pairwise (fun a b => exclusionLess a b = true) ∧
        g'.excludeList.count ⟨p⟩ = 1) := by
  have hc : g.excludeList.count ⟨p⟩ ≤ 1 := List.nodup_iff_count_le_one.1 hnd ⟨p⟩
  have hfn : (g.excludeList.filter (fun e => decide (e.pathName ≠ p))).Nodup := hnd.filter _
  have hadd : (sortExclusions (g.excludeList.filter (fun e => decide (e.pathName ≠ p)))
      ++ [(⟨p⟩ : excludedCase)]).Nodup := by
    rw [List.nodup_append]
    refine ⟨(sortExclusions_perm _).nodup_iff.2 hfn, List.nodup_singleton _, ?_⟩
    intro e he he'
    rw [List.mem_singleton] at he'
    rw [mem_sortExclusions, he'] at he
    have := (List.mem_filter.1 he).2
    simp at this
  refine ⟨?_, ?_, ?_⟩
  · intro hs
    refine ⟨removeExclusion_returns g p hc (fun e he _ => hs e he), ?_⟩
    intro hp
    exact addExclusion_returns g p hc (fun e he _ => hs e he) hp
  · intro g' h
    obtain ⟨_, hl⟩ := removeExclusion_some g g' p hc h
    rw [hl]
    exact ⟨(sortExclusions_perm _).nodup_iff.2 hfn, sortExclusions_strict _ hfn⟩
  · intro g' h
    obtain ⟨_, hl⟩ := addExclusion_some g g' p hc h
    rw [hl]
    exact ⟨(sortExclusions_perm _).nodup_iff.2 hadd, sortExclusions_strict _ hadd,
      count_after_add p g.excludeList⟩

theorem count_after_remove (p : String) (l : List excludedCase) :
    (sortExclusions (l.filter (fun e => decide (e.pathName ≠ p)))).count ⟨p⟩ = 0 := by
  rw [(sortExclusions_perm _).count_eq, count_filter_ne]

/-- The body of `SetExcluded(b)` for the entry `p`, on a registry without
duplicate entries. -/
theorem registry_setExcluded (g : GlobalState) (p : String) (b : Bool)
    (hnd : g.excludeList.Nodup) :
    ((∀ e ∈ g.excludeList, ContainsSpace e.pathName = false) →
        (b = true → ContainsSpace p = false) →
        ∃ g', (if !b then g.removeExclusion p else g.addExclusion p) = some g') ∧
    (∀ g', (if !b then g.removeExclusion p else g.addExclusion p) = some g' →
        g'.excludeList.Nodup ∧
        g'.excludeList.Pairwise (fun x y => exclusionLess x y = true) ∧
        g'.excludeList.count ⟨p⟩ = (if b then 1 else 0)) := by
  obtain ⟨h1, h2, h3⟩ := registry_keeps_sorted_set g p hnd
  have hc : g.excludeList.count ⟨p⟩ ≤ 1 := List.nodup_iff_count_le_one.1 hnd ⟨p⟩
  cases b with
  | false =>
    refine ⟨fun hs _ => (h1 hs).1, ?_⟩
    intro g' h
    have h' : g.removeExclusion p = some g' := h
    obtain ⟨_, hl⟩ := removeExclusion_some g g' p hc h'
    refine ⟨(h2 g' h').1, (h2 g' h').2, ?_⟩
    rw [hl]
    exact count_after_remove p g.excludeList
  | true =>
    refine ⟨fun hs hp => (h1 hs).2 (hp rfl), ?_⟩
    intro g' h
    exact h3 g' h

/-- C5: on a registry without duplicate entries, `SetExcluded(b)` on a test
with path `p`, and on a suite whose path followed by `/` is `p`, returns when
no entry contains a space (and, for `b` true, `p` contains none); and whenever
it returns the registry has no duplicate entries and is in strictly ascending
string order, with the entry `p` in it exactly once after `SetExcluded(true)`
and not at all after `SetExcluded(false)`. -/
theorem setExcluded_keeps_sorted_set (g : GlobalState) (hnd : g.excludeList.Nodup) :
    (∀ (t : TestCase) (b : Bool),
      ((∀ e ∈ g.excludeList, ContainsSpace e.pathName = false) →
          (b = true → ContainsSpace t.PathName = false) →
          ∃ g', TestCase.SetExcluded g t b = some g') ∧
      (∀ g', TestCase.SetExcluded g t b = some g' →
          g'.excludeList.Nodup ∧
          g'.excludeList.Pairwise (fun x y => exclusionLess x y = true) ∧
          g'.excludeList.count ⟨t.PathName⟩ = (if b then 1 else 0))) ∧
    (∀ (suite : TestSuite) (b : Bool),
      ((∀ e ∈ g.excludeList, ContainsSpace e.pathName = false) →
          (b = true → ContainsSpace (suite.PathName ++ "/") = false) →
          ∃ g', TestSuite.SetExcluded g suite b = some g') ∧
      (∀ g', TestSuite.SetExcluded g suite b = some g' →
          g'.excludeList.Nodup ∧
          g'.excludeList.Pairwise (fun x y => exclusionLess x y = true) ∧
          g'.excludeList.count ⟨suite.PathName ++ "/"⟩ = (if b then 1 else 0))) :=
  ⟨fun t b => registry_setExcluded g t.PathName b hnd,
    fun suite b => registry_setExcluded g (suite.PathName ++ "/") b hnd⟩

/-- C5, an instance: the registry `dir/, a.js` has no duplicates.
`SetExcluded(true)` on the test `d/b.js` returns the registry
`a.js, d/b.js, dir/`, which is in strictly ascending order and holds `d/b.js`
once; `SetExcluded(true)` on the suite `d` returns `a.js, d/, dir/`. -/
theorem setExcluded_keeps_sorted_set_witness :
    List.Nodup [(⟨"dir/"⟩ : excludedCase), ⟨"a.js"⟩] ∧
    TestCase.SetExcluded { excludeList := [⟨"dir/"⟩, ⟨"a.js"⟩] } exampleTestStrictOnly true
      = some { excludeList := [⟨"a.js"⟩, ⟨"d/b.js"⟩, ⟨"dir/"⟩] } ∧
    List.Nodup [(⟨"a.js"⟩ : excludedCase), ⟨"d/b.js"⟩, ⟨"dir/"⟩] ∧
    List.Pairwise (fun x y => exclusionLess x y = true)
      [(⟨"a.js"⟩ : excludedCase), ⟨"d/b.js"⟩, ⟨"dir/"⟩] ∧
    List.count ⟨"d/b.js"⟩ [(⟨"a.js"⟩ : excludedCase), ⟨"d/b.js"⟩, ⟨"dir/"⟩] = 1 ∧
    TestSuite.SetExcluded { excludeList := [⟨"dir/"⟩, ⟨"a.js"⟩] } exampleSuite true
      = some { excludeList := [⟨"a.js"⟩, ⟨"d/"⟩, ⟨"dir/"⟩] } ∧
    List.count ⟨"d/"⟩ [(⟨"a.js"⟩ : excludedCase), ⟨"d/"⟩, ⟨"dir/"⟩] = 1 :=
  have h := setExcluded_keeps_sorted_set { excludeList := [⟨"dir/"⟩, ⟨"a.js"⟩] } (by decide)
  have hr : TestCase.SetExcluded { excludeList := [⟨"dir/"⟩, ⟨"a.js"⟩] } exampleTestStrictOnly
      true = some { excludeList := [⟨"a.js"⟩, ⟨"d/b.js"⟩, ⟨"dir/"⟩] } := by decide
  have hq : TestSuite.SetExcluded { excludeList := [⟨"dir/"⟩, ⟨"a.js"⟩] } exampleSuite true
      = some { excludeList := [⟨"a.js"⟩, ⟨"d/"⟩, ⟨"dir/"⟩] } := by decide
  have ht := (h.1 exampleTestStrictOnly true).2 _ hr
  have hu := (h.2 exampleSuite true).2 _ hq
  ⟨by decide, hr, ht.1, ht.2.1, ht.2.2, hq, hu.2.2⟩

/-! ## Test states and run jobs -/

theorem hasFlag_iff (t : TestCase) (str : String) :
    t.HasFlag str = true ↔ str ∈ t.Metadata.Flags := by
  unfold TestCase.HasFlag
  rw [List.any_eq_true]
  constructor
  · rintro ⟨v, hv, h⟩
    rw [decide_eq_true_eq] at h
    exact h ▸ hv
  · intro h
    exact ⟨str, h, by simp⟩

/-- C6: `TestCase.StateValue(rt)` is will-not-run when `HasRunType(rt)` is false
or the test is excluded, whatever result is recorded; otherwise has-not-run
when no result is recorded for `rt`; otherwise success when the recorded result
is successful and failure when it is not. -/
theorem testCase_stateValue_cases (g : GlobalState) (t : TestCase) (rt : String) :
    (t.HasRunType rt = false ∨ t.IsExcluded g = true →
        t.StateValue g rt = WillNotRunState) ∧
    (t.HasRunType rt = true → t.IsExcluded g = false → t.lastResults rt = none →
        t.StateValue g rt = HasNotRunState) ∧
    (∀ res, t.HasRunType rt = true → t.IsExcluded g = false → t.lastResults rt = some res →
        (res.IsSuccessful = true → t.StateValue g rt = SuccessState) ∧
        (res.IsSuccessful = false → t.StateValue g rt = FailureState)) := by
  refine ⟨?_, ?_, ?_⟩
  · intro h
    unfold TestCase.StateValue
    rcases h with h | h <;> simp [h]
  · intro h1 h2 h3
    unfold TestCase.StateValue
    simp [h1, h2, h3]
  · intro res h1 h2 h3
    unfold TestCase.StateValue
    constructor <;> intro h4 <;> simp [h1, h2, h3, h4]

/-- C6, an instance: a test with a successful strict result is `allgood` for
strict, `hasntrun` for nonstrict, and `wontrun` for both once its suite is
excluded. -/
theorem testCase_stateValue_cases_witness :
    TestCase.StateValue {}
      { PathName := "d/a.js",
        lastResults := fun rt => if rt = "strict" then some ⟨"strict", true, "", "", 0⟩ else none }
      "strict" = SuccessState ∧
    TestCase.StateValue { excludeList := [⟨"d/"⟩] }
      { PathName := "d/a.js",
        lastResults := fun rt => if rt = "strict" then some ⟨"strict", true, "", "", 0⟩ else none }
      "strict" = WillNotRunState :=
  ⟨((testCase_stateValue_cases {}
      { PathName := "d/a.js",
        lastResults := fun rt => if rt = "strict" then some ⟨"strict", true, "", "", 0⟩ else none }
      "strict").2.2 ⟨"strict", true, "", "", 0⟩ (by decide) (by decide) (by decide)).1 (by decide),
   (testCase_stateValue_cases { excludeList := [⟨"d/"⟩] }
      { PathName := "d/a.js",
        lastResults := fun rt => if rt = "strict" then some ⟨"strict", true, "", "", 0⟩ else none }
      "strict").1 (Or.inr (by decide))⟩

/-! ## Suite counts and suite states -/

theorem successState_ne_willNotRun : SuccessState ≠ WillNotRunState := by decide

theorem calcForType_excluded (r : SuiteResults) (k st rt : String) :
    (calcForType r k st).ExcludedCounts rt =
      r.ExcludedCounts rt + (if rt = k ∧ st = WillNotRunState then 1 else 0) := by
  have hsw := successState_ne_willNotRun
  unfold calcForType incrCount
  by_cases h1 : st = WillNotRunState
  · by_cases h2 : rt = k <;> simp [h1, h2]
  · by_cases h3 : st = SuccessState
    · subst h3; simp [hsw]
    · simp [h1, h3]

theorem calcForType_total (r : SuiteResults) (k st rt : String) :
    (calcForType r k st).TotalCounts rt =
      r.TotalCounts rt + (if rt = k ∧ st ≠ WillNotRunState then 1 else 0) := by
  have hsw := successState_ne_willNotRun
  unfold calcForType incrCount
  by_cases h1 : st = WillNotRunState
  · simp [h1]
  · by_cases h3 : st = SuccessState
    · subst h3
      by_cases h2 : rt = k <;> simp [hsw, h2]
    · by_cases h2 : rt = k <;> simp [h1, h2, h3]

theorem calcForType_success (r : SuiteResults) (k st rt : String) :
    (calcForType r k st).SuccessCounts rt =
      r.SuccessCounts rt + (if rt = k ∧ st = SuccessState then 1 else 0) := by
  have hsw := successState_ne_willNotRun
  unfold calcForType incrCount
  by_cases h1 : st = WillNotRunState
  · subst h1
    simp [hsw.symm]
  · by_cases h3 : st = SuccessState
    · subst h3
      by_cases h2 : rt = k <;> simp [hsw, h2]
    · by_cases h2 : rt = k <;> simp [h1, h2, h3]

theorem calculateLoop_counts (g : GlobalState) (rt : String)
    (hrt : rt = "strict" ∨ rt = "nonstrict") (ts : List TestCase) :
    ∀ r : SuiteResults,
      (calculateLoop g r ts).ExcludedCounts rt = r.ExcludedCounts rt +
          ts.countP (fun t => decide (t.StateValue g rt = WillNotRunState)) ∧
      (calculateLoop g r ts).TotalCounts rt = r.TotalCounts rt +
          ts.countP (fun t => decide (t.StateValue g rt ≠ WillNotRunState)) ∧
      (calculateLoop g r ts).SuccessCounts rt = r.SuccessCounts rt +
          ts.countP (fun t => decide (t.StateValue g rt = SuccessState)) := by
  induction ts with
  | nil => intro r; simp [calculateLoop]
  | cons t rest ih =>
    intro r
    unfold calculateLoop
    obtain ⟨h1, h2, h3⟩ := ih (calcForType (calcForType r "strict" (t.StateValue g "strict"))
      "nonstrict" (t.StateValue g "nonstrict"))
    simp only [] at h1 h2 h3 ⊢
    rw [h1, h2, h3]
    simp only [calcForType_excluded, calcForType_total, calcForType_success, List.countP_cons]
    have hne : ("strict" : String) ≠ "nonstrict" := by decide
    rcases hrt with rfl | rfl
    · simp only [hne, true_and, false_and, if_false, decide_eq_true_eq]
      refine ⟨by omega, by omega, by omega⟩
    · simp only [hne.symm, true_and, false_and, if_false, decide_eq_true_eq]
      refine ⟨by omega, by omega, by omega⟩

theorem calculateLoop_other (g : GlobalState) (rt : String)
    (h1 : rt ≠ "strict") (h2 : rt ≠ "nonstrict") (ts : List TestCase) :
    ∀ r : SuiteResults,
      (calculateLoop g r ts).ExcludedCounts rt = r.ExcludedCounts rt ∧
      (calculateLoop g r ts).TotalCounts rt = r.TotalCounts rt ∧
      (calculateLoop g r ts).SuccessCounts rt = r.SuccessCounts rt := by
  induction ts with
  | nil => intro r; simp [calculateLoop]
  | cons t rest ih =>
    intro r
    unfold calculateLoop
    obtain ⟨e1, e2, e3⟩ := ih (calcForType (calcForType r "strict" (t.StateValue g "strict"))
      "nonstrict" (t.StateValue g "nonstrict"))
    simp only [] at e1 e2 e3 ⊢
    rw [e1, e2, e3]
    simp [calcForType_excluded, calcForType_total, calcForType_success, h1, h2]

theorem success_le_total (g : GlobalState) (suite : TestSuite) (rt : String) :
    (suite.CalculateResults g).SuccessCounts rt ≤ (suite.CalculateResults g).TotalCounts rt := by
  unfold TestSuite.CalculateResults
  by_cases h1 : rt = "strict" ∨ rt = "nonstrict"
  · obtain ⟨_, e2, e3⟩ := calculateLoop_counts g rt h1 suite.Tests
      ⟨fun _ => 0, fun _ => 0, fun _ => 0⟩
    rw [e2, e3]
    simp only [Nat.zero_add]
    apply List.countP_mono_left
    intro t _ h
    simp only [decide_eq_true_eq] at h ⊢
    rw [h]
    decide
  · push_neg at h1
    obtain ⟨_, e2, e3⟩ := calculateLoop_other g rt h1.1 h1.2 suite.Tests
      ⟨fun _ => 0, fun _ => 0, fun _ => 0⟩
    rw [e2, e3]

/-- C8: for `rt` strict or nonstrict, `CalculateResults` gives as excluded
count the number of directly owned tests whose state for `rt` is will-not-run,
as total count the number whose state is anything else, as success count the
number whose state is success; the results do not depend on the child suites. -/
theorem calculateResults_counts (g : GlobalState) (suite : TestSuite) (rt : String)
    (hrt : rt = "strict" ∨ rt = "nonstrict") :
    (suite.CalculateResults g).ExcludedCounts rt =
        suite.Tests.countP (fun t => decide (t.StateValue g rt = WillNotRunState)) ∧
    (suite.CalculateResults g).TotalCounts rt =
        suite.Tests.countP (fun t => decide (t.StateValue g rt ≠ WillNotRunState)) ∧
    (suite.CalculateResults g).SuccessCounts rt =
        suite.Tests.countP (fun t => decide (t.StateValue g rt = SuccessState)) ∧
    ∀ children : List TestSuite,
      TestSuite.CalculateResults g (TestSuite.mk suite.PathName suite.Tests children) =
        suite.CalculateResults g := by
  obtain ⟨e1, e2, e3⟩ := calculateLoop_counts g rt hrt suite.Tests
    ⟨fun _ => 0, fun _ => 0, fun _ => 0⟩
  simp only [Nat.zero_add] at e1 e2 e3
  exact ⟨e1, e2, e3, fun _ => rfl⟩

theorem half_le_iff (s t : Nat) : ((s : ℚ) ≥ (t : ℚ) / 2) ↔ t ≤ 2 * s := by
  rw [ge_iff_le, div_le_iff₀ (by norm_num : (0 : ℚ) < 2)]
  constructor
  · intro h
    have h' : (t : ℚ) ≤ ((s * 2 : ℕ) : ℚ) := by push_cast; exact h
    have := Nat.cast_le.1 h'
    omega
  · intro h
    have h' : (t : ℚ) ≤ ((s * 2 : ℕ) : ℚ) := Nat.cast_le.2 (by omega)
    push_cast at h'
    exact h'

/-- C7: with `total`, `success`, `excluded` the counts of `CalculateResults`
for `rt`, `TestSuite.StateValue(rt)` is will-not-run if `total = 0` and
`excluded > 0`; has-not-run if `total = 0` and `excluded = 0`; success if
`total > 0` and `success = total`; partial success if `total > 0`,
`success < total` and `2 * success >= total`; failure in every other case.  So
4 applicable tests give partial success with 2 successes, failure with 1. -/
theorem testSuite_stateValue_cases (g : GlobalState) (suite : TestSuite) (rt : String) :
    ((suite.CalculateResults g).TotalCounts rt = 0 →
        (suite.CalculateResults g).ExcludedCounts rt > 0 →
        suite.StateValue g rt = WillNotRunState) ∧
    ((suite.CalculateResults g).TotalCounts rt = 0 →
        (suite.CalculateResults g).ExcludedCounts rt = 0 →
        suite.StateValue g rt = HasNotRunState) ∧
    ((suite.CalculateResults g).TotalCounts rt > 0 →
        (suite.CalculateResults g).SuccessCounts rt = (suite.CalculateResults g).TotalCounts rt →
        suite.StateValue g rt = SuccessState) ∧
    ((suite.CalculateResults g).TotalCounts rt > 0 →
        (suite.CalculateResults g).SuccessCounts rt < (suite.CalculateResults g).TotalCounts rt →
        2 * (suite.CalculateResults g).SuccessCounts rt ≥ (suite.CalculateResults g).TotalCounts rt →
        suite.StateValue g rt = PartialSuccessState) ∧
    ((suite.CalculateResults g).TotalCounts rt > 0 →
        (suite.CalculateResults g).SuccessCounts rt ≠ (suite.CalculateResults g).TotalCounts rt →
        ¬ ((suite.CalculateResults g).SuccessCounts rt < (suite.CalculateResults g).TotalCounts rt ∧
          2 * (suite.CalculateResults g).SuccessCounts rt ≥
            (suite.CalculateResults g).TotalCounts rt) →
        suite.StateValue g rt = FailureState) ∧
    ((suite.CalculateResults g).TotalCounts rt = 4 →
        ((suite.CalculateResults g).SuccessCounts rt = 2 →
          suite.StateValue g rt = PartialSuccessState) ∧
        ((suite.CalculateResults g).SuccessCounts rt = 1 →
          suite.StateValue g rt = FailureState)) := by
  have hle := success_le_total g suite rt
  unfold TestSuite.StateValue
  simp only [half_le_iff]
  generalize (suite.CalculateResults g).TotalCounts rt = T at *
  generalize (suite.CalculateResults g).SuccessCounts rt = S at *
  generalize (suite.CalculateResults g).ExcludedCounts rt = E at *
  refine ⟨?_, ?_, ?_, ?_, ?_, ?_⟩
  · intro h1 h2
    simp [h1, h2]
  · intro h1 h2
    simp [h1, h2]
  · intro h1 h2
    have : T ≠ 0 := by omega
    simp [this, h2]
  · intro h1 h2 h3
    have h4 : T ≠ 0 := by omega
    have h5 : S ≠ T := by omega
    have h6 : T ≤ 2 * S := by omega
    simp [h4, h5, h6]
  · intro h1 h2 h3
    have h4 : T ≠ 0 := by omega
    have h6 : ¬ T ≤ 2 * S := by omega
    simp [h4, h2, h6]
  · intro h1
    subst h1
    constructor
    · intro h2
      subst h2
      simp
    · intro h2
      subst h2
      simp

/-- C7, an instance: `exampleSuiteFour` has four tests that apply to strict,
two of them successful, and its state for strict is `mostlygood`. -/
theorem testSuite_stateValue_cases_witness :
    (exampleSuiteFour.CalculateResults {}).TotalCounts "strict" = 4 ∧
    (exampleSuiteFour.CalculateResults {}).SuccessCounts "strict" = 2 ∧
    exampleSuiteFour.StateValue {} "strict" = "mostlygood" :=
  ⟨by decide, by decide,
    ((testSuite_stateValue_cases {} exampleSuiteFour "strict").2.2.2.2.2 (by decide)).1
      (by decide)⟩

/-- C8, an instance: for strict, `exampleSuite` counts its two own tests in the
total, one of them as a success, none as excluded; the test of its child suite
is not counted. -/
theorem calculateResults_counts_witness :
    (exampleSuite.CalculateResults {}).ExcludedCounts "strict" = 0 ∧
    (exampleSuite.CalculateResults {}).TotalCounts "strict" = 2 ∧
    (exampleSuite.CalculateResults {}).SuccessCounts "strict" = 1 :=
  have h := calculateResults_counts {} exampleSuite "strict" (Or.inl rfl)
  ⟨h.1.trans (by decide), h.2.1.trans (by decide), h.2.2.1.trans (by decide)⟩

/-! ## Run jobs of a test -/

/-- C9, the code at a failing input: for a test that declares both `onlyStrict`
and `noStrict`, `DetermineRunJobs` returns one strict job, although the test
carries `noStrict`, `HasRunType("strict")` is false and its state for strict is
will-not-run. -/
theorem determineRunJobs_both_flags :
    exampleTestBothFlags.DetermineRunJobs.map (fun j => j.RunType) = ["strict"] ∧
    exampleTestBothFlags.HasFlag NonStrictFlag = true ∧
    exampleTestBothFlags.HasRunType "strict" = false ∧
    exampleTestBothFlags.HasRunType "nonstrict" = false ∧
    TestCase.StateValue {} exampleTestBothFlags "strict" = WillNotRunState := by
  decide

theorem determineRunJobs_runType_iff (t : TestCase) (rt : String)
    (hrt : rt = "strict" ∨ rt = "nonstrict")
    (hboth : ¬ (t.HasFlag StrictFlag = true ∧ t.HasFlag NonStrictFlag = true)) :
    rt ∈ t.DetermineRunJobs.map (fun j => j.RunType) ↔ t.HasRunType rt = true := by
  unfold TestCase.DetermineRunJobs TestCase.HasRunType
  have hne : ("nonstrict" : String) ≠ "strict" := by decide
  cases h1 : t.HasFlag StrictFlag <;> cases h2 : t.HasFlag NonStrictFlag <;>
    rcases hrt with rfl | rfl <;> simp [h1, h2, hne, hne.symm] at hboth ⊢

/-- C10: a test with neither `onlyStrict` nor `noStrict` gets exactly two jobs,
strict then nonstrict; with `onlyStrict` and not `noStrict` exactly one job,
strict; with `noStrict` and not `onlyStrict` exactly one job, nonstrict.  Every
job refers to the test itself. -/
theorem determineRunJobs_by_flags (t : TestCase) :
    ("onlyStrict" ∉ t.Metadata.Flags → "noStrict" ∉ t.Metadata.Flags →
        t.DetermineRunJobs = [⟨t, "strict"⟩, ⟨t, "nonstrict"⟩]) ∧
    ("onlyStrict" ∈ t.Metadata.Flags → "noStrict" ∉ t.Metadata.Flags →
        t.DetermineRunJobs = [⟨t, "strict"⟩]) ∧
    ("noStrict" ∈ t.Metadata.Flags → "onlyStrict" ∉ t.Metadata.Flags →
        t.DetermineRunJobs = [⟨t, "nonstrict"⟩]) ∧
    ∀ j ∈ t.DetermineRunJobs, j.TestCase = t := by
  have hs : t.HasFlag StrictFlag = true ↔ "onlyStrict" ∈ t.Metadata.Flags := hasFlag_iff t _
  have hn : t.HasFlag NonStrictFlag = true ↔ "noStrict" ∈ t.Metadata.Flags := hasFlag_iff t _
  refine ⟨?_, ?_, ?_, ?_⟩
  · intro h1 h2
    have h1' : t.HasFlag StrictFlag = false := by
      cases h : t.HasFlag StrictFlag
      · rfl
      · exact absurd (hs.1 h) h1
    have h2' : t.HasFlag NonStrictFlag = false := by
      cases h : t.HasFlag NonStrictFlag
      · rfl
      · exact absurd (hn.1 h) h2
    simp [TestCase.DetermineRunJobs, h1', h2']
  · intro h1 _
    simp [TestCase.DetermineRunJobs, hs.2 h1]
  · intro h2 h1
    have h1' : t.HasFlag StrictFlag = false := by
      cases h : t.HasFlag StrictFlag
      · rfl
      · exact absurd (hs.1 h) h1
    simp [TestCase.DetermineRunJobs, h1', hn.2 h2]
  · intro j hj
    unfold TestCase.DetermineRunJobs at hj
    cases h1 : t.HasFlag StrictFlag <;> cases h2 : t.HasFlag NonStrictFlag <;>
      simp [h1, h2] at hj
    all_goals (rcases hj with rfl | rfl <;> rfl)

/-- C10, an instance: the test flagged `onlyStrict` gets one job, strict; the
unflagged test gets two. -/
theorem determineRunJobs_by_flags_witness :
    "onlyStrict" ∈ exampleTestStrictOnly.Metadata.Flags ∧
    "noStrict" ∉ exampleTestStrictOnly.Metadata.Flags ∧
    exampleTestStrictOnly.DetermineRunJobs = [⟨exampleTestStrictOnly, "strict"⟩] ∧
    exampleTestRun.DetermineRunJobs = [⟨exampleTestRun, "strict"⟩, ⟨exampleTestRun, "nonstrict"⟩] :=
  ⟨by decide, by decide,
    (determineRunJobs_by_flags exampleTestStrictOnly).2.1 (by decide) (by decide),
    (determineRunJobs_by_flags exampleTestRun).1 (by decide) (by decide)⟩

/-! ## Jobs of a suite -/

theorem testListJobs_eq (tests : List TestCase) :
    testListJobs tests = tests.flatMap TestCase.DetermineRunJobs := by
  induction tests with
  | nil => rfl
  | cons t rest ih => simp [testListJobs, ih]

mutual
theorem suiteJobs_eq_allTests :
    (suite : TestSuite) →
      suite.DetermineRunJobs = suite.allTests.flatMap TestCase.DetermineRunJobs
  | .mk _ tests suites => by
    rw [TestSuite.DetermineRunJobs, TestSuite.allTests, List.flatMap_append, testListJobs_eq,
      suiteListJobs_eq_allTests suites]
theorem suiteListJobs_eq_allTests :
    (suites : List TestSuite) →
      suiteListJobs suites = (suiteListTests suites).flatMap TestCase.DetermineRunJobs
  | [] => rfl
  | child :: rest => by
    rw [suiteListJobs, suiteListTests, List.flatMap_append, suiteJobs_eq_allTests child,
      suiteListJobs_eq_allTests rest]
end

theorem suiteListJobs_eq_flatMap (suites : List TestSuite) :
    suiteListJobs suites = suites.flatMap TestSuite.DetermineRunJobs := by
  induction suites with
  | nil => rfl
  | cons c rest ih => simp [suiteListJobs, ih]

theorem suiteListTests_eq_flatMap (suites : List TestSuite) :
    suiteListTests suites = suites.flatMap TestSuite.allTests := by
  induction suites with
  | nil => rfl
  | cons c rest ih => simp [suiteListTests, ih]

/-- C11: `TestSuite.DetermineRunJobs` on a suite is the jobs of its own tests
in list order followed by the jobs of each child suite; it is the jobs of
every test transitively under the suite, each test taken once, and its length
is the sum of the job counts of those tests. -/
theorem suite_determineRunJobs (suite : TestSuite) :
    suite.DetermineRunJobs =
        suite.Tests.flatMap TestCase.DetermineRunJobs ++
          suite.Suites.flatMap TestSuite.DetermineRunJobs ∧
    suite.allTests = suite.Tests ++ suite.Suites.flatMap TestSuite.allTests ∧
    suite.DetermineRunJobs = suite.allTests.flatMap TestCase.DetermineRunJobs ∧
    suite.DetermineRunJobs.length =
        (suite.allTests.map (fun t => t.DetermineRunJobs.length)).sum := by
  refine ⟨?_, ?_, suiteJobs_eq_allTests suite, ?_⟩
  · cases suite with
    | mk p tests suites =>
      rw [TestSuite.DetermineRunJobs, testListJobs_eq, suiteListJobs_eq_flatMap]
      rfl
  · cases suite with
    | mk p tests suites =>
      rw [TestSuite.allTests, suiteListTests_eq_flatMap]
      rfl
  · rw [suiteJobs_eq_allTests suite, List.length_flatMap]
    rfl

theorem determineRunJobs_testCase (t : TestCase) :
    ∀ j ∈ t.DetermineRunJobs, j.TestCase = t := by
  intro j hj
  unfold TestCase.DetermineRunJobs at hj
  cases h1 : t.HasFlag StrictFlag <;> cases h2 : t.HasFlag NonStrictFlag <;>
    simp [h1, h2] at hj
  all_goals (rcases hj with rfl | rfl <;> rfl)

theorem determineRunJobs_ne_nil (t : TestCase) : t.DetermineRunJobs ≠ [] := by
  unfold TestCase.DetermineRunJobs
  cases t.HasFlag StrictFlag <;> cases t.HasFlag NonStrictFlag <;> simp

/-- C12, the code at a failing input: with the suite entry `d/` in the registry
the test `d/a.js` is excluded and its state is `wontrun` for both run types;
`DetermineRunJobs` returns two jobs for it, which are also the first two jobs
of its suite `d`.  It is so for every excluded test: its state is will-not-run
for every run type, `DetermineRunJobs` on it is not empty, and the jobs of
every suite that has the test under it contain a job whose test it is.  The
registry is not an input of `DetermineRunJobs`. -/
theorem excluded_test_still_scheduled :
    (exampleTestRun.IsExcluded { excludeList := [⟨"d/"⟩] } = true ∧
      exampleTestRun.StateValue { excludeList := [⟨"d/"⟩] } "strict" = "wontrun" ∧
      exampleTestRun.StateValue { excludeList := [⟨"d/"⟩] } "nonstrict" = "wontrun" ∧
      exampleTestRun.DetermineRunJobs.map (fun j => (j.TestCase.PathName, j.RunType))
        = [("d/a.js", "strict"), ("d/a.js", "nonstrict")] ∧
      (exampleSuite.DetermineRunJobs.map (fun j => (j.TestCase.PathName, j.RunType))).take 2
        = [("d/a.js", "strict"), ("d/a.js", "nonstrict")]) ∧
    ∀ (g : GlobalState) (t : TestCase), t.IsExcluded g = true →
      (∀ rt, t.StateValue g rt = WillNotRunState) ∧
      t.DetermineRunJobs ≠ [] ∧
      ∀ suite : TestSuite, t ∈ suite.allTests →
        ∃ j ∈ suite.DetermineRunJobs, j.TestCase = t := by
  refine ⟨⟨by decide, by decide, by decide, by decide, by decide⟩, ?_⟩
  intro g t hex
  refine ⟨?_, determineRunJobs_ne_nil t, ?_⟩
  · intro rt
    unfold TestCase.StateValue
    simp [hex]
  · intro suite hmem
    obtain ⟨j, hj⟩ := List.exists_mem_of_ne_nil _ (determineRunJobs_ne_nil t)
    refine ⟨j, ?_, determineRunJobs_testCase t j hj⟩
    rw [suiteJobs_eq_allTests, List.mem_flatMap]
    exact ⟨t, hmem, hj⟩

/-- C11, an instance: `exampleSuite` has three tests under it (two own, one in
its child suite) and five jobs, the jobs of the child's test last. -/
theorem suite_determineRunJobs_witness :
    exampleSuite.allTests.map (fun t => t.PathName) = ["d/a.js", "d/b.js", "d/sub/c.js"] ∧
    exampleSuite.DetermineRunJobs.length = 5 ∧
    exampleSuite.DetermineRunJobs.map (fun j => (j.TestCase.PathName, j.RunType))
      = [("d/a.js", "strict"), ("d/a.js", "nonstrict"), ("d/b.js", "strict"),
         ("d/sub/c.js", "strict"), ("d/sub/c.js", "nonstrict")] :=
  ⟨by decide, (suite_determineRunJobs exampleSuite).2.2.2.trans (by decide), by decide⟩

/-! ## Source assembly and metadata validation -/

theorem fetchFromIncludeCache_content (includeCache : String → String) (file : String) :
    (fetchFromIncludeCache includeCache file).2 = includeCache file := by
  unfold fetchFromIncludeCache
  by_cases h : (includeCache file).data.length = 0
  · rw [if_pos h]
    apply String.ext
    rw [List.length_eq_zero] at h
    rw [h]
  · rw [if_neg h]

theorem foldl_append_init (l : List String) :
    ∀ s : String, l.foldl (fun r x => r ++ x) s = s ++ l.foldl (fun r x => r ++ x) "" := by
  induction l with
  | nil => intro s; simp
  | cons a rest ih =>
    intro s
    rw [List.foldl_cons, List.foldl_cons, ih (s ++ a), ih ("" ++ a), String.empty_append,
      String.append_assoc]

theorem string_join_cons (a : String) (l : List String) :
    String.join (a :: l) = a ++ String.join l := by
  unfold String.join
  rw [List.foldl_cons, foldl_append_init, String.empty_append]

theorem appendIncludes_eq (includeCache : String → String) (incs : List String) :
    ∀ source : String, appendIncludes includeCache source incs =
      source ++ String.join (incs.map (fun inc => includeCache inc ++ "\n")) := by
  induction incs with
  | nil => intro source; simp [appendIncludes, String.join]
  | cons inc rest ih =>
    intro source
    rw [appendIncludes, ih, fetchFromIncludeCache_content, List.map_cons, string_join_cons,
      String.append_assoc]

/-- C19: for a test without the `raw` flag and a strict or nonstrict job,
`GetSource` returns the preamble of the run type, then the early-error guard
line exactly when the negative phase is `early`, then the cached contents of
`sta.js`, `cth.js` and `assert.js`, then the cached content of each declared
include in order, each followed by a newline, then the body of the test; for a
test with the `raw` flag it returns the body unchanged. -/
theorem getSource_assembly (includeCache : String → String) (t : TestCase) (job : TestJob) :
    ("raw" ∉ t.Metadata.Flags → job.RunType = "strict" ∨ job.RunType = "nonstrict" →
      t.GetSource includeCache job = some (
        (if job.RunType = "strict" then "\"use strict\";\nvar strict_mode = true;\n"
          else "//\"no strict\";\nvar strict_mode = false;\n") ++
        (if t.Metadata.NegativePhase = "early" then
          "throw 'Expected an early error, but code was executed.';\n" else "") ++
        includeCache "sta.js" ++ includeCache "cth.js" ++ includeCache "assert.js" ++
        String.join (t.Metadata.Includes.map (fun inc => includeCache inc ++ "\n")) ++
        t.TestData)) ∧
    ("raw" ∈ t.Metadata.Flags → t.GetSource includeCache job = some t.TestData) := by
  constructor
  · intro hraw hrt
    have hraw' : t.HasFlag RawFlag = false := by
      cases h : t.HasFlag RawFlag
      · rfl
      · exact absurd ((hasFlag_iff t _).1 h) hraw
    have hne : ("nonstrict" : String) ≠ "strict" := by decide
    unfold TestCase.GetSource
    simp only [hraw', Bool.false_eq_true, if_false, fetchFromIncludeCache_content,
      appendIncludes_eq, EarlyPhase]
    rcases hrt with h | h
    · simp only [h, if_true, Option.map_some']
      by_cases hp : t.Metadata.NegativePhase = "early"
      · simp only [hp, if_true]
        rfl
      · simp only [hp, if_false, String.append_empty]
        rfl
    · simp only [h, hne, if_false, if_true, Option.map_some']
      by_cases hp : t.Metadata.NegativePhase = "early"
      · simp only [hp, if_true]
        rfl
      · simp only [hp, if_false, String.append_empty]
        rfl
  · intro hraw
    unfold TestCase.GetSource
    simp [(hasFlag_iff t RawFlag).2 hraw]

/-- C19, an instance: the strict source of an early-negative test that
includes `helper.js`, and the source of a raw test. -/
theorem getSource_assembly_witness :
    "raw" ∉ exampleTestEarly.Metadata.Flags ∧
    exampleTestEarly.GetSource exampleIncludeCache ⟨exampleTestEarly, "strict"⟩ =
      some ("\"use strict\";\nvar strict_mode = true;\n" ++
        "throw 'Expected an early error, but code was executed.';\n" ++
        "S;" ++ "C;" ++ "A;" ++ "H;\n" ++ "body") ∧
    exampleTestRaw.GetSource exampleIncludeCache ⟨exampleTestRaw, "nonstrict"⟩ =
      some "raw body" :=
  ⟨by decide,
    ((getSource_assembly exampleIncludeCache exampleTestEarly ⟨exampleTestEarly, "strict"⟩).1
      (by decide) (Or.inl rfl)).trans (by decide),
    (getSource_assembly exampleIncludeCache exampleTestRaw ⟨exampleTestRaw, "nonstrict"⟩).2
      (by decide)⟩

theorem validateMetadata_raw (t : TestCase) (h : t.validateMetadata = some ())
    (hraw : "raw" ∈ t.Metadata.Flags) :
    "onlyStrict" ∉ t.Metadata.Flags ∧ "noStrict" ∉ t.Metadata.Flags ∧
      t.Metadata.Includes = [] := by
  have hr : t.HasFlag RawFlag = true := (hasFlag_iff t RawFlag).2 hraw
  unfold TestCase.validateMetadata at h
  by_cases hp : t.Metadata.NegativePhase.data.length > 0 ∧
      t.Metadata.NegativePhase ≠ EarlyPhase ∧ t.Metadata.NegativePhase ≠ RuntimePhase
  · rw [if_pos hp] at h; cases h
  · rw [if_neg hp, if_pos hr] at h
    by_cases hf : (t.HasFlag StrictFlag || t.HasFlag NonStrictFlag) = true
    · rw [if_pos hf] at h; cases h
    · rw [if_neg hf] at h
      by_cases hi : t.Metadata.Includes.length > 0
      · rw [if_pos hi] at h; cases h
      · simp only [Bool.or_eq_true, not_or, Bool.not_eq_true] at hf
        refine ⟨?_, ?_, ?_⟩
        · intro hm
          rw [(hasFlag_iff t StrictFlag).2 hm] at hf
          exact absurd hf.1 (by decide)
        · intro hm
          rw [(hasFlag_iff t NonStrictFlag).2 hm] at hf
          exact absurd hf.2 (by decide)
        · exact List.length_eq_zero.1 (by omega)

/-- C20, the code at a failing input: the validation of `ParseMetadata`
accepts a test that declares both `onlyStrict` and `noStrict`. -/
theorem validateMetadata_accepts_both_flags :
    exampleTestBothFlags.validateMetadata = some () ∧
    "onlyStrict" ∈ exampleTestBothFlags.Metadata.Flags ∧
    "noStrict" ∈ exampleTestBothFlags.Metadata.Flags := by
  decide

/-! ## Worker pool and job queue -/

theorem QueueRun.inv_init (jobs : List TestJob) : QueueRun.Inv jobs QueueRun.init := by
  constructor
  · intro h; cases h
  · rfl

theorem QueueRun.inv_step (pool : WorkerPool) (jobs : List TestJob) (a : Action)
    (s s' : QueueRun) (hinv : QueueRun.Inv jobs s) (h : s.step pool jobs a = some s') :
    QueueRun.Inv jobs s' := by
  obtain ⟨sender, canceller, bound, dispatched⟩ := s
  obtain ⟨h1, h2⟩ := hinv
  cases a with
  | cancel =>
    cases canceller <;> simp [QueueRun.step] at h
    subst h
    unfold QueueRun.Inv
    refine ⟨fun hc => (by cases hc), ?_⟩
    cases sender <;> simp_all
  | sendJobs =>
    cases sender with
    | handoff k =>
      have hc : canceller ≠ .returned := by
        intro hc; have := h1 hc; cases this
      simp only [QueueRun.step] at h
      split_ifs at h
      · cases h
        exact ⟨fun hr => absurd hr hc, h2⟩
      · cases h
        exact ⟨fun hr => absurd hr hc, by simpa using h2⟩
    | select i =>
      have hc : canceller ≠ .returned := by
        intro hc; have := h1 hc; cases this
      simp only at h2
      simp only [QueueRun.step] at h
      cases hg : jobs.get? i with
      | none =>
        rw [hg] at h
        cases h
        have hlen : jobs.length ≤ i := by
          rw [List.get?_eq_getElem?] at hg
          exact List.getElem?_eq_none_iff.1 hg
        have : dispatched = jobs := by rw [h2, List.take_of_length_le hlen]
        exact ⟨fun hr => absurd hr hc, by rw [this], fun _ => this⟩
      | some job =>
        rw [hg] at h
        simp only at h
        split_ifs at h
        · cases h
          refine ⟨fun _ => rfl, ?_, fun hr => absurd rfl hr⟩
          rw [h2]
          exact List.take_prefix _ _
        · cases h
          exact ⟨fun hr => absurd hr hc, h2⟩
    | sending i =>
      have hc : canceller ≠ .returned := by
        intro hc; have := h1 hc; cases this
      simp only at h2
      simp only [QueueRun.step] at h
      cases hg : jobs.get? i with
      | none => rw [hg] at h; cases h
      | some job =>
        rw [hg] at h
        simp only at h
        split_ifs at h
        cases h
        refine ⟨fun hr => absurd hr hc, ?_⟩
        show dispatched ++ [job] = jobs.take (i + 1)
        rw [List.take_succ, h2]
        rw [List.get?_eq_getElem?] at hg
        rw [hg]
        rfl
    | finished => simp [QueueRun.step] at h

theorem QueueRun.inv_run (pool : WorkerPool) (jobs : List TestJob) (acts : List Action) :
    ∀ s s' : QueueRun, QueueRun.Inv jobs s → QueueRun.run pool jobs acts s = some s' →
      QueueRun.Inv jobs s' := by
  induction acts with
  | nil =>
    intro s s' hinv h
    simp only [QueueRun.run, Option.some.injEq] at h
    exact h ▸ hinv
  | cons a rest ih =>
    intro s s' hinv h
    simp only [QueueRun.run] at h
    rw [Option.bind_eq_some] at h
    obtain ⟨s1, h1, h2⟩ := h
    exact ih s1 s' (QueueRun.inv_step pool jobs a s s1 hinv h1) h2

theorem QueueRun.finished_run (pool : WorkerPool) (jobs : List TestJob) (acts : List Action) :
    ∀ s s' : QueueRun, s.sender = .finished → QueueRun.run pool jobs acts s = some s' →
      s'.sender = .finished ∧ s'.dispatched = s.dispatched := by
  induction acts with
  | nil =>
    intro s s' hf h
    simp only [QueueRun.run, Option.some.injEq] at h
    exact h ▸ ⟨hf, rfl⟩
  | cons a rest ih =>
    intro s s' hf h
    simp only [QueueRun.run] at h
    rw [Option.bind_eq_some] at h
    obtain ⟨s1, h1, h2⟩ := h
    obtain ⟨sender, canceller, bound, dispatched⟩ := s
    simp only at hf
    subst hf
    cases a with
    | sendJobs => simp [QueueRun.step] at h1
    | cancel =>
      cases canceller <;> simp [QueueRun.step] at h1
      subst h1
      exact ih ⟨.finished, .blocked, bound, dispatched⟩ s' rfl h2

theorem QueueRun.run_append (pool : WorkerPool) (jobs : List TestJob) (a b : List Action) :
    ∀ s : QueueRun, QueueRun.run pool jobs (a ++ b) s =
      (QueueRun.run pool jobs a s).bind (QueueRun.run pool jobs b) := by
  induction a with
  | nil => intro s; rfl
  | cons x rest ih =>
    intro s
    simp only [List.cons_append, QueueRun.run]
    cases h : s.step pool jobs x with
    | none => rfl
    | some s1 => simp only [Option.some_bind]; exact ih s1

theorem QueueRun.handoff_phase (pool : WorkerPool) (jobs : List TestJob)
    (hc : pool.workerCount = (pool.workers : Int)) (c : CancelState) (d : List TestJob)
    (m : Nat) :
    ∀ k : Nat, k + m = pool.workers →
      QueueRun.run pool jobs (List.replicate (m + 1) Action.sendJobs)
        { sender := .handoff k, canceller := c, bound := k, dispatched := d } =
      some { sender := .select 0, canceller := c, bound := pool.workers, dispatched := d } := by
  induction m with
  | zero =>
    intro k hk
    simp only [Nat.add_zero] at hk
    subst hk
    simp [QueueRun.run, QueueRun.step, hc]
  | succ m ih =>
    intro k hk
    have hlt : (k : Int) < pool.workerCount := by rw [hc]; omega
    have hb : k < pool.workers := by omega
    rw [List.replicate_succ, QueueRun.run]
    simp only [QueueRun.step, hlt, hb, if_true, Option.some_bind]
    exact ih (k + 1) (by omega)

theorem QueueRun.loop_phase (pool : WorkerPool) (jobs : List TestJob) (b : Nat) (hb : 0 < b)
    (m : Nat) :
    ∀ i : Nat, i + m = jobs.length →
      QueueRun.run pool jobs (List.replicate (2 * m + 1) Action.sendJobs)
        { sender := .select i, canceller := .notCalled, bound := b, dispatched := jobs.take i } =
      some { sender := .finished, canceller := .notCalled, bound := b, dispatched := jobs } := by
  induction m with
  | zero =>
    intro i hi
    simp only [Nat.add_zero] at hi
    have hg : jobs.get? i = none := by
      rw [List.get?_eq_getElem?]
      exact List.getElem?_eq_none_iff.2 (by omega)
    simp [QueueRun.run, QueueRun.step, hg, hi]
  | succ m ih =>
    intro i hi
    have hlt : i < jobs.length := by omega
    have hg : jobs.get? i = some (jobs.get ⟨i, hlt⟩) := List.get?_eq_get hlt
    have hrep : 2 * (m + 1) + 1 = (2 * m + 1) + 1 + 1 := by omega
    have hnb : ¬ (CancelState.notCalled = CancelState.blocked) := by decide
    rw [hrep, List.replicate_succ, List.replicate_succ]
    simp only [QueueRun.run, QueueRun.step, hg, hb, hnb, if_true, if_false, Option.some_bind]
    have ht : jobs.take i ++ [jobs.get ⟨i, hlt⟩] = jobs.take (i + 1) := by
      rw [List.take_succ, ← List.get?_eq_getElem?, hg]
      rfl
    rw [ht]
    exact ih (i + 1) (by omega)

theorem QueueRun.noWorker_run (pool : WorkerPool) (hw : pool.workers = 0)
    (jobs : List TestJob) (acts : List Action) :
    ∀ s s' : QueueRun, s.bound = 0 → s.dispatched = [] →
      QueueRun.run pool jobs acts s = some s' → s'.bound = 0 ∧ s'.dispatched = [] := by
  induction acts with
  | nil =>
    intro s s' hb hd h
    simp only [QueueRun.run, Option.some.injEq] at h
    exact h ▸ ⟨hb, hd⟩
  | cons a rest ih =>
    intro s s' hb hd h
    simp only [QueueRun.run] at h
    rw [Option.bind_eq_some] at h
    obtain ⟨s1, h1, h2⟩ := h
    obtain ⟨sender, canceller, bound, dispatched⟩ := s
    simp only at hb hd
    subst hb hd
    have key : s1.bound = 0 ∧ s1.dispatched = [] := by
      cases a with
      | cancel =>
        cases canceller <;> simp [QueueRun.step] at h1
        subst h1
        exact ⟨rfl, rfl⟩
      | sendJobs =>
        cases sender with
        | handoff k =>
          simp only [QueueRun.step, hw, Nat.lt_irrefl, if_false] at h1
          split_ifs at h1
          cases h1
          exact ⟨rfl, rfl⟩
        | select i =>
          simp only [QueueRun.step] at h1
          cases hg : jobs.get? i with
          | none => rw [hg] at h1; cases h1; exact ⟨rfl, rfl⟩
          | some job =>
            rw [hg] at h1
            simp only at h1
            split_ifs at h1 <;> cases h1 <;> exact ⟨rfl, rfl⟩
        | sending i =>
          simp only [QueueRun.step] at h1
          cases hg : jobs.get? i with
          | none => rw [hg] at h1; cases h1
          | some job => rw [hg] at h1; simp at h1
        | finished => simp [QueueRun.step] at h1
    exact ih s1 s' key.1 key.2 h2

/-- C16, the code at a failing input: with `runtime.NumCPU() = 1` the pool of
`NewWorkerPool` has `workerCount = 0` and no worker goroutine, not the floor
`1`; on such a pool no job of any run of `SendJobs` is ever received by a
worker, and `SendJobs` on a non-empty list returns only by cancellation. -/
theorem newWorkerPool_single_cpu :
    (NewWorkerPool 1).workerCount = 0 ∧ (NewWorkerPool 1).workers = 0 ∧
    ∀ (jobs : List TestJob) (acts : List Action) (s : QueueRun),
      QueueRun.run (NewWorkerPool 1) jobs acts QueueRun.init = some s →
        s.dispatched = [] ∧
        (jobs ≠ [] → s.sender = .finished → s.canceller = .returned) := by
  refine ⟨by decide, by decide, ?_⟩
  intro jobs acts s h
  have h0 := (QueueRun.noWorker_run (NewWorkerPool 1) (by decide) jobs acts _ s rfl rfl h).2
  refine ⟨h0, ?_⟩
  intro hne hf
  have hinv := QueueRun.inv_run (NewWorkerPool 1) jobs acts _ s (QueueRun.inv_init jobs) h
  by_contra hc
  unfold QueueRun.Inv at hinv
  rw [hf] at hinv
  have := hinv.2.2 hc
  rw [h0] at this
  exact hne this.symm

/-- Safety of the stream, on every pool and whenever `Cancel` is called: the
jobs received from the job channel are a prefix of `jobs` in the same order; if
`SendJobs` has returned without having received the cancellation signal they
are the whole list; and once the signal has been received (`Cancel` has
returned) no further job is dispatched. -/
theorem QueueRun.stream_safety (pool : WorkerPool) (jobs : List TestJob)
    (acts : List Action) (s : QueueRun)
    (h : QueueRun.run pool jobs acts QueueRun.init = some s) :
    s.dispatched <+: jobs ∧
    (s.sender = .finished → s.canceller ≠ .returned → s.dispatched = jobs) ∧
    (s.canceller = .returned → ∀ (more : List Action) (s' : QueueRun),
      QueueRun.run pool jobs more s = some s' → s'.dispatched = s.dispatched) := by
  have hinv := QueueRun.inv_run pool jobs acts _ s (QueueRun.inv_init jobs) h
  obtain ⟨sender, canceller, bound, dispatched⟩ := s
  unfold QueueRun.Inv at hinv
  obtain ⟨h1, h2⟩ := hinv
  refine ⟨?_, ?_, ?_⟩
  · cases sender with
    | handoff k => simp only at h2; rw [h2]; exact List.nil_prefix
    | select i => simp only at h2; rw [h2]; exact List.take_prefix _ _
    | sending i => simp only at h2; rw [h2]; exact List.take_prefix _ _
    | finished => exact h2.1
  · intro hf hc
    simp only at hf
    subst hf
    exact h2.2 hc
  · intro hc more s' hrun
    exact (QueueRun.finished_run pool jobs more _ s' (h1 hc) hrun).2

/-- A run in which every worker that took the queue receives each job sent to
it (so the results are consumed): on a pool with at least one worker, `SendJobs`
without cancellation returns with the whole list dispatched. -/
theorem QueueRun.sendJobs_returns (pool : WorkerPool) (jobs : List TestJob)
    (hw : 0 < pool.workers) (hc : pool.workerCount = (pool.workers : Int)) :
    QueueRun.run pool jobs
        (List.replicate (pool.workers + 1 + (2 * jobs.length + 1)) Action.sendJobs)
        QueueRun.init =
      some { sender := .finished, canceller := .notCalled, bound := pool.workers,
             dispatched := jobs } := by
  rw [List.replicate_add, QueueRun.run_append]
  have h1 := QueueRun.handoff_phase pool jobs hc .notCalled [] pool.workers 0 (by omega)
  unfold QueueRun.init
  rw [h1, Option.some_bind]
  have h2 := QueueRun.loop_phase pool jobs pool.workers hw jobs.length 0 (by omega)
  simpa using h2

theorem QueueRun.noCancel_run (pool : WorkerPool) (jobs : List TestJob) (acts : List Action) :
    ∀ s s' : QueueRun, Action.cancel ∉ acts → s.canceller = .notCalled →
      QueueRun.run pool jobs acts s = some s' → s'.canceller = .notCalled := by
  induction acts with
  | nil =>
    intro s s' _ hc h
    simp only [QueueRun.run, Option.some.injEq] at h
    exact h ▸ hc
  | cons a rest ih =>
    intro s s' hn hc h
    simp only [QueueRun.run] at h
    rw [Option.bind_eq_some] at h
    obtain ⟨s1, h1, h2⟩ := h
    have ha : a = Action.sendJobs := by
      cases a with
      | sendJobs => rfl
      | cancel => exact absurd (List.mem_cons_self _ _) hn
    subst ha
    obtain ⟨sender, canceller, bound, dispatched⟩ := s
    simp only at hc
    subst hc
    have key : s1.canceller = .notCalled := by
      cases sender with
      | handoff k =>
        simp only [QueueRun.step] at h1
        split_ifs at h1 <;> cases h1 <;> rfl
      | select i =>
        simp only [QueueRun.step] at h1
        cases hg : jobs.get? i with
        | none => rw [hg] at h1; cases h1; rfl
        | some job =>
          rw [hg] at h1
          have hnb : ¬ (CancelState.notCalled = CancelState.blocked) := by decide
          simp only [if_neg hnb] at h1
          cases h1
          rfl
      | sending i =>
        simp only [QueueRun.step] at h1
        cases hg : jobs.get? i with
        | none => rw [hg] at h1; cases h1
        | some job =>
          rw [hg] at h1
          simp only at h1
          split_ifs at h1
          cases h1
          rfl
      | finished => simp [QueueRun.step] at h1
    exact ih s1 s' (fun hm => hn (List.mem_cons_of_mem _ hm)) key h2

/-- C17, the code at a failing input: on the pool of a machine with one CPU
(`NewWorkerPool` starts no worker), `SendJobs` of a non-empty list with `Cancel`
never called streams no job.  After two steps it is at the send
`queue.jobchan <- job` of the first job, which has no receiver, and no further
step exists; in every run without `Cancel` no job is dispatched, the jobs
dispatched are not the whole list, and `SendJobs` has not returned.  The other
two parts of the claim hold on every pool: the jobs dispatched are always a
prefix of the list, and they no longer change once the cancellation signal has
been received. -/
theorem sendJobs_single_cpu_streams_nothing :
    (∀ (job : TestJob) (rest : List TestJob),
      (QueueRun.run (NewWorkerPool 1) (job :: rest) [.sendJobs, .sendJobs] QueueRun.init).map
          (fun s => (s.sender, s.canceller, s.bound, s.dispatched.length))
        = some (.sending 0, .notCalled, 0, 0) ∧
      ∀ (s : QueueRun), s.sender = .sending 0 → s.bound = 0 →
        QueueRun.step (NewWorkerPool 1) (job :: rest) .sendJobs s = none) ∧
    (∀ (jobs : List TestJob) (acts : List Action) (s : QueueRun),
      jobs ≠ [] → Action.cancel ∉ acts →
      QueueRun.run (NewWorkerPool 1) jobs acts QueueRun.init = some s →
        s.dispatched = [] ∧ s.dispatched ≠ jobs ∧ s.sender ≠ .finished) ∧
    (∀ (pool : WorkerPool) (jobs : List TestJob) (acts : List Action) (s : QueueRun),
      QueueRun.run pool jobs acts QueueRun.init = some s →
        s.dispatched <+: jobs ∧
        (s.canceller = .returned → ∀ (more : List Action) (s' : QueueRun),
          QueueRun.run pool jobs more s = some s' → s'.dispatched = s.dispatched)) := by
  refine ⟨?_, ?_, ?_⟩
  · intro job rest
    refine ⟨rfl, ?_⟩
    intro s hs hb
    obtain ⟨sender, canceller, bound, dispatched⟩ := s
    simp only at hs hb
    subst hs hb
    rfl
  · intro jobs acts s hne hnc h
    have h0 := (QueueRun.noWorker_run (NewWorkerPool 1) (by decide) jobs acts _ s rfl rfl h).2
    have hc := QueueRun.noCancel_run (NewWorkerPool 1) jobs acts _ s hnc rfl h
    have hd : s.dispatched ≠ jobs := by
      rw [h0]
      exact fun e => hne e.symm
    refine ⟨h0, hd, ?_⟩
    intro hf
    have hs := (QueueRun.stream_safety (NewWorkerPool 1) jobs acts s h).2.1 hf
      (by rw [hc]; decide)
    exact hd hs
  · intro pool jobs acts s h
    have hs := QueueRun.stream_safety pool jobs acts s h
    exact ⟨hs.1, hs.2.2⟩

/-- Two runs on the pool of a machine with two CPUs (one worker): `SendJobs` of
the two jobs of a test without cancellation dispatches both, in order; with
`Cancel` called during the first send, only the first. -/
theorem QueueRun.two_cpu_runs :
    QueueRun.run (NewWorkerPool 2) exampleTestRun.DetermineRunJobs
        (List.replicate ((NewWorkerPool 2).workers + 1 +
          (2 * exampleTestRun.DetermineRunJobs.length + 1)) Action.sendJobs)
        QueueRun.init =
      some { sender := .finished, canceller := .notCalled, bound := (NewWorkerPool 2).workers,
             dispatched := exampleTestRun.DetermineRunJobs } ∧
    (QueueRun.run (NewWorkerPool 2) exampleTestRun.DetermineRunJobs
        [.sendJobs, .sendJobs, .sendJobs, .cancel, .sendJobs, .sendJobs] QueueRun.init).map
        (fun s => (s.sender, s.canceller, s.dispatched.map (fun j => j.RunType)))
      = some (.finished, .returned, ["strict"]) :=
  ⟨QueueRun.sendJobs_returns (NewWorkerPool 2) exampleTestRun.DetermineRunJobs
      (by decide) (by decide),
    by decide⟩

/-- C18, the code at a failing input: when `SendJobs` has returned and `Cancel`
is then called, `Cancel` is blocked at its send on `cancelchan` and no further
step exists, so it never returns; nothing panics.  Such a state is reached:
`SendJobs` of an empty list on the pool of a machine with two CPUs returns
after three steps. -/
theorem cancel_after_finish_blocks :
    (∀ (pool : WorkerPool) (jobs : List TestJob) (bound : Nat) (dispatched : List TestJob),
      QueueRun.step pool jobs .cancel
          { sender := .finished, canceller := .notCalled, bound := bound,
            dispatched := dispatched } =
        some { sender := .finished, canceller := .blocked, bound := bound,
               dispatched := dispatched } ∧
      (∀ a : Action, QueueRun.step pool jobs a
          { sender := .finished, canceller := .blocked, bound := bound,
            dispatched := dispatched } = none) ∧
      ∀ (acts : List Action) (s' : QueueRun),
        QueueRun.run pool jobs (.cancel :: acts)
          { sender := .finished, canceller := .notCalled, bound := bound,
            dispatched := dispatched } = some s' →
        s'.canceller = .blocked) ∧
    (QueueRun.run (NewWorkerPool 2) [] [.sendJobs, .sendJobs, .sendJobs, .cancel]
        QueueRun.init).map (fun s => (s.sender, s.canceller))
      = some (.finished, .blocked) := by
  refine ⟨?_, by decide⟩
  intro pool jobs bound dispatched
  have hstuck : ∀ a : Action, QueueRun.step pool jobs a
      { sender := .finished, canceller := .blocked, bound := bound,
        dispatched := dispatched } = none := by
    intro a
    cases a <;> rfl
  refine ⟨rfl, hstuck, ?_⟩
  intro acts s' h
  simp only [QueueRun.run, QueueRun.step, Option.some_bind] at h
  cases acts with
  | nil =>
    simp only [QueueRun.run, Option.some.injEq] at h
    rw [← h]
  | cons a rest =>
    simp only [QueueRun.run, hstuck a, Option.none_bind] at h
    cases h

/-! ## Paths -/

theorem splitSlash_ne_nil (p : List Char) : splitSlash p ≠ [] := by
  cases p with
  | nil => simp [splitSlash]
  | cons c cs =>
    unfold splitSlash
    by_cases h : c = '/'
    · simp [h]
    · rw [if_neg h]
      cases splitSlash cs <;> simp

theorem splitSlash_noSlash (x : List Char) (hx : '/' ∉ x) : splitSlash x = [x] := by
  induction x with
  | nil => rfl
  | cons a x ih =>
    have ha : a ≠ '/' := fun h => hx (h ▸ List.mem_cons_self _ _)
    have hx' : '/' ∉ x := fun h => hx (List.mem_cons_of_mem _ h)
    unfold splitSlash
    rw [if_neg ha, ih hx']

theorem splitSlash_append_slash (x t : List Char) (hx : '/' ∉ x) :
    splitSlash (x ++ '/' :: t) = x :: splitSlash t := by
  induction x with
  | nil => simp [splitSlash]
  | cons a x ih =>
    have ha : a ≠ '/' := fun h => hx (h ▸ List.mem_cons_self _ _)
    have hx' : '/' ∉ x := fun h => hx (List.mem_cons_of_mem _ h)
    rw [List.cons_append, splitSlash, if_neg ha, ih hx']

theorem splitSlash_joinSlash (l : List (List Char)) (hne : l ≠ [])
    (hl : ∀ x ∈ l, '/' ∉ x) : splitSlash (joinSlash l) = l := by
  induction l with
  | nil => exact absurd rfl hne
  | cons x rest ih =>
    cases rest with
    | nil => exact splitSlash_noSlash x (hl x (List.mem_cons_self _ _))
    | cons y rest =>
      rw [joinSlash, splitSlash_append_slash x _ (hl x (List.mem_cons_self _ _)),
        ih (by simp) (fun z hz => hl z (List.mem_cons_of_mem _ hz))]

theorem splitSlash_elem_noSlash (p : List Char) : ∀ x ∈ splitSlash p, '/' ∉ x := by
  induction p with
  | nil => intro x hx; simp [splitSlash] at hx; simp [hx]
  | cons c cs ih =>
    intro x hx
    unfold splitSlash at hx
    by_cases h : c = '/'
    · rw [if_pos h] at hx
      rcases List.mem_cons.1 hx with rfl | hx
      · simp
      · exact ih x hx
    · rw [if_neg h] at hx
      cases hs : splitSlash cs with
      | nil => exact absurd hs (splitSlash_ne_nil cs)
      | cons y ys =>
        rw [hs] at hx ih
        simp only at hx
        rcases List.mem_cons.1 hx with rfl | hx
        · intro hm
          rcases List.mem_cons.1 hm with hm | hm
          · exact h hm.symm
          · exact ih y (List.mem_cons_self _ _) hm
        · exact ih x (List.mem_cons_of_mem _ hx)

theorem cleanElem_shape (rooted : Bool) (stack : List (List Char)) (elem : List Char)
    (he : '/' ∉ elem) (hs : CleanShape rooted stack) :
    CleanShape rooted (cleanElem rooted stack elem) := by
  unfold cleanElem
  by_cases h1 : elem = [] ∨ elem = ['.']
  · rw [if_pos h1]; exact hs
  · rw [if_neg h1]
    push_neg at h1
    by_cases h2 : elem = ['.', '.']
    · rw [if_pos h2]
      obtain ⟨g, d, rfl, hg, hd, hr⟩ := hs
      cases g with
      | cons x g' =>
        have hx := hg x (List.mem_cons_self _ _)
        simp only [List.cons_append, ne_eq, hx.2.2.1, not_false_eq_true, if_true]
        exact ⟨g', d, rfl, fun e he' => hg e (List.mem_cons_of_mem _ he'), hd, hr⟩
      | nil =>
        cases d with
        | nil =>
          cases rooted
          · simp only [List.append_nil, Bool.false_eq_true, if_false]
            exact ⟨[], [elem], rfl, by simp, by simp [h2], by simp⟩
          · simp only [List.append_nil, if_true]
            exact ⟨[], [], rfl, by simp, by simp, by simp⟩
        | cons y d' =>
          have hy := hd y (List.mem_cons_self _ _)
          subst hy
          cases rooted
          · simp only [List.nil_append, ne_eq, not_true_eq_false, if_false,
              Bool.false_eq_true]
            refine ⟨[], elem :: ['.', '.'] :: d', rfl, by simp, ?_, by simp⟩
            intro e he'
            rcases List.mem_cons.1 he' with rfl | he'
            · exact h2
            · exact hd e he'
          · exact absurd (hr rfl) (by simp)
    · rw [if_neg h2]
      obtain ⟨g, d, rfl, hg, hd, hr⟩ := hs
      refine ⟨elem :: g, d, rfl, ?_, hd, hr⟩
      intro e he'
      rcases List.mem_cons.1 he' with rfl | he'
      · exact ⟨h1.1, h1.2, h2, he⟩
      · exact hg e he'

theorem foldl_cleanElem_shape (rooted : Bool) (l : List (List Char)) :
    ∀ stack : List (List Char), (∀ x ∈ l, '/' ∉ x) → CleanShape rooted stack →
      CleanShape rooted (l.foldl (cleanElem rooted) stack) := by
  induction l with
  | nil => intro stack _ hs; exact hs
  | cons x rest ih =>
    intro stack hl hs
    rw [List.foldl_cons]
    exact ih _ (fun z hz => hl z (List.mem_cons_of_mem _ hz))
      (cleanElem_shape rooted stack x (hl x (List.mem_cons_self _ _)) hs)

theorem foldl_cleanElem_dotdots (l : List (List Char)) :
    ∀ acc : List (List Char), (∀ e ∈ acc, e = ['.', '.']) → (∀ e ∈ l, e = ['.', '.']) →
      l.foldl (cleanElem false) acc = l.reverse ++ acc := by
  induction l with
  | nil => intro acc _ _; rfl
  | cons x rest ih =>
    intro acc hacc hl
    have hx : x = ['.', '.'] := hl x (List.mem_cons_self _ _)
    have hstep : cleanElem false acc x = x :: acc := by
      subst hx
      cases acc with
      | nil => rfl
      | cons top r =>
        have ht := hacc top (List.mem_cons_self _ _)
        subst ht
        rfl
    rw [List.foldl_cons, hstep, ih (x :: acc) ?_ (fun z hz => hl z (List.mem_cons_of_mem _ hz))]
    · simp
    · intro e he
      rcases List.mem_cons.1 he with rfl | he
      · exact hx
      · exact hacc e he

theorem foldl_cleanElem_real (rooted : Bool) (l : List (List Char)) :
    ∀ acc : List (List Char),
      (∀ e ∈ l, e ≠ [] ∧ e ≠ ['.'] ∧ e ≠ ['.', '.'] ∧ '/' ∉ e) →
      l.foldl (cleanElem rooted) acc = l.reverse ++ acc := by
  induction l with
  | nil => intro acc _; rfl
  | cons x rest ih =>
    intro acc hl
    have hx := hl x (List.mem_cons_self _ _)
    have hstep : cleanElem rooted acc x = x :: acc := by
      unfold cleanElem
      rw [if_neg (by simp [hx.1, hx.2.1]), if_neg hx.2.2.1]
    rw [List.foldl_cons, hstep, ih (x :: acc) (fun z hz => hl z (List.mem_cons_of_mem _ hz))]
    simp

theorem foldl_cleanElem_reverse (rooted : Bool) (stack : List (List Char))
    (hs : CleanShape rooted stack) :
    stack.reverse.foldl (cleanElem rooted) [] = stack := by
  obtain ⟨g, d, rfl, hg, hd, hr⟩ := hs
  rw [List.reverse_append, List.foldl_append]
  have h1 : d.reverse.foldl (cleanElem rooted) [] = d := by
    cases rooted
    · rw [foldl_cleanElem_dotdots d.reverse [] (by simp)
        (fun e he => hd e (List.mem_reverse.1 he))]
      simp
    · rw [hr rfl]; rfl
  rw [h1, foldl_cleanElem_real rooted g.reverse d (fun e he => hg e (List.mem_reverse.1 he))]
  simp

theorem cleanShape_elems (rooted : Bool) (stack : List (List Char))
    (hs : CleanShape rooted stack) : ∀ e ∈ stack, e ≠ [] ∧ '/' ∉ e := by
  obtain ⟨g, d, rfl, hg, hd, _⟩ := hs
  intro e he
  rcases List.mem_append.1 he with he | he
  · exact ⟨(hg e he).1, (hg e he).2.2.2⟩
  · rw [hd e he]
    exact ⟨by simp, by decide⟩

theorem joinSlash_cons (x : List Char) (rest : List (List Char)) :
    ∃ t, joinSlash (x :: rest) = x ++ t := by
  cases rest with
  | nil => exact ⟨[], by simp [joinSlash]⟩
  | cons y r => exact ⟨'/' :: joinSlash (y :: r), rfl⟩

theorem joinSlash_head (l : List (List Char)) (hne : l ≠ [])
    (hl : ∀ e ∈ l, e ≠ [] ∧ '/' ∉ e) :
    ∃ a t, joinSlash l = a :: t ∧ a ≠ '/' := by
  cases l with
  | nil => exact absurd rfl hne
  | cons x rest =>
    obtain ⟨t, ht⟩ := joinSlash_cons x rest
    have hx := hl x (List.mem_cons_self _ _)
    cases x with
    | nil => exact absurd rfl hx.1
    | cons a x' =>
      refine ⟨a, x' ++ t, by rw [ht]; rfl, ?_⟩
      intro h
      exact hx.2 (h ▸ List.mem_cons_self _ _)

theorem cleanChars_idem (p : List Char) : cleanChars (cleanChars p) = cleanChars p := by
  cases p with
  | nil => decide
  | cons c cs =>
    have hshape : CleanShape (decide (c = '/'))
        ((splitSlash (c :: cs)).foldl (cleanElem (decide (c = '/'))) []) :=
      foldl_cleanElem_shape _ _ [] (splitSlash_elem_noSlash _)
        ⟨[], [], rfl, by simp, by simp, by simp⟩
    generalize hst : (splitSlash (c :: cs)).foldl (cleanElem (decide (c = '/'))) [] = stack
      at hshape
    have hout : cleanChars (c :: cs) =
        if decide (c = '/') = true then '/' :: joinSlash stack.reverse
        else if joinSlash stack.reverse = [] then ['.'] else joinSlash stack.reverse := by
      simp only [cleanChars, hst]
    have helems : ∀ e ∈ stack.reverse, e ≠ [] ∧ '/' ∉ e :=
      fun e he => cleanShape_elems _ stack hshape e (List.mem_reverse.1 he)
    by_cases hr : c = '/'
    · have hd : decide (c = '/') = true := by simp [hr]
      rw [hd] at hshape
      rw [hout, hd, if_pos rfl]
      by_cases hnil : stack = []
      · subst hnil; decide
      · have hrev : stack.reverse ≠ [] := by simpa using hnil
        have hsplit : splitSlash ('/' :: joinSlash stack.reverse) = [] :: stack.reverse := by
          rw [splitSlash, if_pos rfl,
            splitSlash_joinSlash _ hrev (fun e he => (helems e he).2)]
        simp only [cleanChars, decide_True, hsplit, List.foldl_cons, if_true]
        have hskip : cleanElem true [] [] = [] := rfl
        rw [hskip, foldl_cleanElem_reverse true stack hshape]
    · have hd : decide (c = '/') = false := by simp [hr]
      rw [hd] at hshape
      rw [hout, hd, if_neg (by simp)]
      by_cases hnil : stack = []
      · subst hnil; decide
      · have hrev : stack.reverse ≠ [] := by simpa using hnil
        obtain ⟨a, t, hat, ha⟩ := joinSlash_head stack.reverse hrev helems
        have hbody : joinSlash stack.reverse ≠ [] := by rw [hat]; simp
        rw [if_neg hbody]
        have hda : decide (a = '/') = false := by simp [ha]
        have hsplit : splitSlash (a :: t) = stack.reverse := by
          rw [← hat, splitSlash_joinSlash _ hrev (fun e he => (helems e he).2)]
        rw [hat]
        simp only [cleanChars, hda, hsplit, Bool.false_eq_true, if_false]
        rw [foldl_cleanElem_reverse false stack hshape, if_neg hbody, hat]

theorem path.Clean_idem (p : String) : path.Clean (path.Clean p) = path.Clean p := by
  unfold path.Clean
  simp only [cleanChars_idem]

theorem path.Clean_Dir (p : String) : path.Clean (path.Dir p) = path.Dir p := by
  unfold path.Clean path.Dir
  simp only [cleanChars_idem]

/-! ## Building the tree -/

theorem ancestorLoop_root_slash (st : TreeState) :
    ∀ fuel : Nat, ancestorLoop st fuel "/" = none := by
  intro fuel
  induction fuel with
  | zero => rfl
  | succ n ih =>
    have h1 : path.Dir "/" = "/" := by decide
    have h2 : ("/" : String) ≠ "." := by decide
    simp only [ancestorLoop, h1, ne_eq, h2, not_false_eq_true, if_true, ih, Option.map_none']

/-- C14, the code at failing inputs.  For the test `/x/t.js` (root `/x`, an
absolute path) the ancestor loop of `createTestCase` never terminates: it runs
from `/x` to `/`, and `path.Dir("/")` is `/`, never `.`.  For the root `a/b`
(two components) the loop does not stop at the root suite: it goes on to the
directory `a`, which has no suite, and appends a nil pointer. -/
theorem ancestor_walk_passes_root :
    (∀ (st : TreeState) (fuel : Nat) (suite : String),
      st.createTestCase fuel suite "/x/t.js" = none) ∧
    (∀ fuel : Nat, walkEntries fuel [("/x", true), ("/x/t.js", false)] {} = none) ∧
    (walkEntries 10 [("a/b", true), ("a/b/t.js", false)] {}).map
        (fun st => (st.rootSuite, (st.testMap "a/b/t.js").map (fun t => t.Suites)))
      = some (some "a/b", some [some "a/b", none]) := by
  have hloop : ∀ (st : TreeState) (fuel : Nat),
      ancestorLoop st fuel (path.Dir "/x/t.js") = none := by
    intro st fuel
    have h0 : path.Dir "/x/t.js" = "/x" := by decide
    have h1 : path.Dir "/x" = "/" := by decide
    have h2 : ("/" : String) ≠ "." := by decide
    rw [h0]
    cases fuel with
    | zero => rfl
    | succ n =>
      simp only [ancestorLoop, h1, ne_eq, h2, not_false_eq_true, if_true,
        ancestorLoop_root_slash, Option.map_none']
  have hcreate : ∀ (st : TreeState) (fuel : Nat) (suite : String),
      st.createTestCase fuel suite "/x/t.js" = none := by
    intro st fuel suite
    unfold TreeState.createTestCase
    rw [hloop]
    rfl
  refine ⟨hcreate, ?_, by decide⟩
  intro fuel
  simp only [walkEntries]
  cases h : walkSuitesAndTests fuel {} "/x" true with
  | none => rfl
  | some st1 =>
    simp only [Option.some_bind]
    have : walkSuitesAndTests fuel st1 "/x/t.js" false = none := by
      unfold walkSuitesAndTests
      simp only [Bool.false_eq_true, if_false]
      cases st1.FetchSuite (path.Dir "/x/t.js") with
      | none => rfl
      | some suite => exact hcreate st1 fuel suite
    rw [this]
    rfl

theorem modifySuite_suiteMap (st : TreeState) (ptr : String) (f : SuiteNode → SuiteNode)
    (k : String) :
    (st.modifySuite ptr f).suiteMap k =
      if k = ptr then (st.suiteMap ptr).map f else st.suiteMap k := by
  unfold TreeState.modifySuite
  cases h : st.suiteMap ptr with
  | none =>
    by_cases hk : k = ptr
    · simp [hk, h]
    · simp [hk]
  | some node =>
    by_cases hk : k = ptr
    · simp [hk, mapSet]
    · simp [hk, mapSet]

theorem modifySuite_testMap (st : TreeState) (ptr : String) (f : SuiteNode → SuiteNode) :
    (st.modifySuite ptr f).testMap = st.testMap := by
  unfold TreeState.modifySuite
  cases st.suiteMap ptr <;> rfl

theorem modifySuite_rootSuite (st : TreeState) (ptr : String) (f : SuiteNode → SuiteNode) :
    (st.modifySuite ptr f).rootSuite = st.rootSuite := by
  unfold TreeState.modifySuite
  cases st.suiteMap ptr <;> rfl

theorem fetchSuite_eq_some (st : TreeState) (p k : String) (h : st.FetchSuite p = some k) :
    k = path.Clean p ∧ (st.suiteMap (path.Clean p)).isSome = true := by
  unfold TreeState.FetchSuite at h
  cases hm : st.suiteMap (path.Clean p) with
  | none => rw [hm] at h; cases h
  | some node =>
    rw [hm] at h
    simp only [Option.some.injEq] at h
    exact ⟨h.symm, rfl⟩

theorem fetchSuite_of_isSome (st : TreeState) (p : String)
    (h : (st.suiteMap (path.Clean p)).isSome = true) :
    st.FetchSuite p = some (path.Clean p) := by
  unfold TreeState.FetchSuite
  cases hm : st.suiteMap (path.Clean p) with
  | none => rw [hm] at h; cases h
  | some node => rfl

theorem fetchSuite_eq_none (st : TreeState) (p : String)
    (h : st.suiteMap (path.Clean p) = none) : st.FetchSuite p = none := by
  unfold TreeState.FetchSuite
  rw [h]

/-- The four outcomes of `createSuiteIfNeeded`, with `c` the clean path. -/
theorem createSuiteIfNeeded_cases (st : TreeState) (p : String) :
    (path.Clean p = "." → st.createSuiteIfNeeded p = none) ∧
    (path.Clean p ≠ "." → (st.suiteMap (path.Clean p)).isSome = true →
      st.createSuiteIfNeeded p = some (st, path.Clean p)) ∧
    (path.Clean p ≠ "." → st.suiteMap (path.Clean p) = none → st.rootSuite = none →
      st.createSuiteIfNeeded p = some
        ({ st with suiteMap := mapSet st.suiteMap (path.Clean p) { PathName := path.Clean p },
                   rootSuite := some (path.Clean p) }, path.Clean p)) ∧
    (path.Clean p ≠ "." → st.suiteMap (path.Clean p) = none → st.rootSuite ≠ none →
      (mapSet st.suiteMap (path.Clean p) { PathName := path.Clean p }
          (path.Dir (path.Clean p)) = none → st.createSuiteIfNeeded p = none) ∧
      ∀ parent, mapSet st.suiteMap (path.Clean p) { PathName := path.Clean p }
          (path.Dir (path.Clean p)) = some parent →
        ∃ st', st.createSuiteIfNeeded p = some (st', path.Clean p) ∧
          st'.testMap = st.testMap ∧ st'.rootSuite = st.rootSuite ∧
          ∀ k, st'.suiteMap k =
            if k = path.Dir (path.Clean p) then
              some { parent with Suites := parent.Suites ++ [path.Clean p] }
            else mapSet st.suiteMap (path.Clean p) { PathName := path.Clean p } k) := by
  refine ⟨?_, ?_, ?_, ?_⟩
  · intro h
    simp [TreeState.createSuiteIfNeeded, h]
  · intro h1 h2
    cases hm : st.suiteMap (path.Clean p) with
    | none => rw [hm] at h2; cases h2
    | some node => simp [TreeState.createSuiteIfNeeded, h1, hm]
  · intro h1 h2 h3
    simp [TreeState.createSuiteIfNeeded, h1, h2, h3]
  · intro h1 h2 h3
    cases hr : st.rootSuite with
    | none => exact absurd hr h3
    | some r =>
      constructor
      · intro hq
        have : TreeState.FetchSuite
            { st with suiteMap := mapSet st.suiteMap (path.Clean p) { PathName := path.Clean p } }
            (path.Dir (path.Clean p)) = none := by
          apply fetchSuite_eq_none
          rw [path.Clean_Dir]
          exact hq
        rw [hr] at this
        simp [TreeState.createSuiteIfNeeded, h1, h2, hr, this]
      · intro parent hq
        have hf : TreeState.FetchSuite
            { st with suiteMap := mapSet st.suiteMap (path.Clean p) { PathName := path.Clean p } }
            (path.Dir (path.Clean p)) = some (path.Dir (path.Clean p)) := by
          have := fetchSuite_of_isSome
            { st with suiteMap := mapSet st.suiteMap (path.Clean p) { PathName := path.Clean p } }
            (path.Dir (path.Clean p)) (by rw [path.Clean_Dir]; simp [hq])
          rw [path.Clean_Dir] at this
          exact this
        refine ⟨TreeState.modifySuite
            { st with suiteMap := mapSet st.suiteMap (path.Clean p) { PathName := path.Clean p } }
            (path.Dir (path.Clean p))
            (fun node => { node with Suites := node.Suites ++ [path.Clean p] }), ?_, ?_, ?_, ?_⟩
        · rw [hr] at hf ⊢
          simp only [TreeState.createSuiteIfNeeded, h1, h2, hr, hf, if_false]
        · rw [modifySuite_testMap]
        · rw [modifySuite_rootSuite]
          exact hr
        · intro k
          rw [modifySuite_suiteMap]
          simp only [hq, Option.map_some']

theorem treeInv_init : TreeInv {} :=
  { noDot := rfl
    keyClean := fun k h => by cases h
    keyPath := fun k node h => by cases h
    noRoot := fun _ k => rfl
    rootIn := fun r h => by cases h
    parentIn := fun c h => by cases h
    childNodup := fun k node h => by cases h
    childIff := fun k node c h => by cases h }

theorem treeInv_modifyTests (st : TreeState) (hinv : TreeInv st) (ptr : String)
    (tm : String → Option TestCase) (ts : List TestCase) :
    TreeInv (TreeState.modifySuite { st with testMap := tm } ptr
      (fun node => { node with Tests := node.Tests ++ ts })) := by
  have hm : ∀ k, (TreeState.modifySuite { st with testMap := tm } ptr
      (fun node => { node with Tests := node.Tests ++ ts })).suiteMap k =
        (st.suiteMap k).map (fun node => { node with Tests := node.Tests ++
          (if k = ptr then ts else []) }) := by
    intro k
    rw [modifySuite_suiteMap]
    by_cases hk : k = ptr
    · subst hk; simp
    · simp only [hk, if_false, List.append_nil]
      cases st.suiteMap k <;> rfl
  have hsome : ∀ k, ((TreeState.modifySuite { st with testMap := tm } ptr
      (fun node => { node with Tests := node.Tests ++ ts })).suiteMap k).isSome =
        (st.suiteMap k).isSome := by
    intro k; rw [hm]; cases st.suiteMap k <;> rfl
  have hroot : (TreeState.modifySuite { st with testMap := tm } ptr
      (fun node => { node with Tests := node.Tests ++ ts })).rootSuite = st.rootSuite := by
    rw [modifySuite_rootSuite]
  have hnode : ∀ k node', (TreeState.modifySuite { st with testMap := tm } ptr
      (fun node => { node with Tests := node.Tests ++ ts })).suiteMap k = some node' →
        ∃ node, st.suiteMap k = some node ∧ node'.Suites = node.Suites ∧
          node'.PathName = node.PathName := by
    intro k node' h
    rw [hm] at h
    cases hs : st.suiteMap k with
    | none => rw [hs] at h; cases h
    | some node =>
      rw [hs] at h
      simp only [Option.map_some', Option.some.injEq] at h
      exact ⟨node, rfl, by rw [← h], by rw [← h]⟩
  refine
    { noDot := ?_, keyClean := ?_, keyPath := ?_, noRoot := ?_, rootIn := ?_, parentIn := ?_,
      childNodup := ?_, childIff := ?_ }
  · rw [hm, hinv.noDot]; rfl
  · intro k h; rw [hsome] at h; exact hinv.keyClean k h
  · intro k node' h
    obtain ⟨node, hs, _, hp⟩ := hnode k node' h
    rw [hp]; exact hinv.keyPath k node hs
  · intro h k
    rw [hroot] at h
    rw [hm, hinv.noRoot h k]; rfl
  · intro r h
    rw [hroot] at h
    rw [hsome]; exact hinv.rootIn r h
  · intro c h1 h2
    rw [hsome] at h1 ⊢
    rw [hroot] at h2
    exact hinv.parentIn c h1 h2
  · intro k node' h
    obtain ⟨node, hs, he, _⟩ := hnode k node' h
    rw [he]; exact hinv.childNodup k node hs
  · intro k node' c h
    obtain ⟨node, hs, he, _⟩ := hnode k node' h
    rw [he, hsome, hroot]
    exact hinv.childIff k node c hs

theorem treeInv_childIff_all (st : TreeState) (hinv : TreeInv st) (k c : String) :
    (∃ node, st.suiteMap k = some node ∧ c ∈ node.Suites) ↔
      ((st.suiteMap c).isSome = true ∧ st.rootSuite ≠ some c ∧ path.Dir c = k) := by
  constructor
  · rintro ⟨node, hs, hc⟩
    exact (hinv.childIff k node c hs).1 hc
  · rintro ⟨h1, h2, h3⟩
    have hp := hinv.parentIn c h1 h2
    rw [h3] at hp
    cases hs : st.suiteMap k with
    | none => rw [hs] at hp; cases hp
    | some node => exact ⟨node, rfl, (hinv.childIff k node c hs).2 ⟨h1, h2, h3⟩⟩

theorem treeInv_newRoot (st : TreeState) (hinv : TreeInv st) (c : String)
    (hdot : c ≠ ".") (hclean : path.Clean c = c) (hroot : st.rootSuite = none) :
    TreeInv { st with suiteMap := mapSet st.suiteMap c { PathName := c },
                      rootSuite := some c } := by
  have hm : ∀ k, mapSet st.suiteMap c ({ PathName := c } : SuiteNode) k =
      if k = c then some { PathName := c } else none := by
    intro k
    unfold mapSet
    rw [hinv.noRoot hroot k]
  refine
    { noDot := ?_, keyClean := ?_, keyPath := ?_, noRoot := ?_, rootIn := ?_, parentIn := ?_,
      childNodup := ?_, childIff := ?_ }
  · show mapSet st.suiteMap c _ "." = none
    rw [hm, if_neg (fun h => hdot h.symm)]
  · intro k h
    change (mapSet st.suiteMap c _ k).isSome = true at h
    rw [hm] at h
    by_cases hk : k = c
    · rw [hk]; exact hclean
    · rw [if_neg hk] at h; cases h
  · intro k node h
    change mapSet st.suiteMap c _ k = some node at h
    rw [hm] at h
    by_cases hk : k = c
    · rw [if_pos hk] at h
      simp only [Option.some.injEq] at h
      rw [← h, hk]
    · rw [if_neg hk] at h; cases h
  · intro h; cases h
  · intro r h
    simp only [Option.some.injEq] at h
    show (mapSet st.suiteMap c _ r).isSome = true
    rw [hm, if_pos h.symm]; rfl
  · intro k h1 h2
    change (mapSet st.suiteMap c _ k).isSome = true at h1
    rw [hm] at h1
    by_cases hk : k = c
    · exact absurd (by rw [hk]) h2
    · rw [if_neg hk] at h1; cases h1
  · intro k node h
    change mapSet st.suiteMap c _ k = some node at h
    rw [hm] at h
    by_cases hk : k = c
    · rw [if_pos hk] at h
      simp only [Option.some.injEq] at h
      rw [← h]; exact List.nodup_nil
    · rw [if_neg hk] at h; cases h
  · intro k node x h
    change mapSet st.suiteMap c _ k = some node at h
    rw [hm] at h
    by_cases hk : k = c
    · rw [if_pos hk] at h
      simp only [Option.some.injEq] at h
      rw [← h]
      constructor
      · intro hx; cases hx
      · rintro ⟨h1, h2, _⟩
        change (mapSet st.suiteMap c _ x).isSome = true at h1
        rw [hm] at h1
        by_cases hx : x = c
        · exact absurd (by rw [hx]) h2
        · rw [if_neg hx] at h1; cases h1
    · rw [if_neg hk] at h; cases h

theorem treeInv_newChild (st st' : TreeState) (hinv : TreeInv st) (c : String)
    (hdot : c ≠ ".") (hclean : path.Clean c = c) (hnew : st.suiteMap c = none)
    (hr : st.rootSuite ≠ none) (parent : SuiteNode)
    (hq : mapSet st.suiteMap c { PathName := c } (path.Dir c) = some parent)
    (hroot : st'.rootSuite = st.rootSuite)
    (hm' : ∀ k, st'.suiteMap k =
      if k = path.Dir c then some { parent with Suites := parent.Suites ++ [c] }
      else mapSet st.suiteMap c { PathName := c } k) :
    TreeInv st' := by
  have hsome : ∀ k, (st'.suiteMap k).isSome = true ↔
      (k = c ∨ (st.suiteMap k).isSome = true) := by
    intro k
    rw [hm']
    by_cases hk : k = path.Dir c
    · rw [if_pos hk]
      simp only [Option.isSome_some, true_iff]
      unfold mapSet at hq
      by_cases hqc : path.Dir c = c
      · exact Or.inl (hk.trans hqc)
      · rw [if_neg hqc] at hq
        right; rw [hk, hq]; rfl
    · rw [if_neg hk]
      unfold mapSet
      by_cases hkc : k = c
      · simp [hkc]
      · simp [hkc]
  have hrc : st.rootSuite ≠ some c := by
    intro h
    have := hinv.rootIn c h
    rw [hnew] at this; cases this
  have hnode : ∀ k node', st'.suiteMap k = some node' →
      node'.PathName = k ∧ node'.Suites.Nodup ∧
      ∀ x, x ∈ node'.Suites ↔
        ((∃ node, st.suiteMap k = some node ∧ x ∈ node.Suites) ∨ (k = path.Dir c ∧ x = c)) := by
    intro k node' h
    rw [hm'] at h
    by_cases hk : k = path.Dir c
    · rw [if_pos hk] at h
      simp only [Option.some.injEq] at h
      subst h
      unfold mapSet at hq
      by_cases hqc : path.Dir c = c
      · rw [if_pos hqc] at hq
        simp only [Option.some.injEq] at hq
        subst hq
        refine ⟨by simp [hk, hqc], by simp, ?_⟩
        intro x
        constructor
        · intro hx
          exact Or.inr ⟨hk, by simpa using hx⟩
        · rintro (⟨node, hs, _⟩ | ⟨_, hx⟩)
          · rw [hk, hqc, hnew] at hs; cases hs
          · simp [hx]
      · rw [if_neg hqc] at hq
        have hcn : c ∉ parent.Suites := by
          intro hc
          have := ((hinv.childIff _ parent c hq).1 hc).1
          rw [hnew] at this; cases this
        refine ⟨?_, ?_, ?_⟩
        · show parent.PathName = k
          rw [hinv.keyPath _ parent hq, hk]
        · show (parent.Suites ++ [c]).Nodup
          rw [List.nodup_append]
          refine ⟨hinv.childNodup _ parent hq, by simp, ?_⟩
          intro y hy hy'
          rw [List.mem_singleton] at hy'
          exact hcn (hy' ▸ hy)
        · intro x
          show x ∈ parent.Suites ++ [c] ↔ _
          rw [List.mem_append, List.mem_singleton, hk, hq]
          simp
    · rw [if_neg hk] at h
      unfold mapSet at h
      by_cases hkc : k = c
      · rw [if_pos hkc] at h
        simp only [Option.some.injEq] at h
        subst h
        refine ⟨hkc.symm, by simp, ?_⟩
        intro x
        have : ¬ ∃ node, st.suiteMap k = some node ∧ x ∈ node.Suites := by
          rintro ⟨node, hs, _⟩
          rw [hkc, hnew] at hs; cases hs
        simp [this, hk]
      · rw [if_neg hkc] at h
        refine ⟨hinv.keyPath k node' h, hinv.childNodup k node' h, ?_⟩
        intro x
        rw [h]
        simp [hk]
  refine
    { noDot := ?_, keyClean := ?_, keyPath := ?_, noRoot := ?_, rootIn := ?_, parentIn := ?_,
      childNodup := ?_, childIff := ?_ }
  · have := (hsome ".").not.2 (by
      rintro (h | h)
      · exact hdot h.symm
      · rw [hinv.noDot] at h; cases h)
    simpa using this
  · intro k h
    rcases (hsome k).1 h with rfl | h
    · exact hclean
    · exact hinv.keyClean k h
  · intro k node' h
    exact (hnode k node' h).1
  · intro h
    rw [hroot] at h
    exact absurd h hr
  · intro r h
    rw [hroot] at h
    exact (hsome r).2 (Or.inr (hinv.rootIn r h))
  · intro x h1 h2
    rw [hroot] at h2
    rcases (hsome x).1 h1 with rfl | h1
    · rw [hm', if_pos rfl]; rfl
    · exact (hsome _).2 (Or.inr (hinv.parentIn x h1 h2))
  · intro k node' h
    exact (hnode k node' h).2.1
  · intro k node' x h
    rw [(hnode k node' h).2.2 x, treeInv_childIff_all st hinv k x, hsome, hroot]
    constructor
    · rintro (⟨h1, h2, h3⟩ | ⟨h1, h2⟩)
      · exact ⟨Or.inr h1, h2, h3⟩
      · subst h2
        exact ⟨Or.inl rfl, hrc, h1.symm⟩
    · rintro ⟨h1 | h1, h2, h3⟩
      · subst h1
        exact Or.inr ⟨h3.symm, rfl⟩
      · exact Or.inl ⟨h1, h2, h3⟩

theorem treeInv_createSuite (st st' : TreeState) (p ptr : String) (hinv : TreeInv st)
    (h : st.createSuiteIfNeeded p = some (st', ptr)) : TreeInv st' := by
  obtain ⟨c1, c2, c3, c4⟩ := createSuiteIfNeeded_cases st p
  by_cases hdot : path.Clean p = "."
  · rw [c1 hdot] at h; cases h
  · cases hm : st.suiteMap (path.Clean p) with
    | some node =>
      rw [c2 hdot (by rw [hm]; rfl)] at h
      simp only [Option.some.injEq, Prod.mk.injEq] at h
      rw [← h.1]; exact hinv
    | none =>
      cases hr : st.rootSuite with
      | none =>
        rw [c3 hdot hm hr] at h
        simp only [Option.some.injEq, Prod.mk.injEq] at h
        rw [← h.1]
        exact treeInv_newRoot st hinv (path.Clean p) hdot (path.Clean_idem p) hr
      | some r =>
        have hrn : st.rootSuite ≠ none := by rw [hr]; simp
        obtain ⟨c4a, c4b⟩ := c4 hdot hm hrn
        cases hq : mapSet st.suiteMap (path.Clean p) ({ PathName := path.Clean p } : SuiteNode)
            (path.Dir (path.Clean p)) with
        | none => rw [c4a hq] at h; cases h
        | some parent =>
          obtain ⟨st2, h2, _, hroot2, hm2⟩ := c4b parent hq
          rw [h2] at h
          simp only [Option.some.injEq, Prod.mk.injEq] at h
          rw [← h.1]
          exact treeInv_newChild st st2 hinv (path.Clean p) hdot (path.Clean_idem p) hm hrn
            parent hq hroot2 hm2

theorem treeInv_step (fuel : Nat) (st st' : TreeState) (p : String) (isDir : Bool)
    (hinv : TreeInv st) (h : walkSuitesAndTests fuel st p isDir = some st') : TreeInv st' := by
  unfold walkSuitesAndTests at h
  cases isDir with
  | true =>
    simp only [if_true] at h
    cases hc : st.createSuiteIfNeeded p with
    | none => rw [hc] at h; cases h
    | some r =>
      rw [hc] at h
      simp only [Option.map_some', Option.some.injEq] at h
      rw [← h]
      exact treeInv_createSuite st r.1 p r.2 hinv hc
  | false =>
    simp only [Bool.false_eq_true, if_false] at h
    cases hf : st.FetchSuite (path.Dir p) with
    | none => rw [hf] at h; cases h
    | some suite =>
      rw [hf] at h
      simp only [TreeState.createTestCase] at h
      cases hl : ancestorLoop st fuel (path.Dir p) with
      | none => rw [hl] at h; cases h
      | some suites =>
        rw [hl] at h
        simp only [Option.map_some', Option.some.injEq] at h
        rw [← h]
        exact treeInv_modifyTests st hinv suite _ _

theorem treeInv_walk (fuel : Nat) (entries : List (String × Bool)) :
    ∀ st st' : TreeState, TreeInv st → walkEntries fuel entries st = some st' →
      TreeInv st' := by
  induction entries with
  | nil =>
    intro st st' hinv h
    simp only [walkEntries, Option.some.injEq] at h
    exact h ▸ hinv
  | cons e rest ih =>
    intro st st' hinv h
    obtain ⟨p, isDir⟩ := e
    simp only [walkEntries] at h
    rw [Option.bind_eq_some] at h
    obtain ⟨st1, h1, h2⟩ := h
    exact ih st1 st' (treeInv_step fuel st st1 p isDir hinv h1) h2

theorem treeInv_count (st : TreeState) (hinv : TreeInv st) (k c : String) (node : SuiteNode)
    (hk : st.suiteMap k = some node) (hc : (st.suiteMap c).isSome = true)
    (hroot : st.rootSuite ≠ some c) :
    node.Suites.count c = if k = path.Dir c then 1 else 0 := by
  rw [List.count_eq_of_nodup (hinv.childNodup k node hk)]
  by_cases h : k = path.Dir c
  · rw [if_pos h, if_pos ((hinv.childIff k node c hk).2 ⟨hc, hroot, h.symm⟩)]
  · rw [if_neg h, if_neg]
    intro hm
    exact h ((hinv.childIff k node c hk).1 hm).2.2.symm

/-- C15: in the state after any walk that returned, `createSuiteIfNeeded` on a
path whose clean form is in the suite index returns the existing suite and
changes nothing; on a new path (with a root suite present) it panics when the
parent directory has no suite, and otherwise adds the new suite and appends it
exactly once to the child list of the suite of `Dir` of the clean path, leaving
every other child list as it was; and every suite of the index but the root
occurs exactly once in the child list of the suite of its parent directory and
in no other child list. -/
theorem createSuiteIfNeeded_links (fuel : Nat) (entries : List (String × Bool))
    (st : TreeState) (hwalk : walkEntries fuel entries {} = some st) :
    (∀ p, (st.suiteMap (path.Clean p)).isSome = true →
      st.createSuiteIfNeeded p = some (st, path.Clean p)) ∧
    (∀ p, st.suiteMap (path.Clean p) = none → path.Clean p ≠ "." → st.rootSuite ≠ none →
      (st.suiteMap (path.Dir (path.Clean p)) = none →
        path.Dir (path.Clean p) ≠ path.Clean p → st.createSuiteIfNeeded p = none) ∧
      ((st.suiteMap (path.Dir (path.Clean p))).isSome = true ∨
          path.Dir (path.Clean p) = path.Clean p →
        ∃ st', st.createSuiteIfNeeded p = some (st', path.Clean p) ∧
          (st'.suiteMap (path.Clean p)).isSome = true ∧
          (∀ k node', st'.suiteMap k = some node' →
            node'.Suites.count (path.Clean p) =
              if k = path.Dir (path.Clean p) then 1 else 0) ∧
          (∀ k node, st.suiteMap k = some node →
            ∃ node', st'.suiteMap k = some node' ∧ node'.PathName = node.PathName ∧
              node'.Tests = node.Tests ∧
              node'.Suites = node.Suites ++
                (if k = path.Dir (path.Clean p) then [path.Clean p] else [])))) ∧
    (∀ c, (st.suiteMap c).isSome = true → st.rootSuite ≠ some c →
      (st.suiteMap (path.Dir c)).isSome = true ∧
      ∀ k node, st.suiteMap k = some node →
        node.Suites.count c = if k = path.Dir c then 1 else 0) := by
  have hinv : TreeInv st := treeInv_walk fuel entries {} st treeInv_init hwalk
  refine ⟨?_, ?_, ?_⟩
  · intro p hp
    have hdot : path.Clean p ≠ "." := by
      intro h
      rw [h, hinv.noDot] at hp; cases hp
    exact (createSuiteIfNeeded_cases st p).2.1 hdot hp
  · intro p hnew hdot hroot
    obtain ⟨c4a, c4b⟩ := (createSuiteIfNeeded_cases st p).2.2.2 hdot hnew hroot
    constructor
    · intro hq hne
      apply c4a
      unfold mapSet
      rw [if_neg hne, hq]
    · intro hq
      have hpar : ∃ parent, mapSet st.suiteMap (path.Clean p)
          ({ PathName := path.Clean p } : SuiteNode) (path.Dir (path.Clean p)) = some parent := by
        unfold mapSet
        by_cases hself : path.Dir (path.Clean p) = path.Clean p
        · exact ⟨_, if_pos hself⟩
        · rw [if_neg hself]
          rcases hq with hq | hq
          · exact Option.isSome_iff_exists.1 hq
          · exact absurd hq hself
      obtain ⟨parent, hparent⟩ := hpar
      obtain ⟨st', hres, _, hroot', hm'⟩ := c4b parent hparent
      have hinv' : TreeInv st' := treeInv_createSuite st st' p _ hinv hres
      have hin : (st'.suiteMap (path.Clean p)).isSome = true := by
        rw [hm']
        by_cases hself : path.Clean p = path.Dir (path.Clean p)
        · rw [if_pos hself]; rfl
        · rw [if_neg hself]; simp [mapSet]
      have hrc : st'.rootSuite ≠ some (path.Clean p) := by
        rw [hroot']
        intro h
        have := hinv.rootIn _ h
        rw [hnew] at this; cases this
      refine ⟨st', hres, hin, ?_, ?_⟩
      · intro k node' hk
        exact treeInv_count st' hinv' k _ node' hk hin hrc
      · intro k node hk
        have hkc : k ≠ path.Clean p := by
          intro h; rw [h, hnew] at hk; cases hk
        by_cases hkq : k = path.Dir (path.Clean p)
        · have hpn : parent = node := by
            unfold mapSet at hparent
            rw [if_neg (fun h => hkc (hkq.trans h)), ← hkq, hk] at hparent
            exact (Option.some.inj hparent).symm
          refine ⟨_, by rw [hm', if_pos hkq], ?_, ?_, ?_⟩
          · rw [hpn]
          · rw [hpn]
          · rw [hpn, if_pos hkq]
        · refine ⟨node, ?_, rfl, rfl, ?_⟩
          · rw [hm', if_neg hkq]
            unfold mapSet
            rw [if_neg hkc, hk]
          · rw [if_neg hkq, List.append_nil]
  · intro c hc hroot
    exact ⟨hinv.parentIn c hc hroot, fun k node hk => treeInv_count st hinv k c node hk hc hroot⟩

/-- C15, an instance: after the walk of `exampleWalk` the suite
`testdata_new/sub` is once in the child list of `testdata_new` and not in its
own, and visiting the directory again changes nothing. -/
theorem createSuiteIfNeeded_links_witness :
    ∃ st, walkEntries 10 exampleWalk {} = some st ∧
      st.createSuiteIfNeeded "./testdata_new/sub/" = some (st, "testdata_new/sub") ∧
      (∀ k node, st.suiteMap k = some node →
        node.Suites.count "testdata_new/sub" = if k = "testdata_new" then 1 else 0) := by
  have hs : (walkEntries 10 exampleWalk {}).isSome = true := by decide
  obtain ⟨st, h⟩ := Option.isSome_iff_exists.1 hs
  have hthm := createSuiteIfNeeded_links 10 exampleWalk st h
  have hin : (st.suiteMap "testdata_new/sub").isSome = true := by
    have : (walkEntries 10 exampleWalk {}).map
        (fun s => (s.suiteMap "testdata_new/sub").isSome) = some true := by decide
    rw [h] at this
    exact Option.some.inj this
  have hroot : st.rootSuite ≠ some "testdata_new/sub" := by
    have : (walkEntries 10 exampleWalk {}).map (fun s => s.rootSuite)
        = some (some "testdata_new") := by decide
    rw [h] at this
    have e : st.rootSuite = some "testdata_new" := Option.some.inj this
    rw [e]
    decide
  have hc : path.Clean "./testdata_new/sub/" = "testdata_new/sub" := by decide
  have hd : path.Dir "testdata_new/sub" = "testdata_new" := by decide
  refine ⟨st, h, ?_, ?_⟩
  · have := hthm.1 "./testdata_new/sub/" (by rw [hc]; exact hin)
    rw [hc] at this
    exact this
  · have := (hthm.2.2 "testdata_new/sub" hin hroot).2
    rw [hd] at this
    exact this


theorem ancestorLoop_chain (st : TreeState) (r : String) (dirs : List String)
    (hkeys : ∀ k, (st.suiteMap k).isSome = true ↔ k ∈ dirs)
    (hnoDot : "." ∉ dirs) (hclean : ∀ c ∈ dirs, path.Clean c = c)
    (hparent : ∀ c ∈ dirs, c ≠ r → path.Dir c ∈ dirs) (hr : path.Dir r = ".")
    (rank : String → Nat) (hrank : ∀ c ∈ dirs, c ≠ r → rank (path.Dir c) < rank c) :
    ∀ (n : Nat) (d : String), d ∈ dirs → rank d < n →
      ∃ m, ancestorLoop st n d = some ((List.iterate path.Dir d (m + 1)).map some) ∧
        path.Dir^[m] d = r ∧ (∀ x ∈ List.iterate path.Dir d (m + 1), x ∈ dirs) ∧
        (d = r → m = 0) := by
  intro n
  induction n with
  | zero => intro d _ h; omega
  | succ n ih =>
    intro d hd hlt
    have hf : st.FetchSuite d = some d := by
      have := fetchSuite_of_isSome st d (by rw [hclean d hd]; exact (hkeys d).2 hd)
      rw [hclean d hd] at this
      exact this
    by_cases hdr : d = r
    · subst hdr
      refine ⟨0, ?_, rfl, ?_, fun _ => rfl⟩
      · simp only [ancestorLoop, hf, hr, ne_eq, not_true_eq_false, if_false]
        rfl
      · intro x hx
        simp only [Nat.zero_add, List.iterate, List.mem_singleton] at hx
        rw [hx]; exact hd
    · have hnext : path.Dir d ∈ dirs := hparent d hd hdr
      have hne : path.Dir d ≠ "." := fun h => hnoDot (h ▸ hnext)
      have hlt' : rank (path.Dir d) < n := by
        have := hrank d hd hdr
        omega
      obtain ⟨m, h1, h2, h3, _⟩ := ih (path.Dir d) hnext hlt'
      refine ⟨m + 1, ?_, ?_, ?_, fun h => absurd h hdr⟩
      · simp only [ancestorLoop, hf, ne_eq, hne, not_false_eq_true, if_true, h1,
          Option.map_some']
        rfl
      · rw [Function.iterate_succ_apply]; exact h2
      · intro x hx
        rw [List.iterate] at hx
        rcases List.mem_cons.1 hx with rfl | hx
        · exact hd
        · exact h3 x hx

theorem walkInv_weaken (r : String) (dirs dirs' files : List String) (b b' : Nat)
    (st : TreeState) (hmem : ∀ k, k ∈ dirs' ↔ k ∈ dirs) (hb : b ≤ b')
    (hinv : WalkInv r dirs files b st) : WalkInv r dirs' files b' st := by
  obtain ⟨rank, hr1, hr2⟩ := hinv.rank
  exact
    { root := hinv.root
      keys := fun k => (hinv.keys k).trans (hmem k).symm
      keyPath := hinv.keyPath
      rootDir := (hmem r).2 hinv.rootDir
      noDot := fun h => hinv.noDot ((hmem _).1 h)
      clean := fun c hc => hinv.clean c ((hmem c).1 hc)
      parent := fun c hc hne => (hmem _).2 (hinv.parent c ((hmem c).1 hc) hne)
      rank := ⟨rank, fun c hc hne => hr1 c ((hmem c).1 hc) hne,
        fun c hc => Nat.lt_of_lt_of_le (hr2 c ((hmem c).1 hc)) hb⟩
      owner := hinv.owner
      tests := fun p t h => by
        obtain ⟨h1, h2, m, h3, h4, h5, h6⟩ := hinv.tests p t h
        exact ⟨h1, h2, m, h3, h4, fun x hx => (hmem x).2 (h5 x hx), h6⟩
      visited := hinv.visited }

theorem walkInv_dir (r : String) (dirs files : List String) (b : Nat) (st : TreeState)
    (p : String) (hinv : WalkInv r dirs files b st)
    (hv : path.Clean p ∈ dirs ∨ path.Dir (path.Clean p) ∈ dirs) :
    ∃ st', st.createSuiteIfNeeded p = some (st', path.Clean p) ∧
      WalkInv r (path.Clean p :: dirs) files (b + 1) st' := by
  obtain ⟨_, c2, _, c4⟩ := createSuiteIfNeeded_cases st p
  by_cases hin : path.Clean p ∈ dirs
  · have hdot : path.Clean p ≠ "." := fun h => hinv.noDot (h ▸ hin)
    refine ⟨st, c2 hdot ((hinv.keys _).2 hin), ?_⟩
    apply walkInv_weaken r dirs _ files b (b + 1) st _ (by omega) hinv
    intro k
    simp only [List.mem_cons]
    constructor
    · rintro (rfl | h)
      · exact hin
      · exact h
    · exact Or.inr
  · have hq : path.Dir (path.Clean p) ∈ dirs := by
      rcases hv with h | h
      · exact absurd h hin
      · exact h
    have hdot : path.Clean p ≠ "." := by
      intro h
      rw [h] at hq
      have : path.Dir "." = "." := by decide
      rw [this] at hq
      exact hinv.noDot hq
    have hnew : st.suiteMap (path.Clean p) = none := by
      cases hs : st.suiteMap (path.Clean p) with
      | none => rfl
      | some n => exact absurd ((hinv.keys _).1 (by rw [hs]; rfl)) hin
    have hrn : st.rootSuite ≠ none := by rw [hinv.root]; simp
    have hqc : path.Dir (path.Clean p) ≠ path.Clean p := fun h => hin (h ▸ hq)
    obtain ⟨parent, hpar⟩ := Option.isSome_iff_exists.1 ((hinv.keys _).2 hq)
    have hpar' : mapSet st.suiteMap (path.Clean p) ({ PathName := path.Clean p } : SuiteNode)
        (path.Dir (path.Clean p)) = some parent := by
      unfold mapSet
      rw [if_neg hqc, hpar]
    obtain ⟨st', hres, htm, hroot, hm'⟩ := (c4 hdot hnew hrn).2 parent hpar'
    refine ⟨st', hres, ?_⟩
    -- the nodes of the new index
    have hnode : ∀ k node', st'.suiteMap k = some node' →
        (k = path.Clean p ∧ node'.PathName = k ∧ node'.Tests = []) ∨
        (k ∈ dirs ∧ ∃ node, st.suiteMap k = some node ∧ node'.PathName = node.PathName ∧
          node'.Tests = node.Tests) := by
      intro k node' h
      rw [hm'] at h
      by_cases hk : k = path.Dir (path.Clean p)
      · rw [if_pos hk] at h
        simp only [Option.some.injEq] at h
        right
        exact ⟨hk ▸ hq, parent, hk ▸ hpar, by rw [← h], by rw [← h]⟩
      · rw [if_neg hk] at h
        unfold mapSet at h
        by_cases hkc : k = path.Clean p
        · rw [if_pos hkc] at h
          simp only [Option.some.injEq] at h
          left
          exact ⟨hkc, by rw [← h, hkc], by rw [← h]⟩
        · rw [if_neg hkc] at h
          right
          exact ⟨(hinv.keys k).1 (by rw [h]; rfl), node', h, rfl, rfl⟩
    have hold : ∀ k node, st.suiteMap k = some node →
        ∃ node', st'.suiteMap k = some node' ∧ node'.Tests = node.Tests := by
      intro k node h
      have hkc : k ≠ path.Clean p := by
        intro e; rw [e, hnew] at h; cases h
      by_cases hk : k = path.Dir (path.Clean p)
      · refine ⟨_, by rw [hm', if_pos hk], ?_⟩
        rw [hk, hpar] at h
        rw [Option.some.inj h]
      · exact ⟨node, by rw [hm', if_neg hk]; unfold mapSet; rw [if_neg hkc, h], rfl⟩
    have hkeys : ∀ k, (st'.suiteMap k).isSome = true ↔ k ∈ path.Clean p :: dirs := by
      intro k
      rw [List.mem_cons]
      constructor
      · intro h
        obtain ⟨node', hn⟩ := Option.isSome_iff_exists.1 h
        rcases hnode k node' hn with ⟨h1, _⟩ | ⟨h1, _⟩
        · exact Or.inl h1
        · exact Or.inr h1
      · rintro (rfl | h)
        · rw [hm', if_neg (fun e => hqc e.symm)]
          simp [mapSet]
        · obtain ⟨node, hn⟩ := Option.isSome_iff_exists.1 ((hinv.keys k).2 h)
          obtain ⟨node', hn', _⟩ := hold k node hn
          rw [hn']; rfl
    obtain ⟨rank, hr1, hr2⟩ := hinv.rank
    refine
      { root := by rw [hroot]; exact hinv.root
        keys := hkeys
        keyPath := ?_
        rootDir := List.mem_cons_of_mem _ hinv.rootDir
        noDot := ?_
        clean := ?_
        parent := ?_
        rank := ?_
        owner := ?_
        tests := ?_
        visited := ?_ }
    · intro k node' h
      rcases hnode k node' h with ⟨_, h2, _⟩ | ⟨_, node, hn, h2, _⟩
      · exact h2
      · rw [h2]; exact hinv.keyPath k node hn
    · intro h
      rcases List.mem_cons.1 h with h | h
      · exact hdot h.symm
      · exact hinv.noDot h
    · intro c hc
      rcases List.mem_cons.1 hc with rfl | hc
      · exact path.Clean_idem p
      · exact hinv.clean c hc
    · intro c hc hne
      rcases List.mem_cons.1 hc with rfl | hc
      · exact List.mem_cons_of_mem _ hq
      · exact List.mem_cons_of_mem _ (hinv.parent c hc hne)
    · refine ⟨fun x => if x = path.Clean p then rank (path.Dir (path.Clean p)) + 1 else rank x,
        ?_, ?_⟩
      · intro c hc hne
        rcases List.mem_cons.1 hc with rfl | hc
        · simp only [if_neg hqc, if_true]
          omega
        · have hcc : c ≠ path.Clean p := fun e => hin (e ▸ hc)
          have hdc : path.Dir c ≠ path.Clean p := fun e => hin (e ▸ hinv.parent c hc hne)
          simp only [if_neg hcc, if_neg hdc]
          exact hr1 c hc hne
      · intro c hc
        rcases List.mem_cons.1 hc with rfl | hc
        · simp only [if_true]
          have := hr2 _ hq
          omega
        · have hcc : c ≠ path.Clean p := fun e => hin (e ▸ hc)
          simp only [if_neg hcc]
          have := hr2 c hc
          omega
    · intro k node' t h ht
      rcases hnode k node' h with ⟨_, _, h3⟩ | ⟨_, node, hn, _, h3⟩
      · rw [h3] at ht; cases ht
      · rw [h3] at ht
        exact hinv.owner k node t hn ht
    · intro q t h
      rw [htm] at h
      obtain ⟨h1, ⟨node, hn, ht⟩, m, h3, h4, h5, h6⟩ := hinv.tests q t h
      obtain ⟨node', hn', hT⟩ := hold _ node hn
      exact ⟨h1, ⟨node', hn', by rw [hT]; exact ht⟩, m, h3, h4,
        fun x hx => List.mem_cons_of_mem _ (h5 x hx), h6⟩
    · intro q hq'
      rw [htm]
      exact hinv.visited q hq'

theorem createTestCase_eq (st : TreeState) (fuel : Nat) (suite p : String)
    (suites : List (Option String)) (h : ancestorLoop st fuel (path.Dir p) = some suites) :
    st.createTestCase fuel suite p = some (TreeState.modifySuite
      { st with testMap := mapSet st.testMap p { PathName := p, Suites := suites } } suite
      (fun node => { node with Tests := node.Tests ++ [{ PathName := p, Suites := suites }] })) := by
  simp only [TreeState.createTestCase, h, Option.map_some']

theorem walkInv_addTest (r : String) (dirs files : List String) (b : Nat) (st : TreeState)
    (p : String) (test : TestCase) (m : Nat) (hinv : WalkInv r dirs files b st)
    (hv : path.Dir p ∈ dirs) (hname : test.PathName = p)
    (hsuites : test.Suites = (List.iterate path.Dir (path.Dir p) (m + 1)).map some)
    (hm1 : path.Dir^[m] (path.Dir p) = r)
    (hm2 : ∀ x ∈ List.iterate path.Dir (path.Dir p) (m + 1), x ∈ dirs)
    (hm3 : path.Dir p = r → m = 0) :
    WalkInv r dirs (p :: files) b (TreeState.modifySuite
      { st with testMap := mapSet st.testMap p test } (path.Dir p)
      (fun node => { node with Tests := node.Tests ++ [test] })) := by
  obtain ⟨rank, hr1, hr2⟩ := hinv.rank
  have hmap : ∀ k, (TreeState.modifySuite
      { st with testMap := mapSet st.testMap p test } (path.Dir p)
      (fun node => { node with Tests := node.Tests ++ [test] })).suiteMap k =
        (st.suiteMap k).map (fun node => { node with Tests := node.Tests ++
          (if k = path.Dir p then [test] else []) }) := by
    intro k
    rw [modifySuite_suiteMap]
    by_cases hk : k = path.Dir p
    · subst hk; simp
    · simp only [hk, if_false, List.append_nil]
      cases st.suiteMap k <;> rfl
  have hnode : ∀ k node', (TreeState.modifySuite
      { st with testMap := mapSet st.testMap p test } (path.Dir p)
      (fun node => { node with Tests := node.Tests ++ [test] })).suiteMap k = some node' →
        ∃ node, st.suiteMap k = some node ∧ node'.PathName = node.PathName ∧
          node'.Tests = node.Tests ++ (if k = path.Dir p then [test] else []) := by
    intro k node' h
    rw [hmap] at h
    cases hs : st.suiteMap k with
    | none => rw [hs] at h; cases h
    | some node =>
      rw [hs] at h
      simp only [Option.map_some', Option.some.injEq] at h
      exact ⟨node, rfl, by rw [← h], by rw [← h]⟩
  have hold : ∀ k node, st.suiteMap k = some node →
      ∃ node', (TreeState.modifySuite
        { st with testMap := mapSet st.testMap p test } (path.Dir p)
        (fun node => { node with Tests := node.Tests ++ [test] })).suiteMap k = some node' ∧
        node'.Tests = node.Tests ++ (if k = path.Dir p then [test] else []) := by
    intro k node h
    exact ⟨_, by rw [hmap, h]; rfl, rfl⟩
  have htm : (TreeState.modifySuite
      { st with testMap := mapSet st.testMap p test } (path.Dir p)
      (fun node => { node with Tests := node.Tests ++ [test] })).testMap =
        mapSet st.testMap p test := by
    rw [modifySuite_testMap]
  refine
    { root := by rw [modifySuite_rootSuite]; exact hinv.root
      keys := ?_
      keyPath := ?_
      rootDir := hinv.rootDir
      noDot := hinv.noDot
      clean := hinv.clean
      parent := hinv.parent
      rank := ⟨rank, hr1, hr2⟩
      owner := ?_
      tests := ?_
      visited := ?_ }
  · intro k
    rw [hmap, ← hinv.keys k]
    cases st.suiteMap k <;> simp
  · intro k node' h
    obtain ⟨node, hn, h2, _⟩ := hnode k node' h
    rw [h2]; exact hinv.keyPath k node hn
  · intro k node' t h ht
    obtain ⟨node, hn, _, h3⟩ := hnode k node' h
    rw [h3, List.mem_append] at ht
    rcases ht with ht | ht
    · exact hinv.owner k node t hn ht
    · by_cases hk : k = path.Dir p
      · rw [if_pos hk, List.mem_singleton] at ht
        rw [ht, hname, hk]
      · rw [if_neg hk] at ht; cases ht
  · intro q t h
    rw [htm] at h
    unfold mapSet at h
    by_cases hqp : q = p
    · rw [if_pos hqp] at h
      simp only [Option.some.injEq] at h
      subst h
      subst hqp
      obtain ⟨node, hn⟩ := Option.isSome_iff_exists.1 ((hinv.keys _).2 hv)
      obtain ⟨node', hn', hT⟩ := hold _ node hn
      refine ⟨hname, ⟨node', hn', ?_⟩, m, hsuites, hm1, hm2, hm3⟩
      rw [hT, if_pos rfl]
      simp
    · rw [if_neg hqp] at h
      obtain ⟨h1, ⟨node, hn, ht⟩, m', h3, h4, h5, h6⟩ := hinv.tests q t h
      obtain ⟨node', hn', hT⟩ := hold _ node hn
      exact ⟨h1, ⟨node', hn', by rw [hT]; exact List.mem_append_left _ ht⟩, m', h3, h4, h5, h6⟩
  · intro q hq
    rw [htm]
    unfold mapSet
    by_cases hqp : q = p
    · rw [if_pos hqp]; rfl
    · rw [if_neg hqp]
      rcases List.mem_cons.1 hq with h | h
      · exact absurd h hqp
      · exact hinv.visited q h

theorem walkInv_file (r : String) (dirs files : List String) (b fuel : Nat) (st : TreeState)
    (p : String) (hr : path.Dir r = ".") (hinv : WalkInv r dirs files b st)
    (hv : path.Dir p ∈ dirs) (hfuel : b ≤ fuel) :
    ∃ st', walkSuitesAndTests fuel st p false = some st' ∧
      WalkInv r dirs (p :: files) b st' := by
  have hf : st.FetchSuite (path.Dir p) = some (path.Dir p) := by
    have := fetchSuite_of_isSome st (path.Dir p)
      (by rw [path.Clean_Dir]; exact (hinv.keys _).2 hv)
    rw [path.Clean_Dir] at this
    exact this
  obtain ⟨rank, hr1, hr2⟩ := hinv.rank
  obtain ⟨m, hloop, hm1, hm2, hm3⟩ :=
    ancestorLoop_chain st r dirs hinv.keys hinv.noDot hinv.clean hinv.parent hr rank hr1
      fuel (path.Dir p) hv (Nat.lt_of_lt_of_le (hr2 _ hv) hfuel)
  refine ⟨_, ?_, walkInv_addTest r dirs files b st p
    { PathName := p, Suites := (List.iterate path.Dir (path.Dir p) (m + 1)).map some } m hinv hv
    rfl rfl hm1 hm2 hm3⟩
  simp only [walkSuitesAndTests, Bool.false_eq_true, if_false, hf]
  exact createTestCase_eq st fuel _ p _ hloop

theorem walkInv_walk (r : String) (fuel : Nat) (hr : path.Dir r = ".")
    (rest : List (String × Bool)) :
    ∀ (dirs files : List String) (b : Nat) (st : TreeState),
      WalkInv r dirs files b st → visitedInOrder dirs rest = true → b + rest.length ≤ fuel →
      ∃ (st' : TreeState) (dirs' files' : List String) (b' : Nat),
        walkEntries fuel rest st = some st' ∧ WalkInv r dirs' files' b' st' ∧
        (∀ q ∈ files, q ∈ files') ∧ (∀ q, (q, false) ∈ rest → q ∈ files') := by
  induction rest with
  | nil =>
    intro dirs files b st hinv _ _
    exact ⟨st, dirs, files, b, rfl, hinv, fun q hq => hq, fun q hq => by cases hq⟩
  | cons e rest ih =>
    intro dirs files b st hinv hord hfuel
    obtain ⟨p, isDir⟩ := e
    simp only [List.length_cons] at hfuel
    cases isDir with
    | true =>
      simp only [visitedInOrder, Bool.and_eq_true, Bool.or_eq_true, decide_eq_true_eq] at hord
      obtain ⟨st1, h1, hinv1⟩ := walkInv_dir r dirs files b st p hinv hord.1
      obtain ⟨st', dirs', files', b', h2, hinv', hf1, hf2⟩ :=
        ih (path.Clean p :: dirs) files (b + 1) st1 hinv1 hord.2 (by omega)
      refine ⟨st', dirs', files', b', ?_, hinv', hf1, ?_⟩
      · simp only [walkEntries, walkSuitesAndTests, if_true, h1, Option.map_some',
          Option.some_bind]
        exact h2
      · intro q hq
        rcases List.mem_cons.1 hq with hq | hq
        · cases hq
        · exact hf2 q hq
    | false =>
      simp only [visitedInOrder, Bool.and_eq_true, decide_eq_true_eq] at hord
      obtain ⟨st1, h1, hinv1⟩ := walkInv_file r dirs files b fuel st p hr hinv hord.1 (by omega)
      obtain ⟨st', dirs', files', b', h2, hinv', hf1, hf2⟩ :=
        ih dirs (p :: files) b st1 hinv1 hord.2 (by omega)
      refine ⟨st', dirs', files', b', ?_, hinv', ?_, ?_⟩
      · simp only [walkEntries, h1, Option.some_bind]
        exact h2
      · intro q hq
        exact hf1 q (List.mem_cons_of_mem _ hq)
      · intro q hq
        rcases List.mem_cons.1 hq with hq | hq
        · simp only [Prod.mk.injEq, and_true] at hq
          exact hf1 q (hq ▸ List.mem_cons_self _ _)
        · exact hf2 q hq

theorem walkInv_root (root : String) (hne : path.Clean root ≠ ".") :
    ∃ st, TreeState.createSuiteIfNeeded {} root = some (st, path.Clean root) ∧
      WalkInv (path.Clean root) [path.Clean root] [] 1 st := by
  refine ⟨_, (createSuiteIfNeeded_cases {} root).2.2.1 hne rfl rfl, ?_⟩
  have hm : ∀ k, mapSet (fun _ => none) (path.Clean root)
      ({ PathName := path.Clean root } : SuiteNode) k =
      if k = path.Clean root then some { PathName := path.Clean root } else none := fun k => rfl
  refine
    { root := rfl
      keys := ?_
      keyPath := ?_
      rootDir := List.mem_singleton_self _
      noDot := ?_
      clean := ?_
      parent := ?_
      rank := ⟨fun _ => 0, ?_, ?_⟩
      owner := ?_
      tests := ?_
      visited := ?_ }
  · intro k
    show (mapSet _ _ _ k).isSome = true ↔ _
    rw [hm, List.mem_singleton]
    by_cases hk : k = path.Clean root <;> simp [hk]
  · intro k node h
    change mapSet _ _ _ k = some node at h
    rw [hm] at h
    by_cases hk : k = path.Clean root
    · rw [if_pos hk] at h
      simp only [Option.some.injEq] at h
      rw [← h, hk]
    · rw [if_neg hk] at h; cases h
  · intro h
    exact hne (List.mem_singleton.1 h).symm
  · intro c hc
    rw [List.mem_singleton.1 hc]
    exact path.Clean_idem root
  · intro c hc hcr
    exact absurd (List.mem_singleton.1 hc) hcr
  · intro c hc hcr
    exact absurd (List.mem_singleton.1 hc) hcr
  · intro c _
    exact Nat.zero_lt_one
  · intro k node t h ht
    change mapSet _ _ _ k = some node at h
    rw [hm] at h
    by_cases hk : k = path.Clean root
    · rw [if_pos hk] at h
      simp only [Option.some.injEq] at h
      rw [← h] at ht; cases ht
    · rw [if_neg hk] at h; cases h
  · intro p t h
    cases h
  · intro p hp
    cases hp

/-- C13: for the walk of a root directory whose clean path has a single
component (`Dir` of it is `.`), followed by entries in the order
`visitedInOrder` (each entry lies directly in a directory visited before it),
the walk returns; every test is in the tests of exactly the suite stored under
`Dir` of its path, and its `Suites` are the pointers to the suites of
`Dir(p)`, `Dir(Dir(p))`, and so on, each the parent directory of the one
before, all in the index, the last one the root suite; a test directly in the
root directory has exactly the root suite. -/
theorem walk_links_tests (root : String) (rest : List (String × Bool)) (fuel : Nat)
    (hroot : path.Dir (path.Clean root) = ".") (hne : path.Clean root ≠ ".")
    (horder : visitedInOrder [path.Clean root] rest = true) (hfuel : rest.length < fuel) :
    ∃ st, walkEntries fuel ((root, true) :: rest) {} = some st ∧
      st.rootSuite = some (path.Clean root) ∧
      ∀ p, (p, false) ∈ rest →
        ∃ t, st.testMap p = some t ∧ t.PathName = p ∧
          (∀ k node, st.suiteMap k = some node →
            (t ∈ node.Tests ↔ k = path.Dir p) ∧ node.PathName = k) ∧
          (∃ m, t.Suites = (List.iterate path.Dir (path.Dir p) (m + 1)).map some ∧
            path.Dir^[m] (path.Dir p) = path.Clean root ∧
            ∀ x ∈ List.iterate path.Dir (path.Dir p) (m + 1),
              (st.suiteMap x).isSome = true) ∧
          (path.Dir p = path.Clean root → t.Suites = [some (path.Clean root)]) := by
  obtain ⟨st0, h0, hinv0⟩ := walkInv_root root hne
  obtain ⟨st, dirs, files, b, hwalk, hinv, _, hfiles⟩ :=
    walkInv_walk (path.Clean root) fuel hroot rest [path.Clean root] [] 1 st0 hinv0 horder
      (by omega)
  refine ⟨st, ?_, hinv.root, ?_⟩
  · simp only [walkEntries, walkSuitesAndTests, if_true, h0, Option.map_some',
      Option.some_bind]
    exact hwalk
  · intro p hp
    obtain ⟨t, ht⟩ := Option.isSome_iff_exists.1 (hinv.visited p (hfiles p hp))
    obtain ⟨h1, ⟨node0, hn0, ht0⟩, m, h3, h4, h5, h6⟩ := hinv.tests p t ht
    refine ⟨t, ht, h1, ?_, ⟨m, h3, h4, fun x hx => (hinv.keys x).2 (h5 x hx)⟩, ?_⟩
    · intro k node hk
      refine ⟨⟨fun hmem => ?_, fun hkp => ?_⟩, hinv.keyPath k node hk⟩
      · have := hinv.owner k node t hk hmem
        rw [h1] at this
        exact this.symm
      · rw [hkp, hn0] at hk
        rw [← Option.some.inj hk]
        exact ht0
    · intro hpr
      have hm0 := h6 hpr
      rw [h3, hm0, hpr]
      rfl

/-- C13, an instance: the walk of `./testdata_new` of `exampleWalk`.  The test
in the root directory has exactly the root suite in `Suites`; the test in `sub`
has the suite `testdata_new/sub`, then the root suite. -/
theorem walk_links_tests_witness :
    path.Dir (path.Clean "./testdata_new") = "." ∧ path.Clean "./testdata_new" ≠ "." ∧
    visitedInOrder [path.Clean "./testdata_new"] exampleWalk.tail = true ∧
    (∃ st, walkEntries 10 exampleWalk {} = some st ∧
      st.rootSuite = some "testdata_new" ∧
      ∃ t, st.testMap "testdata_new/a.js" = some t ∧ t.Suites = [some "testdata_new"]) ∧
    (walkEntries 10 exampleWalk {}).map
        (fun st => (st.testMap "testdata_new/sub/b.js").map (fun t => t.Suites))
      = some (some [some "testdata_new/sub", some "testdata_new"]) := by
  refine ⟨by decide, by decide, by decide, ?_, by decide⟩
  obtain ⟨st, h1, h2, h3⟩ := walk_links_tests "./testdata_new" exampleWalk.tail 10
    (by decide) (by decide) (by decide) (by decide)
  obtain ⟨t, ht, _, _, _, h4⟩ := h3 "testdata_new/a.js" (by decide)
  have hc : path.Clean "./testdata_new" = "testdata_new" := by decide
  rw [hc] at h2 h4
  exact ⟨st, h1, h2, t, ht, h4 (by decide)⟩


/-! ## The slice expressions of `removeExclusion` -/

theorem removeCells_length (arr : List excludedCase) (i len : Nat)
    (h1 : i + 1 ≤ len) (h2 : len ≤ arr.length) :
    (arr.take i ++ (arr.drop (i + 1)).take (len - (i + 1)) ++ arr.drop (len - 1)).length
      = arr.length := by
  simp only [List.length_append, List.length_take, List.length_drop]
  omega

theorem removeCells_get_high (arr : List excludedCase) (i len j : Nat)
    (h1 : i + 1 ≤ len) (h2 : len ≤ arr.length) (hj : len - 1 ≤ j) :
    (arr.take i ++ (arr.drop (i + 1)).take (len - (i + 1)) ++ arr.drop (len - 1)).get? j
      = arr.get? j := by
  have hl : (arr.take i ++ (arr.drop (i + 1)).take (len - (i + 1))).length = len - 1 := by
    simp only [List.length_append, List.length_take, List.length_drop]
    omega
  rw [List.get?_eq_getElem?, List.get?_eq_getElem?,
    List.getElem?_append_right (by rw [hl]; exact hj), hl, List.getElem?_drop]
  congr 1
  omega

theorem removeCells_get_mid (arr : List excludedCase) (i len j : Nat)
    (h1 : i + 1 ≤ len) (h2 : len ≤ arr.length) (hi : i ≤ j) (hj : j + 1 < len) :
    (arr.take i ++ (arr.drop (i + 1)).take (len - (i + 1)) ++ arr.drop (len - 1)).get? j
      = arr.get? (j + 1) := by
  have hl : (arr.take i ++ (arr.drop (i + 1)).take (len - (i + 1))).length = len - 1 := by
    simp only [List.length_append, List.length_take, List.length_drop]
    omega
  have hi' : (arr.take i).length = i := by
    simp only [List.length_take]
    omega
  rw [List.get?_eq_getElem?, List.get?_eq_getElem?,
    List.getElem?_append_left (by rw [hl]; omega),
    List.getElem?_append_right (by rw [hi']; exact hi), hi',
    List.getElem?_take_of_lt (by omega), List.getElem?_drop]
  congr 1
  omega

theorem removeStep_cases (p : String) (i : Nat) (arr : List excludedCase) (len : Nat) :
    (removeStep p i (arr, len) = some (arr, len) ∧
        ∀ exc, arr.get? i = some exc → exc.pathName ≠ p) ∨
    (removeStep p i (arr, len) =
        some (arr.take i ++ (arr.drop (i + 1)).take (len - (i + 1)) ++ arr.drop (len - 1),
          len - 1) ∧
        i + 1 ≤ len ∧ ∃ exc, arr.get? i = some exc ∧ exc.pathName = p) ∨
    (removeStep p i (arr, len) = none ∧ len < i + 1 ∧
        ∃ exc, arr.get? i = some exc ∧ exc.pathName = p) := by
  unfold removeStep
  cases hg : arr.get? i with
  | none => exact Or.inl ⟨rfl, fun exc h => by cases h⟩
  | some exc =>
    by_cases hx : exc.pathName = p
    · by_cases hl : i + 1 ≤ len
      · refine Or.inr (Or.inl ⟨?_, hl, exc, rfl, hx⟩)
        simp only [hx, if_true, if_pos hl]
      · refine Or.inr (Or.inr ⟨?_, by omega, exc, rfl, hx⟩)
        simp only [hx, if_true, if_neg hl]
    · refine Or.inl ⟨?_, ?_⟩
      · simp only [if_neg hx]
      · intro e he
        cases he
        exact hx

/-- The loop returns when the last entry of the list is not the path: a cell
at or after the current index that is not below the last cell of the slice
holds the last entry of the list, so no match is met past the end of the
slice. -/
theorem removeLoop_returns_of_last_ne (p : String) (z : excludedCase) (hz : z.pathName ≠ p)
    (n : Nat) (k : Nat) :
    ∀ (i : Nat) (arr : List excludedCase) (len : Nat),
      arr.length = n → len ≤ n →
      (∀ j, i ≤ j → len ≤ j + 1 → j < n → arr.get? j = some z) →
      ∃ s, removeLoop p k i (arr, len) = some s := by
  induction k with
  | zero => intro i arr len _ _ _; exact ⟨_, rfl⟩
  | succ k ih =>
    intro i arr len hn hlen hcell
    unfold removeLoop
    rcases removeStep_cases p i arr len with ⟨h, _⟩ | ⟨h, hl, exc, hg, hx⟩ | ⟨_, hl, exc, hg, hx⟩
    · rw [h]
      simp only [Option.some_bind]
      exact ih (i + 1) arr len hn hlen (fun j h1 h2 h3 => hcell j (by omega) h2 h3)
    · rw [h]
      simp only [Option.some_bind]
      have hin : i < n := by
        rw [← hn]
        rw [List.get?_eq_getElem?] at hg
        exact (List.getElem?_eq_some_iff.1 hg).1
      apply ih (i + 1) _ (len - 1)
      · rw [removeCells_length arr i len hl (by omega), hn]
      · omega
      · intro j h1 h2 h3
        by_cases hj : len - 1 ≤ j
        · rw [removeCells_get_high arr i len j hl (by omega) hj]
          exact hcell j (by omega) (by omega) h3
        · rw [removeCells_get_mid arr i len j hl (by omega) (by omega) (by omega)]
          exact hcell (j + 1) (by omega) (by omega) (by omega)
    · exfalso
      have hin : i < n := by
        rw [← hn]
        rw [List.get?_eq_getElem?] at hg
        exact (List.getElem?_eq_some_iff.1 hg).1
      have := hcell i (le_refl _) (by omega) hin
      rw [hg] at this
      cases this
      exact hz hx

/-- The loop panics when the last entry of the list is the path and the path
has an earlier entry: the last cell of the array is never overwritten, and when
the loop reaches it the slice is shorter than the array. -/
theorem removeLoop_panics_of_last_eq (p : String) (l : List excludedCase) (z : excludedCase)
    (hz : z.pathName = p) (k : Nat) :
    ∀ (i : Nat) (arr : List excludedCase) (len : Nat),
      arr.length = l.length → arr.get? (l.length - 1) = some z → len ≤ l.length →
      (len = l.length → arr = l ∧ ∃ j exc, i ≤ j ∧ j + 1 < l.length ∧
        l.get? j = some exc ∧ exc.pathName = p) →
      i < l.length → l.length ≤ i + k →
      removeLoop p k i (arr, len) = none := by
  induction k with
  | zero => intro i arr len _ _ _ _ h1 h2; omega
  | succ k ih =>
    intro i arr len hn hz' hlen hfull hi hk
    unfold removeLoop
    rcases removeStep_cases p i arr len with ⟨h, hne⟩ | ⟨h, hl, exc, hg, hx⟩ | ⟨h, _⟩
    · rw [h]
      simp only [Option.some_bind]
      have hi1 : i + 1 < l.length := by
        by_contra hc
        have : i = l.length - 1 := by omega
        rw [this] at hne
        exact hne z hz' hz
      apply ih (i + 1) arr len hn hz' hlen _ hi1 (by omega)
      intro hfl
      obtain ⟨ha, j, exc, h1, h2, h3, h4⟩ := hfull hfl
      refine ⟨ha, j, exc, ?_, h2, h3, h4⟩
      by_contra hc
      have : j = i := by omega
      rw [this, ← ha] at h3
      exact hne exc h3 h4
    · rw [h]
      simp only [Option.some_bind]
      have hi1 : i + 1 < l.length := by
        by_contra hc
        have hfl : len = l.length := by omega
        obtain ⟨_, j, _, h1, h2, _, _⟩ := hfull hfl
        omega
      apply ih (i + 1) _ (len - 1) _ _ (by omega) _ hi1 (by omega)
      · rw [removeCells_length arr i len hl (by omega), hn]
      · rw [removeCells_get_high arr i len _ hl (by omega) (by omega)]
        exact hz'
      · intro hfl
        omega
    · rw [h]
      rfl

theorem getLast_eq_get_last (l : List excludedCase) : l.getLast? = l.get? (l.length - 1) := by
  rw [List.getLast?_eq_getElem?, List.get?_eq_getElem?]

/-- The range loop of `removeExclusion` panics exactly on the lists whose last
entry is the path and that hold the path at least twice. -/
theorem removeLoop_panics_iff (p : String) (l : List excludedCase) :
    removeLoop p l.length 0 (l, l.length) = none ↔
      (l.getLast? = some ⟨p⟩ ∧ 2 ≤ l.count ⟨p⟩) := by
  constructor
  · intro h
    by_contra hc
    rw [not_and_or] at hc
    have hsome : ∃ s, removeLoop p l.length 0 (l, l.length) = some s := by
      rcases hc with hc | hc
      · cases hl : l.getLast? with
        | none =>
          rw [List.getLast?_eq_none_iff] at hl
          subst hl
          exact ⟨_, rfl⟩
        | some z =>
          have hz : z.pathName ≠ p := by
            intro e
            apply hc
            rw [hl, ← e]
          rw [getLast_eq_get_last] at hl
          apply removeLoop_returns_of_last_ne p z hz l.length l.length 0 l l.length rfl
            (le_refl _)
          intro j _ h2 h3
          have : j = l.length - 1 := by omega
          rw [this]
          exact hl
      · have hc1 : l.countP (fun e => decide (e.pathName = p)) ≤ 1 := by
          rw [← count_eq_countP_pathName]
          omega
        obtain ⟨s, hs, _⟩ := removeLoop_spec p l [] hc1
        exact ⟨s, by simpa using hs⟩
    obtain ⟨s, hs⟩ := hsome
    rw [hs] at h
    cases h
  · rintro ⟨hlast, hcount⟩
    rw [getLast_eq_get_last] at hlast
    have hpos : 0 < l.length := by
      rcases l with _ | ⟨a, t⟩
      · simp at hcount
      · simp
    apply removeLoop_panics_of_last_eq p l ⟨p⟩ rfl l.length 0 l l.length rfl hlast
      (le_refl _) _ hpos (by omega)
    intro _
    refine ⟨rfl, ?_⟩
    -- the path has an entry before the last cell
    have hsplit : l = l.dropLast ++ [⟨p⟩] := by
      have h1 := List.dropLast_append_getLast? (⟨p⟩ : excludedCase) (by
        rw [getLast_eq_get_last]; exact hlast)
      exact h1.symm
    have hmem : (⟨p⟩ : excludedCase) ∈ l.dropLast := by
      rw [hsplit, List.count_append] at hcount
      have : 0 < l.dropLast.count ⟨p⟩ := by
        have : [(⟨p⟩ : excludedCase)].count ⟨p⟩ = 1 := by simp
        omega
      exact List.count_pos_iff.1 this
    obtain ⟨j, hj, hjp⟩ := List.getElem_of_mem hmem
    have hjl : j + 1 < l.length + 1 := by
      rw [List.length_dropLast] at hj
      omega
    rw [List.length_dropLast] at hj
    refine ⟨j, ⟨p⟩, Nat.zero_le _, by omega, ?_, rfl⟩
    rw [List.get?_eq_getElem?, List.getElem?_eq_some_iff]
    refine ⟨by omega, ?_⟩
    rw [← hjp, List.getElem_dropLast]

/-- C21: `removeExclusion` does not complete on every list.  Read from a
`TestExpectations` file with the lines `p`, `p`, the registry is `[p, p]`, and
`removeExclusion("p")` panics: with the slice one entry long after the first
removal, the second iteration (index 1) evaluates `elist[2:]`.  In general the
range loop panics on a slice expression `elist[i+1:]` exactly when the last
entry of the list is the path and the list holds the path at least twice, and
`removeExclusion` panics whenever its loop does. -/
theorem removeExclusion_slice_panic :
    (GlobalState.readExpectations {} ["p", "p"]).excludeList = [⟨"p"⟩, ⟨"p"⟩] ∧
    removeStep "p" 0 ([⟨"p"⟩, ⟨"p"⟩], 2) = some ([⟨"p"⟩, ⟨"p"⟩], 1) ∧
    removeStep "p" 1 ([⟨"p"⟩, ⟨"p"⟩], 1) = none ∧
    (GlobalState.readExpectations {} ["p", "p"]).removeExclusion "p" = none ∧
    (∀ (p : String) (l : List excludedCase),
      removeLoop p l.length 0 (l, l.length) = none ↔
        (l.getLast? = some ⟨p⟩ ∧ 2 ≤ l.count ⟨p⟩)) ∧
    (∀ (g : GlobalState) (p : String),
      removeLoop p g.excludeList.length 0 (g.excludeList, g.excludeList.length) = none →
      g.removeExclusion p = none) := by
  refine ⟨by decide, by decide, by decide, by decide, removeLoop_panics_iff, ?_⟩
  intro g p h
  unfold GlobalState.removeExclusion
  rw [h]
  rfl

/-! ## The counts of a suite partition its tests -/

theorem calculateResults_total_add_excluded (g : GlobalState) (suite : TestSuite) (rt : String)
    (hrt : rt = "strict" ∨ rt = "nonstrict") :
    (suite.CalculateResults g).TotalCounts rt + (suite.CalculateResults g).ExcludedCounts rt
      = suite.Tests.length := by
  unfold TestSuite.CalculateResults
  obtain ⟨e1, e2, _⟩ := calculateLoop_counts g rt hrt suite.Tests
    ⟨fun _ => 0, fun _ => 0, fun _ => 0⟩
  rw [e1, e2]
  simp only [Nat.zero_add]
  rw [Nat.add_comm]
  have h := List.length_eq_countP_add_countP
    (fun t : TestCase => decide (t.StateValue g rt = WillNotRunState)) suite.Tests
  rw [h]
  congr 1
  apply List.countP_congr
  intro t _
  simp

theorem calculateResults_hasNotRun_test (g : GlobalState) (suite : TestSuite) (rt : String)
    (hrt : rt = "strict" ∨ rt = "nonstrict") (t : TestCase) (ht : t ∈ suite.Tests)
    (hs : t.StateValue g rt ≠ WillNotRunState)
    (hno : ∀ u ∈ suite.Tests, u.StateValue g rt ≠ SuccessState) :
    0 < (suite.CalculateResults g).TotalCounts rt ∧
      (suite.CalculateResults g).SuccessCounts rt = 0 := by
  unfold TestSuite.CalculateResults
  obtain ⟨_, e2, e3⟩ := calculateLoop_counts g rt hrt suite.Tests
    ⟨fun _ => 0, fun _ => 0, fun _ => 0⟩
  rw [e2, e3]
  simp only [Nat.zero_add]
  constructor
  · apply List.countP_pos_iff.2
    exact ⟨t, ht, by simpa using hs⟩
  · apply List.countP_eq_zero.2
    intro u hu
    simpa using hno u hu

theorem testCase_stateValue_neverRun (g : GlobalState) (t : TestCase) (rt : String)
    (h1 : t.HasRunType rt = true) (h2 : t.IsExcluded g = false) (h3 : t.lastResults rt = none) :
    t.StateValue g rt = HasNotRunState := by
  unfold TestCase.StateValue
  simp [h1, h2, h3]

/-- C22: for every registry `g`, every suite and `rt` strict or nonstrict, the
counts of `CalculateResults` satisfy `total[rt] + excluded[rt] = n`, with `n`
the number of directly owned tests, and `0 <= success[rt] <= total[rt]`.  The
tests, their flags and their recorded results are arbitrary. -/
theorem calculateResults_partition (g : GlobalState) (suite : TestSuite) (rt : String)
    (hrt : rt = "strict" ∨ rt = "nonstrict") :
    (suite.CalculateResults g).TotalCounts rt + (suite.CalculateResults g).ExcludedCounts rt
        = suite.Tests.length ∧
    0 ≤ (suite.CalculateResults g).SuccessCounts rt ∧
    (suite.CalculateResults g).SuccessCounts rt ≤ (suite.CalculateResults g).TotalCounts rt :=
  ⟨calculateResults_total_add_excluded g suite rt hrt, Nat.zero_le _, success_le_total g suite rt⟩

/-- C22, an instance: `exampleSuite` owns two tests; for nonstrict one is
counted in the total (its last run failed) and one as excluded (it is flagged
`onlyStrict`), and no success is counted. -/
theorem calculateResults_partition_witness :
    exampleSuite.Tests.length = 2 ∧
    (exampleSuite.CalculateResults {}).TotalCounts "nonstrict" = 1 ∧
    (exampleSuite.CalculateResults {}).ExcludedCounts "nonstrict" = 1 ∧
    (exampleSuite.CalculateResults {}).TotalCounts "nonstrict" +
        (exampleSuite.CalculateResults {}).ExcludedCounts "nonstrict"
      = exampleSuite.Tests.length ∧
    (exampleSuite.CalculateResults {}).SuccessCounts "nonstrict" ≤
      (exampleSuite.CalculateResults {}).TotalCounts "nonstrict" :=
  have h := calculateResults_partition {} exampleSuite "nonstrict" (Or.inr rfl)
  ⟨by decide, by decide, by decide, h.1, h.2.2⟩

/-- C23: for `rt` strict or nonstrict, `TestSuite.StateValue(rt)` is has-not-run
exactly when the suite directly owns no test.  A suite that owns a test which
applies to `rt`, is not excluded and has no recorded result for `rt`, and none
of whose tests has the state success for `rt`, has the state failure
(`allbad`), which is not has-not-run. -/
theorem testSuite_hasNotRun_iff (g : GlobalState) (suite : TestSuite) (rt : String)
    (hrt : rt = "strict" ∨ rt = "nonstrict") :
    (suite.StateValue g rt = HasNotRunState ↔ suite.Tests = []) ∧
    (∀ t ∈ suite.Tests, t.HasRunType rt = true → t.IsExcluded g = false →
      t.lastResults rt = none →
      (∀ u ∈ suite.Tests, u.StateValue g rt ≠ SuccessState) →
      suite.StateValue g rt = FailureState ∧ suite.StateValue g rt ≠ HasNotRunState) := by
  have hsum := calculateResults_total_add_excluded g suite rt hrt
  constructor
  · unfold TestSuite.StateValue
    simp only []
    constructor
    · intro h
      apply List.length_eq_zero.1
      split_ifs at h with h1 h2 h3 h4
      · exact absurd h (by decide)
      · omega
      · exact absurd h (by decide)
      · exact absurd h (by decide)
      · exact absurd h (by decide)
    · intro h
      rw [h, List.length_nil] at hsum
      have h1 : (suite.CalculateResults g).TotalCounts rt = 0 := by omega
      have h2 : ¬ (suite.CalculateResults g).ExcludedCounts rt > 0 := by omega
      rw [if_pos h1, if_neg h2]
  · intro t ht hrun hex hres hno
    have hst := testCase_stateValue_neverRun g t rt hrun hex hres
    obtain ⟨hT, hS⟩ := calculateResults_hasNotRun_test g suite rt hrt t ht
      (by rw [hst]; decide) hno
    have hf : suite.StateValue g rt = FailureState := by
      unfold TestSuite.StateValue
      simp only [half_le_iff, hS]
      have h1 : ¬ (suite.CalculateResults g).TotalCounts rt = 0 := by omega
      have h2 : ¬ 0 = (suite.CalculateResults g).TotalCounts rt := by omega
      have h3 : ¬ (suite.CalculateResults g).TotalCounts rt ≤ 2 * 0 := by omega
      rw [if_neg h1, if_neg h2, if_neg h3]
    exact ⟨hf, by rw [hf]; decide⟩

/-- C23, an instance: `exampleSuiteNeverRun` owns one test, which applies to
strict, is not excluded and has never been run; its state for strict is
`allbad`, and it is not `hasntrun`, the suite owning a test. -/
theorem testSuite_hasNotRun_iff_witness :
    exampleSuiteNeverRun.StateValue {} "strict" = "allbad" ∧
    (exampleSuiteNeverRun.StateValue {} "strict" = "hasntrun" ↔
      exampleSuiteNeverRun.Tests = []) :=
  have h := testSuite_hasNotRun_iff {} exampleSuiteNeverRun "strict" (Or.inl rfl)
  ⟨(h.2 { PathName := "d/sub/c.js" } (by simp [exampleSuiteNeverRun, TestSuite.Tests])
      (by decide) (by decide) rfl (by decide)).1, h.1⟩

end Go262
